import Mathlib

/-! jsonmap: the JSON encoder of the insertion-ordered map.

A shallow embedding of `marshal.go` (`Map.MarshalJSON`) together with the
parts of its environment that it drives: the ordered map it walks with
`First()`/`Next()`, the `bytes.Buffer` it writes into and the stream encoder
`json.Encoder` of Go's `encoding/json`.

Text is modelled at the level of Unicode code points: a `Char` of the output
stands for the UTF-8 bytes of that code point, so an ASCII character is exactly
one byte.
-/

namespace Jsonmap

/-- Contents of a `[]byte` / `bytes.Buffer`, one `Char` per encoded code point. -/
abbrev Bytes := List Char

/-- Go `type Key = string`. -/
abbrev Key := List Char

/-- Opening brace of a JSON object. -/
def lbrace : Char := Char.ofNat 123

/-- Closing brace of a JSON object. -/
def rbrace : Char := Char.ofNat 125

/-- Line feed, the byte `json.Encoder.Encode` writes after each value. -/
def lf : Char := Char.ofNat 10

/-- Modelled from the spec: the `Map` type, which `marshal.go` uses but does not
declare. It owns an index from each live key to its entry (here the position of
the entry) and the entries threaded in insertion order from head to tail, plus
the per-map `escapeHTML` flag. `α` is the Go value type `any`. -/
structure Map (α : Type) where
  /-- The hash index: key to position of its entry. -/
  elements : List (Key × Nat)
  /-- The linked sequence of entries, head first. -/
  entries : List (Key × α)
  escapeHTML : Bool

/-- Modelled from the spec: a cursor `*Element` into the linked sequence. The
cursor is represented by the entries from the element it points at up to the
tail; the empty list is the nil pointer. -/
abbrev Element (α : Type) := List (Key × α)

/-- Modelled from the spec: `New()` returns an empty map with `escapeHTML = true`. -/
def New {α : Type} : Map α := ⟨[], [], true⟩

/-- Modelled from the spec: `SetEscapeHTML(enabled)` sets the flag used by
subsequent encodes. -/
def Map.SetEscapeHTML {α : Type} (m : Map α) (enabled : Bool) : Map α :=
  { m with escapeHTML := enabled }

/-- Modelled from the spec: `First()` is the head of the sequence, nil on an
empty map. -/
def Map.First {α : Type} (m : Map α) : Element α := m.entries

/-- Modelled from the spec: `Next()` is the following entry, nil on the tail. -/
def Element.Next {α : Type} (el : Element α) : Element α := el.tail

/-- Modelled from the spec: `Key()` of a non-nil cursor. -/
def Element.Key {α : Type} (el : Element α) (h : el ≠ []) : Key := (el.head h).1

/-- Modelled from the spec: `Value()` of a non-nil cursor. -/
def Element.Value {α : Type} (el : Element α) (h : el ≠ []) : α := (el.head h).2

/-- Modelled from the spec: the entries visited by `First()` and then `Next()`
until nil, in that order. -/
def Map.iterate {α : Type} (m : Map α) : List (Key × α) := m.First

/-- Modelled from the spec: `Len()`, the number of live keys. -/
def Map.Len {α : Type} (m : Map α) : Nat := m.entries.length

/-- Modelled from the spec: `Keys()`, all keys in insertion order. -/
def Map.Keys {α : Type} (m : Map α) : List Key := m.entries.map Prod.fst

/-- The part of Go's `encoding/json` that `MarshalJSON` calls, taken as a
parameter: `ofKey` boxes a string key into an `any`, and `marshal escapeHTML v`
is the JSON encoding of the single value `v` under the encoder option
`escapeHTML`, or the encoder's error. -/
structure JSONLib (α ε : Type) where
  ofKey : Key → α
  marshal : Bool → α → Except ε Bytes

/-- The stream encoder `json.Encoder` created by `json.NewEncoder(&buf)`; the
buffer it writes to is passed explicitly. -/
structure Encoder where
  escapeHTML : Bool

/-- The call `json.NewEncoder(&buf)`: HTML escaping is on by default. -/
def NewEncoder : Encoder := ⟨true⟩

/-- The call `enc.SetEscapeHTML(enabled)`. -/
def Encoder.SetEscapeHTML (_enc : Encoder) (enabled : Bool) : Encoder := ⟨enabled⟩

/-- The call `enc.Encode(v)` of `encoding/json`: marshal `v`; on an error return
it and write nothing; otherwise terminate the value with a newline and write
it to the buffer. -/
def Encoder.Encode {α ε : Type} (lib : JSONLib α ε) (enc : Encoder) (v : α)
    (buf : Bytes) : Except ε Bytes :=
  match lib.marshal enc.escapeHTML v with
  | .error err => .error err
  | .ok b => .ok (buf ++ (b ++ [lf]))

/-- The `for el := m.First(); el != nil; el = el.Next()` loop of `MarshalJSON`
(marshal.go lines 18-30), entered with cursor `el`, the local `first` and the
buffer `buf`. On a non-nil cursor the pattern `(key, value) :: next` binds
`el.Key()`, `el.Value()` and `el.Next()`. -/
def marshalLoop {α ε : Type} (lib : JSONLib α ε) (enc : Encoder) :
    Element α → Bool → Bytes → Except ε Bytes
  | [], _, buf => .ok buf
  | (key, value) :: next, first, buf =>
    let buf := if !first then buf ++ [','] else buf
    match enc.Encode lib (lib.ofKey key) buf with
    | .error err => .error err
    | .ok buf =>
      let buf := buf ++ [':']
      match enc.Encode lib value buf with
      | .error err => .error err
      | .ok buf => marshalLoop lib enc next false buf

/-- `func (m *Map) MarshalJSON() ([]byte, error)`. The result pair is
`(bytes, err)`; `none` is Go's `nil`. -/
def Map.MarshalJSON {α ε : Type} (lib : JSONLib α ε) (m : Map α) :
    Option Bytes × Option ε :=
  let buf : Bytes := []
  let buf := buf ++ [lbrace]
  let enc := NewEncoder
  let enc := enc.SetEscapeHTML m.escapeHTML
  match marshalLoop lib enc m.First true buf with
  | .error err => (none, some err)
  | .ok buf => (some (buf ++ [rbrace]), none)

/-- The bytes of a successful encode of `v`, empty when the encoder fails. -/
def encoded {α ε : Type} (lib : JSONLib α ε) (escapeHTML : Bool) (v : α) : Bytes :=
  match lib.marshal escapeHTML v with
  | .ok b => b
  | .error _ => []

/-- Whether the encoder accepts `v`. -/
def encodes {α ε : Type} (lib : JSONLib α ε) (escapeHTML : Bool) (v : α) : Bool :=
  match lib.marshal escapeHTML v with
  | .ok _ => true
  | .error _ => false

/-- What the loop writes for one entry after the optional comma: the encoded
key, a line feed, a colon, the encoded value, a line feed. -/
def member {α ε : Type} (lib : JSONLib α ε) (escapeHTML : Bool) (p : Key × α) : Bytes :=
  encoded lib escapeHTML (lib.ofKey p.1) ++ [lf] ++ [':'] ++ encoded lib escapeHTML p.2 ++ [lf]

/-! ## Go's `encoding/json` on the values a decoded map holds -/

/-- Errors returned by `encoding/json` while encoding. -/
inductive EncodeError
  /-- The error `*json.UnsupportedTypeError` (channel, function, complex). -/
  | unsupportedType (name : String)
  /-- The error `*json.UnsupportedValueError` (NaN, infinities, cycles). -/
  | unsupportedValue (name : String)
  /-- The error `*json.MarshalerError`, wrapping the error a `MarshalJSON`
  method returned. -/
  | marshalerError (err : EncodeError)
  deriving DecidableEq, Repr

/-- A finite `float64`, the Go type of a decoded JSON number, held as the
shortest decimal that reads back as it, which is the form `strconv` writes: the
number is `(-1)^neg * digits * 10^exp10`, and `digits` is not a multiple of ten
unless it is zero (`neg` with zero digits is the negative zero). -/
structure Float64 where
  /-- The sign bit. -/
  neg : Bool
  /-- The significant decimal digits, read as a natural number. -/
  digits : Nat
  /-- The power of ten that scales `digits`. -/
  exp10 : Int
  deriving DecidableEq, Repr

/-- Move the trailing zeros of `d`, at most `fuel` of them, into the exponent. -/
def stripZeros : Nat → Nat → Int → Nat × Int
  | 0, d, e => (d, e)
  | fuel + 1, d, e =>
    if d ≠ 0 ∧ d % 10 = 0 then stripZeros fuel (d / 10) (e + 1) else (d, e)

/-- The `float64` that holds the natural number `n`, for an `n` that a
`float64` holds exactly. -/
def Float64.ofNat (n : Nat) : Float64 :=
  match stripZeros n n 0 with
  | (d, e) => ⟨false, d, e⟩

instance (n : Nat) : OfNat Float64 n := ⟨Float64.ofNat n⟩

/-- The dynamically typed values (`any`) stored in a map: the six kinds of the
data model of the spec (null, bool, number, string, ordered array, nested
ordered map), plus the values the encoder cannot represent, among them the
`float64` values NaN and the infinities. A `number x` is a finite `float64`. -/
inductive Value
  | null
  | bool (b : Bool)
  | number (x : Float64)
  | string (s : List Char)
  | array (xs : List Value)
  | object (m : Map Value)
  | unsupported (err : EncodeError)

/-- The table `hex = "0123456789abcdef"` of encoding/json. -/
def hex (n : Nat) : Char := "0123456789abcdef".toList.getD n '0'

/-- The table `safeSet` of encoding/json: the ASCII characters that need no
escaping in a JSON string. -/
def safeSet (c : Char) : Bool :=
  decide (0x20 ≤ c.toNat) && decide (c.toNat < 0x80) && c != '"' && c != '\\'

/-- The table `htmlSafeSet` of encoding/json: `safeSet` without `<`, `>`, `&`. -/
def htmlSafeSet (c : Char) : Bool :=
  safeSet c && c != '<' && c != '>' && c != '&'

/-- What `appendString` of encoding/json writes for one code point of the
source string (Go 1.22 and later, where backspace and form feed are written
`\b` and `\f`). -/
def escapeChar (escapeHTML : Bool) (c : Char) : Bytes :=
  if c.toNat < 0x80 then
    if htmlSafeSet c || (!escapeHTML && safeSet c) then [c]
    else if c = '\\' || c = '"' then ['\\', c]
    else if c = Char.ofNat 8 then ['\\', 'b']
    else if c = Char.ofNat 12 then ['\\', 'f']
    else if c = Char.ofNat 10 then ['\\', 'n']
    else if c = Char.ofNat 13 then ['\\', 'r']
    else if c = Char.ofNat 9 then ['\\', 't']
    else ['\\', 'u', '0', '0', hex (c.toNat / 16), hex (c.toNat % 16)]
  else if c = Char.ofNat 0x2028 || c = Char.ofNat 0x2029 then
    ['\\', 'u', '2', '0', '2', hex (c.toNat % 16)]
  else [c]

/-- The function `appendString(dst, src, escapeHTML)` of encoding/json: `src` as
a quoted JSON string. -/
def appendString (dst : Bytes) (src : List Char) (escapeHTML : Bool) : Bytes :=
  dst ++ ['"'] ++ src.flatMap (escapeChar escapeHTML) ++ ['"']

/-- Decimal digits of `n`, most significant first, in front of `acc`. -/
def formatNatAux : Nat → Nat → Bytes → Bytes
  | 0, _, acc => acc
  | fuel + 1, n, acc =>
    if n < 10 then Char.ofNat (48 + n) :: acc
    else formatNatAux fuel (n / 10) (Char.ofNat (48 + n % 10) :: acc)

/-- The decimal text of a natural number. -/
def formatNat (n : Nat) : Bytes := formatNatAux (n + 1) n []

/-- The JSON text of a finite `float64` as `floatEncoder` of encoding/json
writes it with `strconv.AppendFloat(b, f, fmt, -1, 64)`: the shortest digits, in
the format `'e'` when the magnitude is below `1e-6` or at least `1e21` and in
the format `'f'` otherwise; an exponent of one digit loses its leading zero
(`e-09` becomes `e-9`). With `dp` the position of the decimal point in front of
or behind the digits, the magnitude lies between `10^(dp-1)` and `10^dp`. -/
def formatFloat (x : Float64) : Bytes :=
  let sign : Bytes := if x.neg then ['-'] else []
  if x.digits = 0 then sign ++ ['0']
  else
    let ds := formatNat x.digits
    let dp : Int := (ds.length : Int) + x.exp10
    if dp < -5 ∨ 21 < dp then
      sign ++ (ds.take 1 ++ ((if 1 < ds.length then '.' :: ds.drop 1 else [])
        ++ (['e', if dp < 1 then '-' else '+'] ++ formatNat (dp - 1).natAbs)))
    else if dp ≤ 0 then sign ++ (['0', '.'] ++ (List.replicate (-dp).toNat '0' ++ ds))
    else if (ds.length : Int) ≤ dp then
      sign ++ (ds ++ List.replicate (dp.toNat - ds.length) '0')
    else sign ++ (ds.take dp.toNat ++ '.' :: ds.drop dp.toNat)

/-- Where the scanner of `appendCompact` stands with respect to string
literals. -/
inductive ScanState
  /-- Outside every string literal. -/
  | outside
  /-- Inside a string literal. -/
  | inString
  /-- Inside a string literal, right after a backslash. -/
  | inStringEsc
  deriving DecidableEq, Repr

/-- The function `isSpace` of encoding/json. -/
def isSpace (c : Char) : Bool :=
  c = ' ' || c = Char.ofNat 9 || c = Char.ofNat 13 || c = Char.ofNat 10

/-- The scanner state after the character `c`. -/
def scanStep (st : ScanState) (c : Char) : ScanState :=
  match st with
  | .outside => if c = '"' then .inString else .outside
  | .inString => if c = '\\' then .inStringEsc else if c = '"' then .outside else .inString
  | .inStringEsc => .inString

/-- What `appendCompact` writes for the character `c` met in state `st`: with
`escape`, `<`, `>`, `&` and U+2028, U+2029 become escape sequences; insignificant
whitespace is dropped; every other character is copied. -/
def compactChar (escape : Bool) (st : ScanState) (c : Char) : Bytes :=
  if escape && (c = '<' || c = '>' || c = '&') then
    ['\\', 'u', '0', '0', hex (c.toNat / 16), hex (c.toNat % 16)]
  else if escape && (c = Char.ofNat 0x2028 || c = Char.ofNat 0x2029) then
    ['\\', 'u', '2', '0', '2', hex (c.toNat % 16)]
  else if st = .outside && isSpace c then []
  else [c]

/-- The loop of `appendCompact` from scanner state `st`. -/
def compactFrom (escape : Bool) : ScanState → Bytes → Bytes
  | _, [] => []
  | st, c :: rest => compactChar escape st c ++ compactFrom escape (scanStep st c) rest

/-- The function `appendCompact(dst, src, escape)` of encoding/json applied to
the output of a `MarshalJSON` method. The scanner's syntax check, which only
rejects text that is not JSON, is not modelled. -/
def appendCompact (dst : Bytes) (src : Bytes) (escape : Bool) : Bytes :=
  dst ++ compactFrom escape .outside src

mutual
/-- The function `encodeState.marshal(v, encOpts{escapeHTML})` of encoding/json
on a `Value`. For a nested map it is `marshalerEncoder`: call the map's
`MarshalJSON`, wrap its error in a `MarshalerError`, else compact its output
under the options of the calling encoder. -/
def marshalValue (escapeHTML : Bool) : Value → Except EncodeError Bytes
  | .null => .ok "null".toList
  | .bool b => .ok (if b then "true".toList else "false".toList)
  | .number x => .ok (formatFloat x)
  | .string s => .ok (appendString [] s escapeHTML)
  | .array xs =>
    match marshalArray escapeHTML true xs with
    | .error err => .error err
    | .ok b => .ok ('[' :: b ++ [']'])
  | .object ⟨_, entries, flag⟩ =>
    match marshalEntries flag entries true [lbrace] with
    | .error err => .error (.marshalerError err)
    | .ok buf => .ok (appendCompact [] (buf ++ [rbrace]) escapeHTML)
  | .unsupported err => .error err
/-- The elements of a slice as `arrayEncoder` of encoding/json writes them, a
comma before each but the first. -/
def marshalArray (escapeHTML : Bool) : Bool → List Value → Except EncodeError Bytes
  | _, [] => .ok []
  | first, x :: rest =>
    match marshalValue escapeHTML x with
    | .error err => .error err
    | .ok b =>
      match marshalArray escapeHTML false rest with
      | .error err => .error err
      | .ok bs => .ok ((if first then [] else [',']) ++ b ++ bs)
/-- The loop of the `MarshalJSON` method of a nested map, as run by the
encoder: the text of `marshalLoop`, written inside the recursion over the value
(`marshalEntries_eq` shows that it is `marshalLoop` for this encoder). -/
def marshalEntries (flag : Bool) :
    List (Key × Value) → Bool → Bytes → Except EncodeError Bytes
  | [], _, buf => .ok buf
  | (key, value) :: next, first, buf =>
    let buf := if !first then buf ++ [','] else buf
    match (Except.ok (appendString [] key flag) : Except EncodeError Bytes) with
    | .error err => .error err
    | .ok b =>
      let buf := buf ++ (b ++ [lf])
      let buf := buf ++ [':']
      match marshalValue flag value with
      | .error err => .error err
      | .ok b => marshalEntries flag next false (buf ++ (b ++ [lf]))
end

/-- Go's `encoding/json` as the library `MarshalJSON` runs against: a key is
boxed as a string value. -/
def goJSON : JSONLib Value EncodeError := ⟨Value.string, marshalValue⟩

/-- The function `json.Marshal(m)` on a map: the top-level encoder has HTML
escaping on and returns the bytes without a trailing newline. -/
def Marshal (m : Map Value) : Option Bytes × Option EncodeError :=
  match marshalValue true (.object m) with
  | .error err => (none, some err)
  | .ok b => (some b, none)

/-- Go's `bytes.TrimRight(b, "\n")`. -/
def trimRightLF (b : Bytes) : Bytes := (b.reverse.dropWhile (· = lf)).reverse

/-- The test helper `encodeJSON(v, escapeHTML)` of json_test.go: encode with a
stream encoder whose HTML escaping is set to `escapeHTML` and trim the final
line feed. -/
def encodeJSON (m : Map Value) (escapeHTML : Bool) : Option Bytes × Option EncodeError :=
  let buf : Bytes := []
  let enc := NewEncoder
  let enc := enc.SetEscapeHTML escapeHTML
  match enc.Encode goJSON (.object m) buf with
  | .error err => (none, some err)
  | .ok buf => (some (trimRightLF buf), none)

/-- What the loop appends to the buffer for the entries from the cursor on, when
every encode succeeds: a comma before each entry but the first. -/
def sepMembers {α ε : Type} (lib : JSONLib α ε) (escapeHTML : Bool) :
    Bool → List (Key × α) → Bytes
  | _, [] => []
  | first, p :: rest =>
    (if first then [] else [',']) ++ member lib escapeHTML p
      ++ sepMembers lib escapeHTML false rest

/-- The error of the first failing encode in iteration order, the key of an
entry before its value. -/
def firstError {α ε : Type} (lib : JSONLib α ε) (escapeHTML : Bool) :
    List (Key × α) → Option ε
  | [] => none
  | (key, value) :: rest =>
    match lib.marshal escapeHTML (lib.ofKey key) with
    | .error err => some err
    | .ok _ =>
      match lib.marshal escapeHTML value with
      | .error err => some err
      | .ok _ => firstError lib escapeHTML rest

mutual
/-- The compact JSON text of a value in which a string is HTML-escaped when
`esc` holds or the flag of a map around it is on; empty on an unsupported value. -/
def render (esc : Bool) : Value → Bytes
  | .null => "null".toList
  | .bool b => if b then "true".toList else "false".toList
  | .number x => formatFloat x
  | .string s => appendString [] s esc
  | .array xs => '[' :: renderArray esc true xs ++ [']']
  | .object ⟨_, entries, flag⟩ => lbrace :: renderEntries (esc || flag) true entries ++ [rbrace]
  | .unsupported _ => []
/-- The elements of an array, comma separated. -/
def renderArray (esc : Bool) : Bool → List Value → Bytes
  | _, [] => []
  | first, x :: rest =>
    (if first then [] else [',']) ++ render esc x ++ renderArray esc false rest
/-- The members of an object, comma separated. -/
def renderEntries (esc : Bool) : Bool → List (Key × Value) → Bytes
  | _, [] => []
  | first, (key, value) :: rest =>
    (if first then [] else [',']) ++ appendString [] key esc ++ [':'] ++ render esc value
      ++ renderEntries esc false rest
end

mutual
/-- The error the encoder returns for a value, if any: that of the first
unsupported value met, wrapped once per map around it. -/
def valueError : Value → Option EncodeError
  | .null => none
  | .bool _ => none
  | .number _ => none
  | .string _ => none
  | .array xs => arrayError xs
  | .object ⟨_, entries, _⟩ =>
    match entriesError entries with
    | some err => some (.marshalerError err)
    | none => none
  | .unsupported err => some err
/-- The first error among the elements of an array. -/
def arrayError : List Value → Option EncodeError
  | [] => none
  | x :: rest =>
    match valueError x with
    | some err => some err
    | none => arrayError rest
/-- The first error among the values of the entries of a map. -/
def entriesError : List (Key × Value) → Option EncodeError
  | [] => none
  | (_, value) :: rest =>
    match valueError value with
    | some err => some err
    | none => entriesError rest
end

/-- A character that `appendCompact` copies unchanged inside a string literal
without leaving the literal. -/
def inert (c : Char) : Bool :=
  c != '"' && c != '\\' && c != '<' && c != '>' && c != '&'
    && c != Char.ofNat 0x2028 && c != Char.ofNat 0x2029

/-- A character that `appendCompact` copies unchanged outside string literals. -/
def plain (c : Char) : Bool := inert c && !isSpace c

/-- The object literal of the encode contract read without line feeds: the
encoded key, a colon and the encoded value per entry, commas in between. -/
def objectLiteral {α ε : Type} (lib : JSONLib α ε) (escapeHTML : Bool)
    (es : List (Key × α)) : Bytes :=
  lbrace :: List.intercalate [',']
    (es.map fun p => encoded lib escapeHTML (lib.ofKey p.1) ++ [':'] ++ encoded lib escapeHTML p.2)
    ++ [rbrace]

/-- A library whose encoder rejects every value. -/
def failingJSON : JSONLib Value EncodeError :=
  ⟨Value.string, fun _ _ => .error (.unsupportedType "any")⟩

/-- The members of an object as the loop of `MarshalJSON` leaves them in the
buffer: a line feed after every key and every value. -/
def rawEntries (flag : Bool) : Bool → List (Key × Value) → Bytes
  | _, [] => []
  | first, (key, value) :: rest =>
    (if first then [] else [',']) ++ appendString [] key flag ++ [lf] ++ [':']
      ++ render flag value ++ [lf] ++ rawEntries flag false rest

/-! ## Decoding -/

/-- Modelled from the spec: `Set(key, value)`. A key absent from the index gets
a new entry at the tail and an index slot; a present key keeps its position and
only the value of its entry is overwritten. -/
def Map.Set {α : Type} (m : Map α) (key : Key) (value : α) : Map α :=
  match m.elements.lookup key with
  | some i => { m with entries := m.entries.modify (fun p => (p.1, value)) i }
  | none =>
    { m with
      elements := m.elements ++ [(key, m.entries.length)]
      entries := m.entries ++ [(key, value)] }

/-- Modelled from the spec: the decoder routes each member into the target map
by calling `Set(key, value)` in the order the keys are met in the input. -/
def setAll {α : Type} (m : Map α) : List (Key × α) → Map α
  | [] => m
  | (key, value) :: rest => setAll (m.Set key value) rest

/-- Errors of decoding. -/
inductive DecodeError
  /-- The error `ParseError` of the spec: the input is not well-formed JSON. -/
  | parseError
  /-- The recursion bound of the parser was reached; `UnmarshalJSON` never
  returns it (`UnmarshalJSON_fuel`). -/
  | outOfFuel
  deriving DecidableEq, Repr

/-- Skip insignificant JSON whitespace. -/
def skipSpace : Bytes → Bytes
  | [] => []
  | c :: rest => if isSpace c then skipSpace rest else c :: rest

/-- The value of a hexadecimal digit. -/
def hexVal (c : Char) : Option Nat :=
  if 48 ≤ c.toNat ∧ c.toNat ≤ 57 then some (c.toNat - 48)
  else if 97 ≤ c.toNat ∧ c.toNat ≤ 102 then some (c.toNat - 87)
  else if 65 ≤ c.toNat ∧ c.toNat ≤ 70 then some (c.toNat - 55)
  else none

/-- The code unit written by the four hexadecimal digits of a `\u` escape. -/
def hex4 (a b c d : Char) : Option Nat :=
  match hexVal a, hexVal b, hexVal c, hexVal d with
  | some x, some y, some z, some w => some (((x * 16 + y) * 16 + z) * 16 + w)
  | _, _, _, _ => none

/-- The character of a one-letter escape `\x`. -/
def unescape (x : Char) : Option Char :=
  if x = '"' then some '"'
  else if x = '\\' then some '\\'
  else if x = '/' then some '/'
  else if x = 'b' then some (Char.ofNat 8)
  else if x = 'f' then some (Char.ofNat 12)
  else if x = 'n' then some (Char.ofNat 10)
  else if x = 'r' then some (Char.ofNat 13)
  else if x = 't' then some (Char.ofNat 9)
  else none

/-- Put a decoded character in front of the rest of a string literal. -/
def consChar (c : Char) :
    Except DecodeError (List Char × Bytes) → Except DecodeError (List Char × Bytes)
  | .ok (s, rest) => .ok (c :: s, rest)
  | .error err => .error err

/-- The low half of a surrogate pair, when the six characters are a `\u` escape
of one. -/
def lowSurrogate : Bytes → Option Nat
  | [e1, e2, a, b, c, d] =>
    if e1 = '\\' ∧ e2 = 'u' then
      match hex4 a b c d with
      | some lo => if 0xDC00 ≤ lo ∧ lo < 0xE000 then some lo else none
      | none => none
    else none
  | _ => none

/-- Modelled from the spec: the external parser on a string literal after its
opening quote: the characters up to the closing quote with the escapes
resolved, and the input after the closing quote. A surrogate pair of `\u`
escapes is one character; a lone surrogate is U+FFFD. The first argument is the
number of characters still to pass over, the second half of a pair just read. -/
def parseStringBody : Nat → Bytes → Except DecodeError (List Char × Bytes)
  | _, [] => .error .parseError
  | skip + 1, _ :: rest => parseStringBody skip rest
  | 0, c :: rest =>
    if c = '"' then .ok ([], rest)
    else if c = '\\' then
      match rest with
      | [] => .error .parseError
      | x :: rest1 =>
        if x = 'u' then
          match rest1 with
          | a :: b :: c1 :: d :: rest2 =>
            match hex4 a b c1 d with
            | none => .error .parseError
            | some r =>
              if 0xD800 ≤ r ∧ r < 0xDC00 then
                match lowSurrogate (rest2.take 6) with
                | some lo =>
                  consChar (Char.ofNat (0x10000 + (r - 0xD800) * 0x400 + (lo - 0xDC00)))
                    (parseStringBody 6 rest2)
                | none => consChar (Char.ofNat 0xFFFD) (parseStringBody 0 rest2)
              else if 0xDC00 ≤ r ∧ r < 0xE000 then
                consChar (Char.ofNat 0xFFFD) (parseStringBody 0 rest2)
              else consChar (Char.ofNat r) (parseStringBody 0 rest2)
          | _ => .error .parseError
        else
          match unescape x with
          | some ch => consChar ch (parseStringBody 0 rest1)
          | none => .error .parseError
    else if c.toNat < 0x20 then .error .parseError
    else consChar c (parseStringBody 0 rest)

/-- The number written by the leading decimal digits of the input, read left to
right starting from `acc`, and the input after them. -/
def takeDigits : Bytes → Nat → Nat × Bytes
  | [], acc => (acc, [])
  | c :: rest, acc =>
    if 48 ≤ c.toNat ∧ c.toNat ≤ 57 then takeDigits rest (acc * 10 + (c.toNat - 48))
    else (acc, c :: rest)

/-- A character that can stand in a JSON number literal. -/
def isNumberChar (c : Char) : Bool :=
  decide (48 ≤ c.toNat ∧ c.toNat ≤ 57) || c = '-' || c = '+' || c = '.' || c = 'e' || c = 'E'

/-- The integer part of a number literal, a single zero or digits that start
with a nonzero one: its value and the input after it. -/
def readInt : Bytes → Option (Nat × Bytes)
  | [] => none
  | c :: rest =>
    if c = '0' then some (0, rest)
    else if 49 ≤ c.toNat ∧ c.toNat ≤ 57 then some (takeDigits (c :: rest) 0)
    else none

/-- The optional fraction of a number literal after the integer part `int`, a
point and at least one digit: all the digits read so far as one natural number,
the power of ten that scales them, and the input after the fraction. -/
def readFrac (int : Nat) (input : Bytes) : Option (Nat × Int × Bytes) :=
  match input with
  | [] => some (int, 0, [])
  | c :: rest =>
    if c = '.' then
      match takeDigits rest int with
      | (m, rest1) =>
        if rest1.length < rest.length then
          some (m, -((rest.length - rest1.length : Nat) : Int), rest1)
        else none
    else some (int, 0, c :: rest)

/-- The digits of an exponent after its sign, at least one, up to the end of the
token. -/
def readExpDigits (input : Bytes) : Option Nat :=
  match takeDigits input 0 with
  | (n, rest) => if input ≠ [] ∧ rest = [] then some n else none

/-- The exponent with its sign. -/
def signedExp (neg : Bool) : Option Nat → Option Int
  | none => none
  | some n => some (if neg then -(n : Int) else (n : Int))

/-- The optional exponent that ends a number literal: `e` or `E`, an optional
sign, at least one digit. -/
def readExp : Bytes → Option Int
  | [] => some 0
  | c :: rest =>
    if c = 'e' ∨ c = 'E' then
      match rest with
      | [] => none
      | s :: digits =>
        if s = '-' then signedExp true (readExpDigits digits)
        else if s = '+' then signedExp false (readExpDigits digits)
        else signedExp false (readExpDigits (s :: digits))
    else none

/-- The JSON number grammar after the optional minus sign, on the rest of the
token: integer part, optional fraction, optional exponent, end of the token. The
result is the exact decimal `mant * 10^exp` that the literal denotes. -/
def readUnsigned (body : Bytes) : Option (Nat × Int) :=
  match readInt body with
  | none => none
  | some (int, rest) =>
    match readFrac int rest with
    | none => none
    | some (mant, e1, rest1) =>
      match readExp rest1 with
      | none => none
      | some e2 => some (mant, e1 + e2)

/-- The JSON number grammar on a whole token: the sign and the exact decimal
`mant * 10^exp` that the literal denotes, or nothing when the token is not a
number literal. -/
def readNumber (tok : Bytes) : Option (Bool × Nat × Int) :=
  match tok with
  | [] => none
  | c :: rest =>
    if c = '-' then (readUnsigned rest).map fun p => (true, p.1, p.2)
    else (readUnsigned (c :: rest)).map fun p => (false, p.1, p.2)

/-- The position of the leading bit of `n`, by at most `fuel` halvings. -/
def leadingBitAux : Nat → Nat → Nat
  | 0, _ => 0
  | fuel + 1, n => if n < 2 then 0 else leadingBitAux fuel (n / 2) + 1

/-- The position of the leading bit of `n`: the largest `k` with `2^k ≤ n`, zero
for zero. -/
def leadingBit (n : Nat) : Nat := leadingBitAux n n

/-- The magnitude of a `float64` in binary: zero, `mant * 2^exp` with
`mant < 2^53` and `-1074 ≤ exp ≤ 971` (`2^52 ≤ mant` unless `exp = -1074`), or
infinity. -/
inductive Binary64
  | zero
  | finite (mant : Nat) (exp : Int)
  | inf
  deriving DecidableEq, Repr

/-- The magnitude of the `float64` nearest to the decimal `mant * 10^e`, the one
with the even mantissa when two are equally near, infinity from the middle
between the largest `float64` and `2^1024` on. A decimal of more than 310 or
fewer than -330 digits before the point is infinity or zero without further
arithmetic. -/
def nearestBinary (mant : Nat) (e : Int) : Binary64 :=
  if mant = 0 then .zero
  else
    let nd : Int := (formatNat mant).length
    if 310 < nd + e then .inf
    else if nd + e < -330 then .zero
    else
      let num := if 0 ≤ e then mant * 10 ^ e.toNat else mant
      let den := if 0 ≤ e then 1 else 10 ^ (-e).toNat
      let l : Int := (leadingBit num : Int) - (leadingBit den : Int)
      let e0 : Int := max (l - 52) (-1074)
      let q0 := (num * 2 ^ (-e0).toNat) / (den * 2 ^ e0.toNat)
      let e1 : Int := if q0 < 2 ^ 52 ∧ -1074 < e0 then e0 - 1 else e0
      let n1 := num * 2 ^ (-e1).toNat
      let d1 := den * 2 ^ e1.toNat
      let q := n1 / d1
      let r := n1 % d1
      let q1 := if d1 < 2 * r ∨ (2 * r = d1 ∧ q % 2 = 1) then q + 1 else q
      let m2 := if q1 = 2 ^ 53 then 2 ^ 52 else q1
      let e2 : Int := if q1 = 2 ^ 53 then e1 + 1 else e1
      if m2 = 0 then .zero else if 971 < e2 then .inf else .finite m2 e2

/-- The magnitude of the `float64` that `strconv.ParseFloat` returns for the
decimal `mant * 10^e`: the nearest one (`nearestBinary`). The trailing zeros of
`mant` are first moved into the exponent, which leaves the number as it is. -/
def nearestFloat64 (mant : Nat) (e : Int) : Binary64 :=
  match stripZeros mant mant e with
  | (d, k) => nearestBinary d k

/-- The search of `strconv` for the shortest decimal of the `float64` `b`, whose
exact value is `i * 10^x` with `nd` digits in `i`: for `n = 1, 2, ...` digits,
the first `n` for which cutting `i` to `n` digits, or the next decimal of `n`
digits above, reads back as `b`; when both do, the one nearer to the exact
value, the even one when equally near. Every `float64` is found within 17
digits; were none found, the number would stay the decimal `lit` it was read
from. -/
def shortestFrom (i : Nat) (x : Int) (nd : Nat) (b : Binary64) (lit : Nat × Int) :
    Nat → Nat → Nat × Int
  | 0, _ => lit
  | fuel + 1, n =>
    if nd < n then lit
    else
      let p := 10 ^ (nd - n)
      let down := i / p
      let r := i % p
      let k : Int := x + ((nd - n : Nat) : Int)
      let okdown := decide (nearestFloat64 down k = b)
      let okup := decide (nearestFloat64 (down + 1) k = b)
      if okdown && okup then
        if p < 2 * r ∨ (2 * r = p ∧ down % 2 = 1) then (down + 1, k) else (down, k)
      else if okdown then (down, k)
      else if okup then (down + 1, k)
      else shortestFrom i x nd b lit fuel (n + 1)

/-- The shortest decimal `digits * 10^exp10` that reads back as the `float64`
of magnitude `mant * 2^exp`, which was read from the decimal `lit`, as `strconv`
finds it with precision `-1`, without trailing zeros in the digits. The exact
value of the `float64` is `i * 10^x`. -/
def shortestDecimal (mant : Nat) (exp : Int) (lit : Nat × Int) : Nat × Int :=
  let i := if 0 ≤ exp then mant * 2 ^ exp.toNat else mant * 5 ^ (-exp).toNat
  let x : Int := if 0 ≤ exp then 0 else exp
  match shortestFrom i x (formatNat i).length (.finite mant exp) lit 17 1 with
  | (d, k) => stripZeros d d k

/-- Modelled from the spec: the external parser on the token of a number, the
method `convertNumber` of the decoder of encoding/json: a literal of the JSON
number grammar becomes the nearest `float64`. A literal beyond the range of
`float64` becomes the infinity that `strconv.ParseFloat` returns for it, a value
the encoder rejects: decoding fails on malformed input only. -/
def convertNumber (tok : Bytes) : Except DecodeError Value :=
  match readNumber tok with
  | none => .error .parseError
  | some (neg, mant, e) =>
    match nearestFloat64 mant e with
    | .zero => .ok (.number ⟨neg, 0, 0⟩)
    | .inf => .ok (.unsupported (.unsupportedValue (if neg then "-Inf" else "+Inf")))
    | .finite m2 e2 =>
      match shortestDecimal m2 e2 (mant, e) with
      | (d, k) => .ok (.number ⟨neg, d, k⟩)

/-- The number is a `float64`: it is the number that `convertNumber` reads from
the text `formatFloat` writes for it. The decimals of the model that are no
`float64`, such as one of twenty significant digits, are not. -/
def isFloat64 (x : Float64) : Bool :=
  match convertNumber (formatFloat x) with
  | .ok (.number y) => decide (y = x)
  | _ => false

/-- The input after the literal `lit`, if the input starts with it. -/
def expect (lit : Bytes) (input : Bytes) : Option Bytes :=
  if lit.isPrefixOf input then some (input.drop lit.length) else none

mutual
/-- Modelled from the spec: the decoder on one JSON value. Objects decode into
nested maps, filled with `Set` in the order of the members and carrying the
flag `flag` of the map being decoded; arrays decode into ordered sequences; a
number is the run of number characters at the cursor, converted by
`convertNumber`. `fuel` bounds the nesting and the number of members read. -/
def parseValue (flag : Bool) : Nat → Bytes → Except DecodeError (Value × Bytes)
  | 0, _ => .error .outOfFuel
  | fuel + 1, input =>
    match skipSpace input with
    | [] => .error .parseError
    | c :: rest =>
      if c = lbrace then
        match parseMembers flag fuel true rest with
        | .error err => .error err
        | .ok (members, rest1) =>
          .ok (.object (setAll ((New : Map Value).SetEscapeHTML flag) members), rest1)
      else if c = '[' then
        match parseElements flag fuel true rest with
        | .error err => .error err
        | .ok (xs, rest1) => .ok (.array xs, rest1)
      else if c = '"' then
        match parseStringBody 0 rest with
        | .error err => .error err
        | .ok (s, rest1) => .ok (.string s, rest1)
      else if c = '-' ∨ (48 ≤ c.toNat ∧ c.toNat ≤ 57) then
        match convertNumber ((c :: rest).takeWhile isNumberChar) with
        | .error err => .error err
        | .ok x => .ok (x, (c :: rest).dropWhile isNumberChar)
      else
        match expect "null".toList (c :: rest) with
        | some rest1 => .ok (.null, rest1)
        | none =>
          match expect "true".toList (c :: rest) with
          | some rest1 => .ok (.bool true, rest1)
          | none =>
            match expect "false".toList (c :: rest) with
            | some rest1 => .ok (.bool false, rest1)
            | none => .error .parseError
/-- The members of an object after its opening brace (`first`) or after a
comma, up to and including the closing brace. -/
def parseMembers (flag : Bool) :
    Nat → Bool → Bytes → Except DecodeError (List (Key × Value) × Bytes)
  | 0, _, _ => .error .outOfFuel
  | fuel + 1, first, input =>
    match skipSpace input with
    | [] => .error .parseError
    | c :: rest =>
      if first && c = rbrace then .ok ([], rest)
      else if c = '"' then
        match parseStringBody 0 rest with
        | .error err => .error err
        | .ok (key, rest1) =>
          match skipSpace rest1 with
          | [] => .error .parseError
          | c1 :: rest2 =>
            if c1 = ':' then
              match parseValue flag fuel rest2 with
              | .error err => .error err
              | .ok (value, rest3) =>
                match skipSpace rest3 with
                | [] => .error .parseError
                | c2 :: rest4 =>
                  if c2 = ',' then
                    match parseMembers flag fuel false rest4 with
                    | .error err => .error err
                    | .ok (members, rest5) => .ok ((key, value) :: members, rest5)
                  else if c2 = rbrace then .ok ([(key, value)], rest4)
                  else .error .parseError
            else .error .parseError
      else .error .parseError
/-- The elements of an array after its opening bracket (`first`) or after a
comma, up to and including the closing bracket. -/
def parseElements (flag : Bool) :
    Nat → Bool → Bytes → Except DecodeError (List Value × Bytes)
  | 0, _, _ => .error .outOfFuel
  | fuel + 1, first, input =>
    match skipSpace input with
    | [] => .error .parseError
    | c :: rest =>
      if first && c = ']' then .ok ([], rest)
      else
        match parseValue flag fuel (c :: rest) with
        | .error err => .error err
        | .ok (x, rest1) =>
          match skipSpace rest1 with
          | [] => .error .parseError
          | c1 :: rest2 =>
            if c1 = ',' then
              match parseElements flag fuel false rest2 with
              | .error err => .error err
              | .ok (xs, rest3) => .ok (x :: xs, rest3)
            else if c1 = ']' then .ok ([x], rest2)
            else .error .parseError
end

/-- Modelled from the spec: `UnmarshalJSON`, absent from the sources. The input
must be one JSON object; its members are set into the target map in document
order. The parser gets twice the length of the input as fuel: every level of
nesting and every member uses up at most two units and at least one character. On an error the target is left as it was (the result is the error
alone). The `escapeHTML` flag of the target is kept and, so that the output of
a decoded map is escaped uniformly, given to the nested maps. -/
def Map.UnmarshalJSON (m : Map Value) (data : Bytes) : Except DecodeError (Map Value) :=
  match skipSpace data with
  | [] => .error .parseError
  | c :: rest =>
    if c = lbrace then
      match parseMembers m.escapeHTML (2 * data.length + 2) true rest with
      | .error err => .error err
      | .ok (members, rest1) =>
        match skipSpace rest1 with
        | [] => .ok (setAll m members)
        | _ :: _ => .error .parseError
    else .error .parseError

/-- The test helper `testSerializationOnce` of json_test.go: `json.Unmarshal`
the text into the map, then `json.Marshal` the map; the result is the one of
`json.Marshal`, or nil bytes and a nil error when decoding failed. -/
def testSerializationOnce (testData : Bytes) (m : Map Value) :
    Option Bytes × Option EncodeError :=
  match m.UnmarshalJSON testData with
  | .error _ => (none, none)
  | .ok m1 => Marshal m1

/-- The steps of `TestHTMLEscaping/EncodeNoEscape`: decode into `m`, then encode
with `encodeJSON(m, escapeHTML)`. -/
def decodeThenEncodeJSON (data : Bytes) (m : Map Value) (escapeHTML : Bool) :
    Option Bytes × Option EncodeError :=
  match m.UnmarshalJSON data with
  | .error _ => (none, none)
  | .ok m1 => encodeJSON m1 escapeHTML

/-- The characters that HTML escaping is about: `<`, `>` and `&`. -/
def htmlChar (c : Char) : Bool := c = '<' || c = '>' || c = '&'

mutual
/-- No key and no string of the value, at any depth, contains `<`, `>` or `&`. -/
def htmlFree : Value → Bool
  | .null => true
  | .bool _ => true
  | .number _ => true
  | .string s => s.all fun c => !htmlChar c
  | .array xs => htmlFreeArray xs
  | .object ⟨_, entries, _⟩ => htmlFreeEntries entries
  | .unsupported _ => true
/-- The elements of an array are `htmlFree`. -/
def htmlFreeArray : List Value → Bool
  | [] => true
  | x :: rest => htmlFree x && htmlFreeArray rest
/-- The keys and values of the entries are `htmlFree`. -/
def htmlFreeEntries : List (Key × Value) → Bool
  | [] => true
  | (key, value) :: rest =>
    (key.all fun c => !htmlChar c) && htmlFree value && htmlFreeEntries rest
end

mutual
/-- Every map nested in the value, at any depth, has its `escapeHTML` flag off. -/
def flagsOff : Value → Bool
  | .null => true
  | .bool _ => true
  | .number _ => true
  | .string _ => true
  | .array xs => flagsOffArray xs
  | .object ⟨_, entries, flag⟩ => !flag && flagsOffEntries entries
  | .unsupported _ => true
/-- The elements of an array are `flagsOff`. -/
def flagsOffArray : List Value → Bool
  | [] => true
  | x :: rest => flagsOff x && flagsOffArray rest
/-- The values of the entries are `flagsOff`. -/
def flagsOffEntries : List (Key × Value) → Bool
  | [] => true
  | (_, value) :: rest => flagsOff value && flagsOffEntries rest
end

mutual
/-- How many times the character `c` occurs in the keys and strings of the
value, at any depth. -/
def occurrences (c : Char) : Value → Nat
  | .null => 0
  | .bool _ => 0
  | .number _ => 0
  | .string s => s.count c
  | .array xs => occurrencesArray c xs
  | .object ⟨_, entries, _⟩ => occurrencesEntries c entries
  | .unsupported _ => 0
/-- Occurrences of `c` in the elements of an array. -/
def occurrencesArray (c : Char) : List Value → Nat
  | [] => 0
  | x :: rest => occurrences c x + occurrencesArray c rest
/-- Occurrences of `c` in the keys and values of the entries. -/
def occurrencesEntries (c : Char) : List (Key × Value) → Nat
  | [] => 0
  | (key, value) :: rest => key.count c + occurrences c value + occurrencesEntries c rest
end

/-! ## The texts of json_test.go -/

/-- The entry `PlainJSON` of the table `tests`. -/
def tests_PlainJSON : Bytes := "\x7b\"a\":1,\"c\":3,\"d\":4,\"b\":2,\"e\":5\x7d".toList

/-- The entry `NestedJSON` of the table `tests`. -/
def tests_NestedJSON : Bytes :=
  ("\x7b\"1\":1,\"c\":null,\"d\":\"dd\",\"b\":true,"
    ++ "\"e\":[2,null,\x7b\"x\":1,\"z\":3,\"y\":2\x7d,\"zzz\"],"
    ++ "\"f\":\x7b\"a\":1,\"c\":3,\"d\":4,\"b\":2,\"e\":5\x7d\x7d").toList

/-- The entry `EscapedJSON` of the table `tests`. -/
def tests_EscapedJSON : Bytes := "\x7b\"\\\"\":\"\\\"\",\"\\\\\":\"\\\\\"\x7d".toList

/-- The constant `rawJSON` of `TestHTMLEscaping`. -/
def rawJSON : Bytes := "\x7b\"range\":\">1.0.0 && <2.0.0\"\x7d".toList

/-- The constant `escapedJSON` of `TestHTMLEscaping`. -/
def escapedJSON : Bytes :=
  "\x7b\"range\":\"\\u003e1.0.0 \\u0026\\u0026 \\u003c2.0.0\"\x7d".toList

/-- The constant `nestedRawJSON` of `TestHTMLEscaping`. -/
def nestedRawJSON : Bytes :=
  ("\x7b\"name\":\"test\",\"deps\":\x7b\"a\":\">1.0\",\"b\":\"<2.0 & >=1.5\"\x7d,"
    ++ "\"tags\":[\"<root>\",\"&\"]\x7d").toList

/-- The constant `nestedArrayJSON` of `TestHTMLEscaping`. -/
def nestedArrayJSON : Bytes :=
  "\x7b\"name\":\"test\",\"list\":[\x7b\"op\":\">=\"\x7d,\x7b\"op\":\"<=\"\x7d]\x7d".toList

/-- The map `range: ">1.0.0 && <2.0.0"`, as decoding `rawJSON` into `New()`
builds it. -/
def rangeMap : Map Value :=
  ⟨[("range".toList, 0)], [("range".toList, .string ">1.0.0 && <2.0.0".toList)], true⟩

/-- An outer map with its flag off that holds, under `n`, a map made by `New()`
(flag on) with the entry `op: "<"`. -/
def mixedFlags : Map Value :=
  ((New : Map Value).SetEscapeHTML false).Set "n".toList
    (.object ((New : Map Value).Set "op".toList (.string "<".toList)))

/-- The map that decoding `nestedArrayJSON` into a map with the flag off
builds: maps inside an array, all flags off. -/
def nestedArrayMap : Map Value :=
  ⟨[("name".toList, 0), ("list".toList, 1)],
    [("name".toList, .string "test".toList),
     ("list".toList, .array
        [.object ⟨[("op".toList, 0)], [("op".toList, .string ">=".toList)], false⟩,
         .object ⟨[("op".toList, 0)], [("op".toList, .string "<=".toList)], false⟩])],
    false⟩

/-! ## Round trips -/

mutual
/-- The value that decoding the compact text of a value builds: the same tree,
every nested map filled by `Set` into a fresh map that carries `flag`. -/
def canon (flag : Bool) : Value → Value
  | .null => .null
  | .bool b => .bool b
  | .number n => .number n
  | .string s => .string s
  | .array xs => .array (canonArray flag xs)
  | .object ⟨_, entries, _⟩ =>
    .object (setAll ((New : Map Value).SetEscapeHTML flag) (canonEntries flag entries))
  | .unsupported err => .unsupported err
/-- The elements of an array, each as decoding builds it. -/
def canonArray (flag : Bool) : List Value → List Value
  | [] => []
  | x :: rest => canon flag x :: canonArray flag rest
/-- The entries of a map, each value as decoding builds it. -/
def canonEntries (flag : Bool) : List (Key × Value) → List (Key × Value)
  | [] => []
  | (key, value) :: rest => (key, canon flag value) :: canonEntries flag rest
end

mutual
/-- The keys of every map of the value, at any depth, are pairwise distinct. -/
def uniqueKeys : Value → Bool
  | .null => true
  | .bool _ => true
  | .number _ => true
  | .string _ => true
  | .array xs => uniqueKeysArray xs
  | .object ⟨_, entries, _⟩ => decide (entries.map Prod.fst).Nodup && uniqueKeysEntries entries
  | .unsupported _ => true
/-- The elements of an array have `uniqueKeys`. -/
def uniqueKeysArray : List Value → Bool
  | [] => true
  | x :: rest => uniqueKeys x && uniqueKeysArray rest
/-- The values of the entries have `uniqueKeys`. -/
def uniqueKeysEntries : List (Key × Value) → Bool
  | [] => true
  | (_, value) :: rest => uniqueKeys value && uniqueKeysEntries rest
end

mutual
/-- Every number of the value, at any depth, is a `float64` (`isFloat64`). -/
def float64Numbers : Value → Bool
  | .null => true
  | .bool _ => true
  | .number x => isFloat64 x
  | .string _ => true
  | .array xs => float64NumbersArray xs
  | .object ⟨_, entries, _⟩ => float64NumbersEntries entries
  | .unsupported _ => true
/-- The elements of an array have `float64Numbers`. -/
def float64NumbersArray : List Value → Bool
  | [] => true
  | x :: rest => float64Numbers x && float64NumbersArray rest
/-- The values of the entries have `float64Numbers`. -/
def float64NumbersEntries : List (Key × Value) → Bool
  | [] => true
  | (_, value) :: rest => float64Numbers value && float64NumbersEntries rest
end

mutual
/-- A bound on the fuel the parser needs for the text of a value. -/
def size : Value → Nat
  | .null => 1
  | .bool _ => 1
  | .number _ => 1
  | .string _ => 1
  | .array xs => 1 + sizeArray xs
  | .object ⟨_, entries, _⟩ => 1 + sizeEntries entries
  | .unsupported _ => 1
/-- A bound on the fuel the parser needs for the elements of an array. -/
def sizeArray : List Value → Nat
  | [] => 1
  | x :: rest => size x + sizeArray rest
/-- A bound on the fuel the parser needs for the members of an object. -/
def sizeEntries : List (Key × Value) → Nat
  | [] => 1
  | (_, value) :: rest => size value + sizeEntries rest
end

/-- The input is empty or goes on with a comma, a closing bracket or a closing
brace: what follows a value inside compact JSON. -/
def delimited : Bytes → Bool
  | [] => true
  | c :: _ => c = ',' || c = ']' || c = rbrace

/-- The map of the entry `NestedJSON` of the table `tests`. -/
def nestedMap : Map Value :=
  ⟨[],
    [("1".toList, .number 1), ("c".toList, .null), ("d".toList, .string "dd".toList),
     ("b".toList, .bool true),
     ("e".toList, .array [.number 2, .null,
        .object ⟨[], [("x".toList, .number 1), ("z".toList, .number 3),
          ("y".toList, .number 2)], true⟩,
        .string "zzz".toList]),
     ("f".toList, .object ⟨[], [("a".toList, .number 1), ("c".toList, .number 3),
        ("d".toList, .number 4), ("b".toList, .number 2), ("e".toList, .number 5)], true⟩)],
    true⟩

/-! ## Decoded maps: keys, length and lookup -/

/-- Modelled from the spec: `Get(key)` looks the key up in the index and reads
the entry in its slot; the result is `(value, true)`, or `(nil, false)` when the
key is absent. -/
def Map.Get {α : Type} (m : Map α) (key : Key) : Option α × Bool :=
  match m.elements.lookup key with
  | some i =>
    match m.entries[i]? with
    | some p => (some p.2, true)
    | none => (none, false)
  | none => (none, false)

/-- Modelled from the spec: the members of the JSON object literal `data`, in
document order, as the external parser hands them to the decoder: the text must
be one object, with nothing but whitespace around it. -/
def documentMembers (flag : Bool) (data : Bytes) :
    Except DecodeError (List (Key × Value)) :=
  match skipSpace data with
  | [] => .error .parseError
  | c :: rest =>
    if c = lbrace then
      match parseMembers flag (2 * data.length + 2) true rest with
      | .error err => .error err
      | .ok (members, rest1) =>
        match skipSpace rest1 with
        | [] => .ok members
        | _ :: _ => .error .parseError
    else .error .parseError

/-- The map that decoding the entry `PlainJSON` of the table `tests` into
`New()` builds. -/
def plainMap : Map Value :=
  ⟨[("a".toList, 0), ("c".toList, 1), ("d".toList, 2), ("b".toList, 3), ("e".toList, 4)],
    [("a".toList, .number 1), ("c".toList, .number 3), ("d".toList, .number 4),
     ("b".toList, .number 2), ("e".toList, .number 5)],
    true⟩

/-! ## Runs of `MarshalJSON` over an encoder that is a relation -/

/-- An external encoder whose result need not be a function of its input:
`marshals escapeHTML v r` holds when `e.marshal(v, encOpts{escapeHTML})` can end
with the result `r`. -/
structure JSONRel (α ε : Type) where
  /-- A key boxed as a value. -/
  ofKey : Key → α
  /-- The results a call of the encoder can end with. -/
  marshals : Bool → α → Except ε Bytes → Prop

/-- The library `lib` as a relation: a call ends with the value of the function
and with nothing else. -/
def JSONLib.toRel {α ε : Type} (lib : JSONLib α ε) : JSONRel α ε :=
  ⟨lib.ofKey, fun escapeHTML v r => lib.marshal escapeHTML v = r⟩

/-- The results `enc.Encode(v)` can end with on the buffer `buf`: an error of
the encoder, or the buffer with the encoded value and a newline appended. -/
def Encoder.Encodes {α ε : Type} (lib : JSONRel α ε) (enc : Encoder) (v : α)
    (buf : Bytes) (r : Except ε Bytes) : Prop :=
  (∃ err, lib.marshals enc.escapeHTML v (.error err) ∧ r = .error err) ∨
  (∃ b, lib.marshals enc.escapeHTML v (.ok b) ∧ r = .ok (buf ++ (b ++ [lf])))

/-- The runs of the `for el := m.First(); el != nil; el = el.Next()` loop of
`MarshalJSON` (marshal.go lines 18-30) entered with cursor `el`, the local
`first` and the buffer `buf`: the loop ends with the buffer on a nil cursor,
with the error of the first `Encode` that fails, and goes on with `el.Next()`
after the key, the colon and the value are written. -/
inductive marshalLoopRuns {α ε : Type} (lib : JSONRel α ε) (enc : Encoder) :
    Element α → Bool → Bytes → Except ε Bytes → Prop
  /-- The cursor is nil: the loop is left. -/
  | done (first : Bool) (buf : Bytes) : marshalLoopRuns lib enc [] first buf (.ok buf)
  /-- The call `enc.Encode(el.Key())` fails: `return nil, err`. -/
  | keyError (key : Key) (value : α) (next : Element α) (first : Bool) (buf : Bytes) (err : ε) :
    enc.Encodes lib (lib.ofKey key) (if !first then buf ++ [','] else buf) (.error err) →
    marshalLoopRuns lib enc ((key, value) :: next) first buf (.error err)
  /-- The call `enc.Encode(el.Value())` fails: `return nil, err`. -/
  | valueError (key : Key) (value : α) (next : Element α) (first : Bool) (buf buf1 : Bytes)
      (err : ε) :
    enc.Encodes lib (lib.ofKey key) (if !first then buf ++ [','] else buf) (.ok buf1) →
    enc.Encodes lib value (buf1 ++ [':']) (.error err) →
    marshalLoopRuns lib enc ((key, value) :: next) first buf (.error err)
  /-- Both calls succeed: the loop goes on with `el.Next()` and `first = false`. -/
  | step (key : Key) (value : α) (next : Element α) (first : Bool) (buf buf1 buf2 : Bytes)
      (r : Except ε Bytes) :
    enc.Encodes lib (lib.ofKey key) (if !first then buf ++ [','] else buf) (.ok buf1) →
    enc.Encodes lib value (buf1 ++ [':']) (.ok buf2) →
    marshalLoopRuns lib enc next false buf2 r →
    marshalLoopRuns lib enc ((key, value) :: next) first buf r

/-- The runs of `func (m *Map) MarshalJSON() ([]byte, error)` over an encoder
that is a relation: `m.MarshalJSONRuns lib r` holds when a call on `m` can
return the pair `r`. Every call starts from a fresh buffer and a fresh encoder
and reads the map through `m.First()` and `m.escapeHTML` only. -/
def Map.MarshalJSONRuns {α ε : Type} (lib : JSONRel α ε) (m : Map α)
    (r : Option Bytes × Option ε) : Prop :=
  (∃ err, marshalLoopRuns lib (NewEncoder.SetEscapeHTML m.escapeHTML) m.First true
      ([] ++ [lbrace]) (.error err) ∧ r = (none, some err)) ∨
  (∃ buf, marshalLoopRuns lib (NewEncoder.SetEscapeHTML m.escapeHTML) m.First true
      ([] ++ [lbrace]) (.ok buf) ∧ r = (some (buf ++ [rbrace]), none))

/-- An object literal with insignificant whitespace whose numbers are a
fraction, an exponent, a negative zero, an integer above `2^53` that no
`float64` holds, a literal beyond the range of `float64`, and an array of a
fraction with a trailing zero and an upper-case exponent. -/
def numbersJSON : Bytes :=
  " \x7b \"a\" : 1.5 , \"b\":1e2,\"c\":-0,\"d\":9007199254740993,\"e\":1e999,\"f\":[0.10, 2E-3]\x7d\n".toList

/-- The map that decoding `numbersJSON` into a new map gives. -/
def numbersMap : Map Value :=
  ⟨[("a".toList, 0), ("b".toList, 1), ("c".toList, 2), ("d".toList, 3), ("e".toList, 4),
      ("f".toList, 5)],
    [("a".toList, .number ⟨false, 15, -1⟩), ("b".toList, .number 100),
     ("c".toList, .number ⟨true, 0, 0⟩), ("d".toList, .number 9007199254740992),
     ("e".toList, .unsupported (.unsupportedValue "+Inf")),
     ("f".toList, .array [.number ⟨false, 1, -1⟩, .number ⟨false, 2, -3⟩])],
    true⟩

/-- An object literal as `json.Marshal` writes it, with a fraction, a negative
zero, numbers in the format `'e'`, the integer `2^53`, the smallest number the
format `'f'` is used for, an integer of eighteen digits and the smallest
positive `float64`. -/
def floatsJSON : Bytes :=
  "\x7b\"a\":1.5,\"b\":-0,\"c\":1e+21,\"d\":1e-7,\"e\":9007199254740992,\"f\":0.000001,\"g\":[123456789012345680,5e-324,-2.5e-8]\x7d".toList

/-! ## The loop of `MarshalJSON` -/

theorem Map.First_New {α : Type} : (New : Map α).First = [] := rfl

theorem Element.Next_cons {α : Type} (p : Jsonmap.Key × α) (next : Element α) :
    Element.Next (p :: next) = next := rfl

theorem Element.Key_cons {α : Type} (key : Jsonmap.Key) (value : α)
    (next : Element α) :
    Element.Key ((key, value) :: next) (List.cons_ne_nil _ _) = key := rfl

theorem Element.Value_cons {α : Type} (key : Jsonmap.Key) (value : α)
    (next : Element α) :
    Element.Value ((key, value) :: next) (List.cons_ne_nil _ _) = value := rfl

section Loop

variable {α ε : Type} (lib : JSONLib α ε)

theorem marshalLoop_eq (enc : Encoder) (es : Element α) :
    ∀ (first : Bool) (buf : Bytes),
      marshalLoop lib enc es first buf =
        match firstError lib enc.escapeHTML es with
        | some err => .error err
        | none => .ok (buf ++ sepMembers lib enc.escapeHTML first es) := by
  induction es with
  | nil => intro first buf; simp [marshalLoop, firstError, sepMembers]
  | cons p rest ih =>
    intro first buf
    obtain ⟨key, value⟩ := p
    simp only [marshalLoop, firstError, Encoder.Encode]
    cases hk : lib.marshal enc.escapeHTML (lib.ofKey key) with
    | error err => simp
    | ok kb =>
      cases hv : lib.marshal enc.escapeHTML value with
      | error err => simp
      | ok vb =>
        simp only [ih]
        cases hrest : firstError lib enc.escapeHTML rest with
        | some err => simp
        | none =>
          cases first <;>
            simp [sepMembers, member, encoded, hk, hv, List.append_assoc]

theorem sepMembers_false (escapeHTML : Bool) (es : List (Key × α)) :
    sepMembers lib escapeHTML false es
      = (es.map fun p => ',' :: member lib escapeHTML p).flatten := by
  induction es with
  | nil => simp [sepMembers]
  | cons p rest ih => simp [sepMembers, ih]

theorem intercalate_cons_flatten (sep x : Bytes) (xs : List Bytes) :
    List.intercalate sep (x :: xs) = x ++ (xs.map fun y => sep ++ y).flatten := by
  induction xs generalizing x with
  | nil => simp [List.intercalate]
  | cons y ys ih =>
    have h := ih y
    simp only [List.intercalate, List.intersperse, List.flatten_cons, List.map_cons] at h ⊢
    rw [h, List.append_assoc]

theorem sepMembers_true (escapeHTML : Bool) (es : List (Key × α)) :
    sepMembers lib escapeHTML true es
      = List.intercalate [','] (es.map (member lib escapeHTML)) := by
  cases es with
  | nil => simp [sepMembers, List.intercalate]
  | cons p rest =>
    rw [List.map_cons, intercalate_cons_flatten]
    simp [sepMembers, sepMembers_false, List.map_map, Function.comp_def]

theorem firstError_none_iff (escapeHTML : Bool) (es : List (Key × α)) :
    firstError lib escapeHTML es = none ↔
      ∀ p ∈ es, encodes lib escapeHTML (lib.ofKey p.1) = true
        ∧ encodes lib escapeHTML p.2 = true := by
  induction es with
  | nil => simp [firstError]
  | cons p rest ih =>
    obtain ⟨key, value⟩ := p
    simp only [firstError, List.mem_cons, forall_eq_or_imp, encodes]
    cases hk : lib.marshal escapeHTML (lib.ofKey key) with
    | error err =>
      refine ⟨fun h => (by cases h), fun h => ?_⟩
      exact absurd h.1.1 (by simp only [Bool.false_eq_true, not_false_eq_true])
    | ok kb =>
      cases hv : lib.marshal escapeHTML value with
      | error err =>
        refine ⟨fun h => (by cases h), fun h => ?_⟩
        exact absurd h.1.2 (by simp only [Bool.false_eq_true, not_false_eq_true])
      | ok vb =>
        simp only [ih, encodes, and_self, true_and]

theorem MarshalJSON_eq (m : Map α) :
    m.MarshalJSON lib =
      match firstError lib m.escapeHTML m.iterate with
      | some err => (none, some err)
      | none =>
        (some (lbrace :: List.intercalate [','] (m.iterate.map (member lib m.escapeHTML))
          ++ [rbrace]), none) := by
  simp only [Map.MarshalJSON, marshalLoop_eq, Map.iterate, Encoder.SetEscapeHTML]
  cases h : firstError lib m.escapeHTML m.First with
  | some err => simp
  | none => simp [sepMembers_true]

theorem firstError_split (escapeHTML : Bool) (es : List (Key × α)) (err : ε)
    (h : firstError lib escapeHTML es = some err) :
    ∃ pre key value post, es = pre ++ (key, value) :: post ∧
      (∀ p ∈ pre, encodes lib escapeHTML (lib.ofKey p.1) = true
        ∧ encodes lib escapeHTML p.2 = true) ∧
      (lib.marshal escapeHTML (lib.ofKey key) = .error err ∨
        (encodes lib escapeHTML (lib.ofKey key) = true
          ∧ lib.marshal escapeHTML value = .error err)) := by
  induction es with
  | nil => cases h
  | cons p rest ih =>
    obtain ⟨key, value⟩ := p
    simp only [firstError] at h
    cases hk : lib.marshal escapeHTML (lib.ofKey key) with
    | error e =>
      rw [hk] at h
      cases h
      exact ⟨[], key, value, rest, rfl, fun p hp => absurd hp (List.not_mem_nil p), Or.inl hk⟩
    | ok kb =>
      rw [hk] at h
      cases hv : lib.marshal escapeHTML value with
      | error e =>
        rw [hv] at h
        cases h
        exact ⟨[], key, value, rest, rfl, fun p hp => absurd hp (List.not_mem_nil p),
          Or.inr ⟨by simp only [encodes, hk], hv⟩⟩
      | ok vb =>
        rw [hv] at h
        obtain ⟨pre, k, v, post, hes, hpre, hfail⟩ := ih h
        refine ⟨(key, value) :: pre, k, v, post, by rw [hes]; rfl, ?_, hfail⟩
        intro p hp
        rcases List.mem_cons.1 hp with hp | hp
        · subst hp
          exact ⟨by simp only [encodes, hk], by simp only [encodes, hv]⟩
        · exact hpre p hp

theorem firstError_of_split (escapeHTML : Bool) (pre post : List (Key × α))
    (key : Key) (value : α) (err : ε)
    (hpre : ∀ p ∈ pre, encodes lib escapeHTML (lib.ofKey p.1) = true
      ∧ encodes lib escapeHTML p.2 = true)
    (hfail : lib.marshal escapeHTML (lib.ofKey key) = .error err ∨
      (encodes lib escapeHTML (lib.ofKey key) = true
        ∧ lib.marshal escapeHTML value = .error err)) :
    firstError lib escapeHTML (pre ++ (key, value) :: post) = some err := by
  induction pre with
  | nil =>
    simp only [List.nil_append, firstError]
    rcases hfail with hk | ⟨hk, hv⟩
    · rw [hk]
    · cases hk' : lib.marshal escapeHTML (lib.ofKey key) with
      | error e => simp only [encodes, hk', Bool.false_eq_true] at hk
      | ok kb => simp only [hv]
  | cons p pre ih =>
    obtain ⟨k, v⟩ := p
    have hp := hpre (k, v) (List.mem_cons_self _ _)
    have ih' := ih (fun q hq => hpre q (List.mem_cons_of_mem _ hq))
    simp only [List.cons_append, firstError]
    cases hk : lib.marshal escapeHTML (lib.ofKey k) with
    | error e => simp only [encodes, hk, Bool.false_eq_true, false_and] at hp
    | ok kb =>
      cases hv : lib.marshal escapeHTML v with
      | error e => simp only [encodes, hv, Bool.false_eq_true, and_false] at hp
      | ok vb => exact ih'

theorem firstError_mem (escapeHTML : Bool) (es : List (Key × α)) (err : ε)
    (h : firstError lib escapeHTML es = some err) :
    ∃ p ∈ es, lib.marshal escapeHTML (lib.ofKey p.1) = .error err
      ∨ lib.marshal escapeHTML p.2 = .error err := by
  obtain ⟨pre, key, value, post, hes, _, hfail⟩ := firstError_split lib escapeHTML es err h
  refine ⟨(key, value), by rw [hes]; exact List.mem_append_right _ (List.mem_cons_self _ _), ?_⟩
  rcases hfail with hk | ⟨_, hv⟩
  · exact Or.inl hk
  · exact Or.inr hv

end Loop

/-! ## `appendCompact` on encoded strings -/

theorem compactFrom_inert (e : Bool) (c : Char) (rest : Bytes) (h : inert c = true) :
    compactFrom e .inString (c :: rest) = c :: compactFrom e .inString rest := by
  simp only [inert, Bool.and_eq_true, bne_iff_ne, ne_eq] at h
  obtain ⟨⟨⟨⟨⟨⟨h1, h2⟩, h3⟩, h4⟩, h5⟩, h6⟩, h7⟩ := h
  simp [compactFrom, compactChar, scanStep, h1, h2, h3, h4, h5, h6, h7]

theorem compactFrom_inerts (e : Bool) (l rest : Bytes) (h : ∀ c ∈ l, inert c = true) :
    compactFrom e .inString (l ++ rest) = l ++ compactFrom e .inString rest := by
  induction l with
  | nil => rfl
  | cons c l ih =>
    rw [List.cons_append, compactFrom_inert e c _ (h c (List.mem_cons_self _ _)),
      ih (fun d hd => h d (List.mem_cons_of_mem _ hd)), List.cons_append]

theorem hex_inert (n : Nat) : inert (hex n) = true := by
  by_cases h : n < 16
  · interval_cases n <;> decide
  · have : hex n = '0' := by
      simp only [hex]
      rw [List.getD_eq_default]
      simp; omega
    rw [this]; decide

/-- A backslash escape inside a string literal is copied unchanged. -/
theorem compactFrom_backslash (e : Bool) (x : Char) (tail rest : Bytes)
    (hx : x ≠ '<' ∧ x ≠ '>' ∧ x ≠ '&' ∧ x ≠ Char.ofNat 0x2028 ∧ x ≠ Char.ofNat 0x2029)
    (ht : ∀ t ∈ tail, inert t = true) :
    compactFrom e .inString ('\\' :: x :: (tail ++ rest))
      = '\\' :: x :: (tail ++ compactFrom e .inString rest) := by
  obtain ⟨h1, h2, h3, h4, h5⟩ := hx
  have hb : compactChar e .inString '\\' = ['\\'] := by cases e <;> decide
  have hx' : compactChar e .inStringEsc x = [x] := by
    simp [compactChar, h1, h2, h3, h4, h5]
  have hs : scanStep .inString '\\' = .inStringEsc := by decide
  rw [compactFrom, hb, hs, compactFrom, hx']
  simp only [scanStep, List.singleton_append, List.cons.injEq, true_and]
  exact compactFrom_inerts e tail rest ht

theorem htmlSafeSet_inert (c : Char) (h : htmlSafeSet c = true) :
    inert c = true ∧ c.toNat < 0x80 := by
  simp only [htmlSafeSet, safeSet, Bool.and_eq_true, decide_eq_true_eq, bne_iff_ne, ne_eq] at h
  obtain ⟨⟨⟨⟨⟨⟨h0, h1⟩, h2⟩, h3⟩, h4⟩, h5⟩, h6⟩ := h
  refine ⟨?_, h1⟩
  have h7 : c ≠ Char.ofNat 0x2028 := by rintro rfl; revert h1; decide
  have h8 : c ≠ Char.ofNat 0x2029 := by rintro rfl; revert h1; decide
  simp [inert, h2, h3, h4, h5, h6, h7, h8]

theorem compactFrom_escapeChar (e f : Bool) (c : Char) (rest : Bytes) :
    compactFrom e .inString (escapeChar f c ++ rest)
      = escapeChar (e || f) c ++ compactFrom e .inString rest := by
  by_cases hA : htmlSafeSet c = true
  · obtain ⟨hin, hlt⟩ := htmlSafeSet_inert c hA
    have h1 : ∀ g, escapeChar g c = [c] := by
      intro g; simp [escapeChar, hA, hlt]
    rw [h1, h1]
    exact compactFrom_inert e c rest hin
  · by_cases hB : c = '<' ∨ c = '>' ∨ c = '&'
    · have hf : escapeChar false c = [c] := by
        rcases hB with rfl | rfl | rfl <;> decide
      have ht : escapeChar true c
          = ['\\', 'u', '0', '0', hex (c.toNat / 16), hex (c.toNat % 16)] := by
        rcases hB with rfl | rfl | rfl <;> decide
      have hc : compactChar true .inString c
          = ['\\', 'u', '0', '0', hex (c.toNat / 16), hex (c.toNat % 16)] := by
        rcases hB with rfl | rfl | rfl <;> decide
      have hc' : compactChar false .inString c = [c] := by
        rcases hB with rfl | rfl | rfl <;> decide
      have hs : scanStep .inString c = .inString := by
        rcases hB with rfl | rfl | rfl <;> decide
      cases f
      · cases e
        · simp only [Bool.or_self, hf, List.singleton_append, compactFrom, hc', hs]
        · simp only [Bool.or_false, hf, ht, List.singleton_append, compactFrom, hc, hs]
      · rw [Bool.or_true, ht]
        exact compactFrom_backslash e 'u' ['0', '0', hex (c.toNat / 16), hex (c.toNat % 16)] rest
          (by decide) (by
            intro t ht
            simp only [List.mem_cons, List.mem_singleton, List.not_mem_nil, or_false] at ht
            rcases ht with rfl | rfl | rfl | rfl
            · decide
            · decide
            · exact hex_inert _
            · exact hex_inert _)
    · have hS : safeSet c = false := by
        cases hs : safeSet c with
        | false => rfl
        | true =>
          exfalso
          apply hA
          simp only [not_or] at hB
          simp [htmlSafeSet, hs, hB.1, hB.2.1, hB.2.2]
      have hA' : htmlSafeSet c = false := by simpa using hA
      have hg : ∀ g, escapeChar g c = escapeChar true c := by
        intro g
        simp only [escapeChar, hS, hA', Bool.and_false, Bool.or_false]
      rw [hg f, hg (e || f)]
      simp only [not_or] at hB
      obtain ⟨hB1, hB2, hB3⟩ := hB
      have hu : ∀ a b : Char, inert a = true → inert b = true →
          compactFrom e .inString (['\\', 'u', '0', '0', a, b] ++ rest)
            = ['\\', 'u', '0', '0', a, b] ++ compactFrom e .inString rest := by
        intro a b ha hb
        exact compactFrom_backslash e 'u' ['0', '0', a, b] rest (by decide) (by
          intro t ht
          simp only [List.mem_cons, List.mem_singleton, List.not_mem_nil, or_false] at ht
          rcases ht with rfl | rfl | rfl | rfl
          · decide
          · decide
          · exact ha
          · exact hb)
      have hone : ∀ x : Char,
          (x ≠ '<' ∧ x ≠ '>' ∧ x ≠ '&' ∧ x ≠ Char.ofNat 0x2028 ∧ x ≠ Char.ofNat 0x2029) →
          compactFrom e .inString (['\\', x] ++ rest)
            = ['\\', x] ++ compactFrom e .inString rest := by
        intro x hx
        exact compactFrom_backslash e x [] rest hx (fun t ht => absurd ht (List.not_mem_nil t))
      simp only [escapeChar, hS, hA', Bool.and_false, Bool.or_false, Bool.false_eq_true,
        if_false]
      split_ifs with h1 h2 h3 h4 h5 h6 h7 h8
      · have h2' : c = '\\' ∨ c = '"' := by simpa using h2
        have h28 : c ≠ Char.ofNat 0x2028 := by rintro rfl; revert h1; decide
        have h29 : c ≠ Char.ofNat 0x2029 := by rintro rfl; revert h1; decide
        exact hone c ⟨hB1, hB2, hB3, h28, h29⟩
      · exact hone 'b' (by decide)
      · exact hone 'f' (by decide)
      · exact hone 'n' (by decide)
      · exact hone 'r' (by decide)
      · exact hone 't' (by decide)
      · exact hu _ _ (hex_inert _) (hex_inert _)
      · exact compactFrom_backslash e 'u' ['2', '0', '2', hex (c.toNat % 16)] rest
          (by decide) (by
            intro t ht
            simp only [List.mem_cons, List.mem_singleton, List.not_mem_nil, or_false] at ht
            rcases ht with rfl | rfl | rfl | rfl
            · decide
            · decide
            · decide
            · exact hex_inert _)
      · have h8' : c ≠ Char.ofNat 0x2028 ∧ c ≠ Char.ofNat 0x2029 := by simpa using h8
        have hq : c ≠ '"' := by rintro rfl; revert h1; decide
        have hbs : c ≠ '\\' := by rintro rfl; revert h1; decide
        exact compactFrom_inert e c rest (by
          simp [inert, hq, hbs, hB1, hB2, hB3, h8'.1, h8'.2])

/-! ## `appendCompact` on rendered values -/

theorem compactFrom_plain (e : Bool) (c : Char) (rest : Bytes) (h : plain c = true) :
    compactFrom e .outside (c :: rest) = c :: compactFrom e .outside rest := by
  simp only [plain, inert, Bool.and_eq_true, bne_iff_ne, ne_eq, Bool.not_eq_true'] at h
  obtain ⟨⟨⟨⟨⟨⟨⟨h1, h2⟩, h3⟩, h4⟩, h5⟩, h6⟩, h7⟩, h8⟩ := h
  simp [compactFrom, compactChar, scanStep, h1, h2, h3, h4, h5, h6, h7, h8]

theorem compactFrom_plains (e : Bool) (l rest : Bytes) (h : ∀ c ∈ l, plain c = true) :
    compactFrom e .outside (l ++ rest) = l ++ compactFrom e .outside rest := by
  induction l with
  | nil => rfl
  | cons c l ih =>
    rw [List.cons_append, compactFrom_plain e c _ (h c (List.mem_cons_self _ _)),
      ih (fun d hd => h d (List.mem_cons_of_mem _ hd)), List.cons_append]

theorem compactFrom_flatMap (e f : Bool) (s : List Char) (rest : Bytes) :
    compactFrom e .inString (s.flatMap (escapeChar f) ++ rest)
      = s.flatMap (escapeChar (e || f)) ++ compactFrom e .inString rest := by
  induction s with
  | nil => rfl
  | cons c s ih =>
    simp only [List.flatMap_cons, List.append_assoc]
    rw [compactFrom_escapeChar, ih]

theorem compactFrom_quote_open (e : Bool) (rest : Bytes) :
    compactFrom e .outside ('"' :: rest) = '"' :: compactFrom e .inString rest := by
  have h1 : compactChar e .outside '"' = ['"'] := by cases e <;> decide
  have h2 : scanStep .outside '"' = .inString := by decide
  rw [compactFrom, h1, h2]; rfl

theorem compactFrom_quote_close (e : Bool) (rest : Bytes) :
    compactFrom e .inString ('"' :: rest) = '"' :: compactFrom e .outside rest := by
  have h1 : compactChar e .inString '"' = ['"'] := by cases e <;> decide
  have h2 : scanStep .inString '"' = .outside := by decide
  rw [compactFrom, h1, h2]; rfl

theorem compactFrom_appendString (e f : Bool) (s : List Char) (rest : Bytes) :
    compactFrom e .outside (appendString [] s f ++ rest)
      = appendString [] s (e || f) ++ compactFrom e .outside rest := by
  simp only [appendString, List.nil_append, List.append_assoc, List.singleton_append,
    List.cons_append]
  rw [compactFrom_quote_open, compactFrom_flatMap, compactFrom_quote_close]

theorem compactFrom_lf (e : Bool) (rest : Bytes) :
    compactFrom e .outside (lf :: rest) = compactFrom e .outside rest := by
  have h1 : compactChar e .outside lf = [] := by cases e <;> decide
  have h2 : scanStep .outside lf = .outside := by decide
  rw [compactFrom, h1, h2]; rfl

theorem digit_plain (d : Nat) (h : d < 10) : plain (Char.ofNat (48 + d)) = true := by
  interval_cases d <;> decide

theorem formatNatAux_plain (fuel : Nat) :
    ∀ (n : Nat) (acc : Bytes), (∀ c ∈ acc, plain c = true) →
      ∀ c ∈ formatNatAux fuel n acc, plain c = true := by
  induction fuel with
  | zero => intro n acc hacc; simpa [formatNatAux] using hacc
  | succ fuel ih =>
    intro n acc hacc
    rw [formatNatAux]
    split_ifs with h
    · intro c hc
      rcases List.mem_cons.1 hc with rfl | hc
      · exact digit_plain n h
      · exact hacc c hc
    · apply ih
      intro c hc
      rcases List.mem_cons.1 hc with rfl | hc
      · exact digit_plain _ (Nat.mod_lt _ (by decide))
      · exact hacc c hc

theorem numberChar_cases (c : Char) (h : isNumberChar c = true) :
    (∃ d, d < 10 ∧ c = Char.ofNat (48 + d)) ∨ c = '-' ∨ c = '+' ∨ c = '.' ∨ c = 'e' ∨ c = 'E' := by
  simp only [isNumberChar, Bool.or_eq_true, decide_eq_true_eq] at h
  rcases h with ((((h | h) | h) | h) | h) | h
  · left
    refine ⟨c.toNat - 48, by omega, ?_⟩
    have h1 : 48 + (c.toNat - 48) = c.toNat := by omega
    rw [h1, Char.ofNat_toNat]
  all_goals
    subst h
    simp only [true_or, or_true]

theorem numberChar_plain (c : Char) (h : isNumberChar c = true) : plain c = true := by
  rcases numberChar_cases c h with ⟨d, hd, rfl⟩ | rfl | rfl | rfl | rfl | rfl
  · exact digit_plain d hd
  all_goals decide

theorem digit_numberChar (d : Nat) (h : d < 10) : isNumberChar (Char.ofNat (48 + d)) = true := by
  interval_cases d <;> decide

theorem formatNatAux_numberChars (fuel : Nat) :
    ∀ (n : Nat) (acc : Bytes), (∀ c ∈ acc, isNumberChar c = true) →
      ∀ c ∈ formatNatAux fuel n acc, isNumberChar c = true := by
  induction fuel with
  | zero => intro n acc hacc; simpa [formatNatAux] using hacc
  | succ fuel ih =>
    intro n acc hacc
    rw [formatNatAux]
    split_ifs with h
    · intro c hc
      rcases List.mem_cons.1 hc with rfl | hc
      · exact digit_numberChar n h
      · exact hacc c hc
    · apply ih
      intro c hc
      rcases List.mem_cons.1 hc with rfl | hc
      · exact digit_numberChar _ (Nat.mod_lt _ (by decide))
      · exact hacc c hc

theorem formatNat_numberChars (n : Nat) : ∀ c ∈ formatNat n, isNumberChar c = true :=
  formatNatAux_numberChars _ _ _ (fun c hc => absurd hc (List.not_mem_nil c))

theorem formatFloat_numberChars (x : Float64) :
    ∀ c ∈ formatFloat x, isNumberChar c = true := by
  intro c hc
  have hds := formatNat_numberChars x.digits
  have hsign : ∀ c ∈ (if x.neg then ['-'] else [] : Bytes), isNumberChar c = true := by
    intro c hc
    split_ifs at hc
    · rcases List.mem_singleton.1 hc with rfl; decide
    · exact absurd hc (List.not_mem_nil c)
  simp only [formatFloat] at hc
  generalize (if x.neg = true then ['-'] else [] : Bytes) = sign at hc hsign
  split_ifs at hc
  all_goals
    simp only [List.mem_append, List.mem_cons, List.mem_singleton, List.not_mem_nil, or_false,
      false_or, List.mem_replicate] at hc
    casesm* _ ∨ _
    all_goals try casesm* _ ∧ _
    all_goals first
      | exact hsign c ‹_›
      | exact hds c (List.mem_of_mem_take ‹_›)
      | exact hds c (List.mem_of_mem_drop ‹_›)
      | exact hds c ‹_›
      | exact formatNat_numberChars _ c ‹_›
      | (subst_vars; decide)

theorem formatFloat_plain (x : Float64) : ∀ c ∈ formatFloat x, plain c = true :=
  fun c hc => numberChar_plain c (formatFloat_numberChars x c hc)

mutual
theorem compactFrom_render (e f : Bool) : ∀ (v : Value) (rest : Bytes),
    compactFrom e .outside (render f v ++ rest)
      = render (e || f) v ++ compactFrom e .outside rest
  | .null, rest => by
    simp only [render]
    exact compactFrom_plains e _ rest (by decide)
  | .bool b, rest => by
    simp only [render]
    cases b
    · exact compactFrom_plains e _ rest (by decide)
    · exact compactFrom_plains e _ rest (by decide)
  | .number n, rest => by
    simp only [render]
    exact compactFrom_plains e _ rest (formatFloat_plain n)
  | .string s, rest => by
    simp only [render]
    exact compactFrom_appendString e f s rest
  | .array xs, rest => by
    simp only [render, List.cons_append, List.append_assoc]
    rw [compactFrom_plain e '[' _ (by decide), compactFrom_renderArray e f xs true,
      List.nil_append, compactFrom_plain e ']' _ (by decide)]
    rfl
  | .object ⟨_, entries, flag⟩, rest => by
    simp only [render, List.cons_append, List.append_assoc]
    rw [compactFrom_plain e lbrace _ (by decide),
      compactFrom_renderEntries e (f || flag) entries true,
      List.nil_append, compactFrom_plain e rbrace _ (by decide), Bool.or_assoc]
    rfl
  | .unsupported _, rest => by
    simp only [render, List.nil_append]
theorem compactFrom_renderArray (e f : Bool) : ∀ (xs : List Value) (first : Bool) (rest : Bytes),
    compactFrom e .outside (renderArray f first xs ++ rest)
      = renderArray (e || f) first xs ++ compactFrom e .outside rest
  | [], first, rest => by simp only [renderArray, List.nil_append]
  | x :: xs, first, rest => by
    simp only [renderArray, List.append_assoc]
    cases first
    · simp only [Bool.false_eq_true, if_false, List.singleton_append]
      rw [compactFrom_plain e ',' _ (by decide), compactFrom_render e f x,
        compactFrom_renderArray e f xs false]
    · simp only [if_true, List.nil_append]
      rw [compactFrom_render e f x, compactFrom_renderArray e f xs false]
theorem compactFrom_renderEntries (e f : Bool) :
    ∀ (es : List (Key × Value)) (first : Bool) (rest : Bytes),
    compactFrom e .outside (renderEntries f first es ++ rest)
      = renderEntries (e || f) first es ++ compactFrom e .outside rest
  | [], first, rest => by simp only [renderEntries, List.nil_append]
  | (key, value) :: es, first, rest => by
    simp only [renderEntries, List.append_assoc]
    cases first
    · simp only [Bool.false_eq_true, if_false, List.singleton_append]
      rw [compactFrom_plain e ',' _ (by decide), compactFrom_appendString,
        compactFrom_plain e ':' _ (by decide), compactFrom_render e f value,
        compactFrom_renderEntries e f es false]
    · simp only [if_true, List.nil_append]
      rw [compactFrom_appendString, List.singleton_append,
        compactFrom_plain e ':' _ (by decide), compactFrom_render e f value,
        compactFrom_renderEntries e f es false]
      rfl
end

/-! ## The normal form of the encoder output -/

theorem marshalEntries_eq (flag : Bool) (es : List (Key × Value)) :
    ∀ (first : Bool) (buf : Bytes),
      marshalEntries flag es first buf = marshalLoop goJSON ⟨flag⟩ es first buf := by
  induction es with
  | nil => intro first buf; simp only [marshalEntries, marshalLoop]
  | cons p rest ih =>
    intro first buf
    obtain ⟨key, value⟩ := p
    simp only [marshalEntries, marshalLoop, Encoder.Encode, goJSON, marshalValue]
    cases marshalValue flag value with
    | error err => rfl
    | ok b => exact ih false _

theorem compactFrom_rawEntries (e flag : Bool) :
    ∀ (es : List (Key × Value)) (first : Bool) (rest : Bytes),
    compactFrom e .outside (rawEntries flag first es ++ rest)
      = renderEntries (e || flag) first es ++ compactFrom e .outside rest
  | [], first, rest => by simp only [rawEntries, renderEntries, List.nil_append]
  | (key, value) :: es, first, rest => by
    have ih := compactFrom_rawEntries e flag es false rest
    have hbody : compactFrom e .outside (appendString [] key flag ++ ([lf] ++ ([':']
          ++ (render flag value ++ ([lf] ++ (rawEntries flag false es ++ rest))))))
        = appendString [] key (e || flag) ++ ([':'] ++ (render (e || flag) value
          ++ (renderEntries (e || flag) false es ++ compactFrom e .outside rest))) := by
      rw [compactFrom_appendString, List.singleton_append, compactFrom_lf,
        List.singleton_append, compactFrom_plain e ':' _ (by decide), compactFrom_render,
        List.singleton_append, compactFrom_lf, ih]
      rfl
    simp only [rawEntries, renderEntries, List.append_assoc]
    cases first
    · simp only [Bool.false_eq_true, if_false, List.singleton_append]
      rw [compactFrom_plain e ',' _ (by decide)]
      exact congrArg _ hbody
    · simp only [if_true, List.nil_append]
      exact hbody

mutual
theorem marshalValue_eq (e : Bool) : ∀ v : Value,
    marshalValue e v =
      match valueError v with
      | some err => .error err
      | none => .ok (render e v)
  | .null => by simp only [marshalValue, valueError, render]
  | .bool b => by simp only [marshalValue, valueError, render]
  | .number n => by simp only [marshalValue, valueError, render]
  | .string s => by simp only [marshalValue, valueError, render]
  | .array xs => by
    simp only [marshalValue, valueError, render]
    rw [marshalArray_eq e xs true]
    cases arrayError xs <;> rfl
  | .object ⟨_, entries, flag⟩ => by
    simp only [marshalValue, valueError, render]
    rw [marshalEntries_norm flag entries true]
    cases entriesError entries with
    | some err => rfl
    | none =>
      simp only [appendCompact, List.nil_append, List.singleton_append, List.cons_append,
        Except.ok.injEq]
      have h := compactFrom_rawEntries e flag entries true [rbrace]
      rw [compactFrom_plain e lbrace _ (by decide), h,
        compactFrom_plain e rbrace _ (by decide)]
      rfl
  | .unsupported err => by simp only [marshalValue, valueError]
theorem marshalArray_eq (e : Bool) : ∀ (xs : List Value) (first : Bool),
    marshalArray e first xs =
      match arrayError xs with
      | some err => .error err
      | none => .ok (renderArray e first xs)
  | [], first => by simp only [marshalArray, arrayError, renderArray]
  | x :: xs, first => by
    simp only [marshalArray, arrayError, renderArray]
    rw [marshalValue_eq e x]
    cases valueError x with
    | some err => rfl
    | none =>
      simp only
      rw [marshalArray_eq e xs false]
      cases arrayError xs with
      | some err => rfl
      | none => simp only [List.append_assoc]
theorem marshalEntries_norm (flag : Bool) :
    ∀ (es : List (Key × Value)) (first : Bool) (buf : Bytes),
    marshalEntries flag es first buf =
      match entriesError es with
      | some err => .error err
      | none => .ok (buf ++ rawEntries flag first es)
  | [], first, buf => by
    simp only [marshalEntries, entriesError, rawEntries, List.append_nil]
  | (key, value) :: es, first, buf => by
    simp only [marshalEntries, entriesError, rawEntries]
    rw [marshalValue_eq flag value]
    cases valueError value with
    | some err => rfl
    | none =>
      simp only
      rw [marshalEntries_norm flag es false]
      cases entriesError es with
      | some err => rfl
      | none =>
        cases first <;> simp [List.append_assoc]
end

/-! ## Where `<`, `>` and `&` can occur in the output -/

theorem inert_not_html (c : Char) (h : inert c = true) : htmlChar c = false := by
  simp only [inert, Bool.and_eq_true, bne_iff_ne, ne_eq] at h
  obtain ⟨⟨⟨⟨⟨⟨_, _⟩, h3⟩, h4⟩, h5⟩, _⟩, _⟩ := h
  simp [htmlChar, h3, h4, h5]

theorem escapeChar_false_html (c : Char) (h : htmlChar c = true) :
    escapeChar false c = [c] := by
  have hc : c = '<' ∨ c = '>' ∨ c = '&' := by
    simpa [htmlChar, or_assoc] using h
  rcases hc with rfl | rfl | rfl <;> decide

theorem escapeChar_not_html (f : Bool) (c : Char) (h : htmlChar c = false ∨ f = true) :
    ∀ x ∈ escapeChar f c, htmlChar x = false := by
  have hlist : ∀ (l : Bytes), (∀ t ∈ l, inert t = true) → ∀ x ∈ l, htmlChar x = false :=
    fun l hl x hx => inert_not_html x (hl x hx)
  by_cases hA : htmlSafeSet c = true
  · have h1 : escapeChar f c = [c] := by
      simp [escapeChar, hA, (htmlSafeSet_inert c hA).2]
    rw [h1]
    intro x hx
    rw [List.mem_singleton.1 hx]
    exact inert_not_html c (htmlSafeSet_inert c hA).1
  · have hA' : htmlSafeSet c = false := by simpa using hA
    have hcond : (htmlSafeSet c || (!f && safeSet c)) = false := by
      rcases h with h | h
      · have hS : safeSet c = false := by
          cases hs : safeSet c with
          | false => rfl
          | true =>
            exfalso
            apply hA
            simp only [htmlChar, Bool.or_eq_false_iff, decide_eq_false_iff_not] at h
            simp [htmlSafeSet, hs, h.1.1, h.1.2, h.2]
        simp [hA', hS]
      · simp [hA', h]
    simp only [escapeChar, hcond, Bool.false_eq_true, if_false]
    split_ifs with h1 h2 h3 h4 h5 h6 h7 h8
    · have h2' : c = '\\' ∨ c = '"' := by simpa using h2
      intro x hx
      simp only [List.mem_cons, List.mem_singleton, List.not_mem_nil, or_false] at hx
      rcases hx with rfl | rfl
      · decide
      · rcases h2' with rfl | rfl <;> decide
    · decide
    · decide
    · decide
    · decide
    · decide
    · intro x hx
      simp only [List.mem_cons, List.mem_singleton, List.not_mem_nil, or_false] at hx
      rcases hx with rfl | rfl | rfl | rfl | rfl | rfl
      · decide
      · decide
      · decide
      · decide
      · exact inert_not_html _ (hex_inert _)
      · exact inert_not_html _ (hex_inert _)
    · intro x hx
      simp only [List.mem_cons, List.mem_singleton, List.not_mem_nil, or_false] at hx
      rcases hx with rfl | rfl | rfl | rfl | rfl | rfl
      · decide
      · decide
      · decide
      · decide
      · decide
      · exact inert_not_html _ (hex_inert _)
    · intro x hx
      rw [List.mem_singleton.1 hx]
      have hlt : ¬ c.toNat < 128 := h1
      simp only [htmlChar, Bool.or_eq_false_iff, decide_eq_false_iff_not]
      refine ⟨⟨?_, ?_⟩, ?_⟩ <;> (rintro rfl; exact hlt (by decide))

theorem appendString_not_html (f : Bool) (s : List Char)
    (h : f = true ∨ ∀ c ∈ s, htmlChar c = false) :
    ∀ x ∈ appendString [] s f, htmlChar x = false := by
  intro x hx
  simp only [appendString, List.nil_append, List.append_assoc, List.singleton_append,
    List.mem_cons, List.mem_append, List.mem_flatMap, List.mem_singleton, List.not_mem_nil,
    or_false] at hx
  rcases hx with (rfl | ⟨c, hc, hx⟩) | rfl
  · decide
  · refine escapeChar_not_html f c ?_ x hx
    rcases h with h | h
    · exact Or.inr h
    · exact Or.inl (h c hc)
  · decide

theorem plain_not_html (c : Char) (h : plain c = true) : htmlChar c = false := by
  simp only [plain, Bool.and_eq_true] at h
  exact inert_not_html c h.1

theorem mem_cons_not_html (c x : Char) (l : Bytes) (hc : htmlChar c = false)
    (hl : ∀ y ∈ l, htmlChar y = false) (hx : x ∈ c :: l) : htmlChar x = false := by
  rcases List.mem_cons.1 hx with rfl | hx
  · exact hc
  · exact hl x hx

theorem mem_append_not_html (x : Char) (l₁ l₂ : Bytes) (h₁ : ∀ y ∈ l₁, htmlChar y = false)
    (h₂ : ∀ y ∈ l₂, htmlChar y = false) (hx : x ∈ l₁ ++ l₂) : htmlChar x = false := by
  rcases List.mem_append.1 hx with hx | hx
  · exact h₁ x hx
  · exact h₂ x hx

mutual
theorem render_not_html : ∀ (v : Value), ∀ x ∈ render true v, htmlChar x = false
  | .null => by simp only [render]; decide
  | .bool b => by cases b <;> (simp only [render]; decide)
  | .number n => by
    simp only [render]
    exact fun x hx => plain_not_html x (formatFloat_plain n x hx)
  | .string s => by
    simp only [render]
    exact appendString_not_html true s (Or.inl rfl)
  | .array xs => by
    simp only [render]
    intro x hx
    refine mem_cons_not_html '[' x _ (by decide) ?_ hx
    intro y hy
    exact mem_append_not_html y _ _ (renderArray_not_html xs true) (by decide) hy
  | .object ⟨_, entries, flag⟩ => by
    simp only [render, Bool.true_or]
    intro x hx
    refine mem_cons_not_html lbrace x _ (by decide) ?_ hx
    intro y hy
    exact mem_append_not_html y _ _ (renderEntries_not_html entries true) (by decide) hy
  | .unsupported _ => by simp only [render]; exact fun x hx => absurd hx (List.not_mem_nil x)
theorem renderArray_not_html : ∀ (xs : List Value) (first : Bool),
    ∀ x ∈ renderArray true first xs, htmlChar x = false
  | [], first => by
    simp only [renderArray]; exact fun x hx => absurd hx (List.not_mem_nil x)
  | v :: xs, first => by
    simp only [renderArray]
    intro x hx
    refine mem_append_not_html x _ _ ?_ (renderArray_not_html xs false) hx
    intro y hy
    refine mem_append_not_html y _ _ ?_ (render_not_html v) hy
    cases first <;> decide
theorem renderEntries_not_html : ∀ (es : List (Key × Value)) (first : Bool),
    ∀ x ∈ renderEntries true first es, htmlChar x = false
  | [], first => by
    simp only [renderEntries]; exact fun x hx => absurd hx (List.not_mem_nil x)
  | (key, value) :: es, first => by
    simp only [renderEntries]
    intro x hx
    refine mem_append_not_html x _ _ ?_ (renderEntries_not_html es false) hx
    intro y hy
    refine mem_append_not_html y _ _ ?_ (render_not_html value) hy
    intro z hz
    refine mem_append_not_html z _ _ ?_ (by decide) hz
    intro w hw
    refine mem_append_not_html w _ _ ?_ (appendString_not_html true key (Or.inl rfl)) hw
    cases first <;> decide
end

theorem rawEntries_not_html : ∀ (es : List (Key × Value)) (first : Bool),
    ∀ x ∈ rawEntries true first es, htmlChar x = false
  | [], first => by
    simp only [rawEntries]; exact fun x hx => absurd hx (List.not_mem_nil x)
  | (key, value) :: es, first => by
    simp only [rawEntries]
    intro x hx
    refine mem_append_not_html x _ _ ?_ (rawEntries_not_html es false) hx
    intro y hy
    refine mem_append_not_html y _ _ ?_ (by decide) hy
    intro y hy
    refine mem_append_not_html y _ _ ?_ (render_not_html value) hy
    intro z hz
    refine mem_append_not_html z _ _ ?_ (by decide) hz
    intro z hz
    refine mem_append_not_html z _ _ ?_ (by decide) hz
    intro w hw
    refine mem_append_not_html w _ _ ?_ (appendString_not_html true key (Or.inl rfl)) hw
    cases first <;> decide

theorem MarshalJSON_goJSON (m : Map Value) :
    m.MarshalJSON goJSON =
      match entriesError m.entries with
      | some err => (none, some err)
      | none => (some (lbrace :: rawEntries m.escapeHTML true m.entries ++ [rbrace]), none) := by
  simp only [Map.MarshalJSON, NewEncoder, Encoder.SetEscapeHTML, Map.First]
  rw [← marshalEntries_eq, marshalEntries_norm]
  cases entriesError m.entries with
  | some err => rfl
  | none => rfl

theorem trimRightLF_append_lf (b : Bytes) (c : Char) (hc : c ≠ lf) :
    trimRightLF (b ++ [c] ++ [lf]) = b ++ [c] := by
  simp [trimRightLF, List.dropWhile, hc]

theorem encodeJSON_eq (m : Map Value) (e : Bool) :
    encodeJSON m e =
      match valueError (.object m) with
      | some err => (none, some err)
      | none => (some (render e (.object m)), none) := by
  simp only [encodeJSON, NewEncoder, Encoder.SetEscapeHTML, Encoder.Encode, goJSON]
  rw [marshalValue_eq]
  cases valueError (.object m) with
  | some err => rfl
  | none =>
    obtain ⟨idx, entries, flag⟩ := m
    simp only [render, List.nil_append]
    have h := trimRightLF_append_lf (lbrace :: renderEntries (e || flag) true entries) rbrace
      (by decide)
    rw [List.cons_append] at h ⊢
    rw [h]

theorem Marshal_eq (m : Map Value) :
    Marshal m =
      match valueError (.object m) with
      | some err => (none, some err)
      | none => (some (render true (.object m)), none) := by
  simp only [Marshal]
  rw [marshalValue_eq]
  cases valueError (.object m) <;> rfl

/-! ## The `escapeHTML` flag -/

theorem escapeChar_congr (e f : Bool) (c : Char) (h : htmlChar c = false) :
    escapeChar e c = escapeChar f c := by
  by_cases hA : htmlSafeSet c = true
  · simp only [escapeChar, hA, Bool.true_or]
  · have hA' : htmlSafeSet c = false := by simpa using hA
    have hS : safeSet c = false := by
      cases hs : safeSet c with
      | false => rfl
      | true =>
        exfalso
        apply hA
        simp only [htmlChar, Bool.or_eq_false_iff, decide_eq_false_iff_not] at h
        simp [htmlSafeSet, hs, h.1.1, h.1.2, h.2]
    simp only [escapeChar, hA', hS, Bool.and_false, Bool.or_false]

theorem appendString_congr (e f : Bool) (s : List Char)
    (h : (s.all fun c => !htmlChar c) = true) :
    appendString [] s e = appendString [] s f := by
  have hs : s.flatMap (escapeChar e) = s.flatMap (escapeChar f) := by
    induction s with
    | nil => rfl
    | cons c s ih =>
      simp only [List.all_cons, Bool.and_eq_true, Bool.not_eq_true'] at h
      simp only [List.flatMap_cons, escapeChar_congr e f c h.1, ih h.2]
  simp only [appendString, hs]

mutual
theorem render_congr (e f : Bool) : ∀ (v : Value), htmlFree v = true →
    render e v = render f v
  | .null, _ => by simp only [render]
  | .bool b, _ => by simp only [render]
  | .number n, _ => by simp only [render]
  | .string s, h => by
    simp only [htmlFree] at h
    simp only [render, appendString_congr e f s h]
  | .array xs, h => by
    simp only [htmlFree] at h
    simp only [render, renderArray_congr e f xs true h]
  | .object ⟨_, entries, flag⟩, h => by
    simp only [htmlFree] at h
    simp only [render, renderEntries_congr (e || flag) (f || flag) entries true h]
  | .unsupported _, _ => by simp only [render]
theorem renderArray_congr (e f : Bool) : ∀ (xs : List Value) (first : Bool),
    htmlFreeArray xs = true → renderArray e first xs = renderArray f first xs
  | [], first, _ => by simp only [renderArray]
  | v :: xs, first, h => by
    simp only [htmlFreeArray, Bool.and_eq_true] at h
    simp only [renderArray, render_congr e f v h.1, renderArray_congr e f xs false h.2]
theorem renderEntries_congr (e f : Bool) : ∀ (es : List (Key × Value)) (first : Bool),
    htmlFreeEntries es = true → renderEntries e first es = renderEntries f first es
  | [], first, _ => by simp only [renderEntries]
  | (key, value) :: es, first, h => by
    simp only [htmlFreeEntries, Bool.and_eq_true] at h
    simp only [renderEntries, appendString_congr e f key h.1.1, render_congr e f value h.1.2,
      renderEntries_congr e f es false h.2]
end

theorem rawEntries_congr (e f : Bool) : ∀ (es : List (Key × Value)) (first : Bool),
    htmlFreeEntries es = true → rawEntries e first es = rawEntries f first es
  | [], first, _ => by simp only [rawEntries]
  | (key, value) :: es, first, h => by
    simp only [htmlFreeEntries, Bool.and_eq_true] at h
    simp only [rawEntries, appendString_congr e f key h.1.1, render_congr e f value h.1.2,
      rawEntries_congr e f es false h.2]

theorem count_single (c x : Char) (h : c ≠ x) : List.count c [x] = 0 :=
  List.count_eq_zero_of_not_mem (fun hm => h (List.mem_singleton.1 hm))

theorem count_eq_zero_of_not_html (c : Char) (hc : htmlChar c = true) (l : Bytes)
    (hl : ∀ x ∈ l, htmlChar x = false) : l.count c = 0 := by
  apply List.count_eq_zero_of_not_mem
  intro hmem
  rw [hl c hmem] at hc
  cases hc

theorem count_escapeChar_false (c : Char) (hc : htmlChar c = true) (ch : Char) :
    (escapeChar false ch).count c = [ch].count c := by
  cases hch : htmlChar ch with
  | true => rw [escapeChar_false_html ch hch]
  | false =>
    rw [count_eq_zero_of_not_html c hc _ (escapeChar_not_html false ch (Or.inl hch))]
    symm
    apply List.count_eq_zero_of_not_mem
    intro hmem
    rw [List.mem_singleton.1 hmem, hch] at hc
    cases hc

theorem count_appendString_false (c : Char) (hc : htmlChar c = true) (s : List Char) :
    (appendString [] s false).count c = s.count c := by
  have hq : c ≠ '"' := by rintro rfl; revert hc; decide
  have hs : (s.flatMap (escapeChar false)).count c = s.count c := by
    induction s with
    | nil => rfl
    | cons ch s ih =>
      rw [List.flatMap_cons, List.count_append, ih, count_escapeChar_false c hc ch,
        ← List.count_append]
      rfl
  simp only [appendString, List.nil_append, List.singleton_append, List.count_append,
    List.count_cons, hs, List.count_nil]
  simp [Ne.symm hq]

mutual
theorem count_render (c : Char) (hc : htmlChar c = true) : ∀ (v : Value),
    flagsOff v = true → (render false v).count c = occurrences c v
  | .null, _ => by
    simp only [render, occurrences]
    exact count_eq_zero_of_not_html c hc _ (by decide)
  | .bool b, _ => by
    simp only [render, occurrences]
    cases b <;> exact count_eq_zero_of_not_html c hc _ (by decide)
  | .number n, _ => by
    simp only [render, occurrences]
    exact count_eq_zero_of_not_html c hc _
      (fun x hx => plain_not_html x (formatFloat_plain n x hx))
  | .string s, _ => by
    simp only [render, occurrences]
    exact count_appendString_false c hc s
  | .array xs, h => by
    simp only [flagsOff] at h
    have h1 : c ≠ '[' := by rintro rfl; revert hc; decide
    have h2 : c ≠ ']' := by rintro rfl; revert hc; decide
    simp only [render, occurrences, List.count_cons, List.count_append, List.count_nil,
      count_renderArray c hc xs true h]
    simp [Ne.symm h1, Ne.symm h2]
  | .object ⟨_, entries, flag⟩, h => by
    simp only [flagsOff, Bool.and_eq_true, Bool.not_eq_true'] at h
    have h1 : c ≠ lbrace := by rintro rfl; revert hc; decide
    have h2 : c ≠ rbrace := by rintro rfl; revert hc; decide
    simp only [render, occurrences, h.1, Bool.or_false, List.count_cons, List.count_append,
      List.count_nil, count_renderEntries c hc entries true h.2]
    simp [Ne.symm h1, Ne.symm h2]
  | .unsupported _, _ => by simp only [render, occurrences, List.count_nil]
theorem count_renderArray (c : Char) (hc : htmlChar c = true) :
    ∀ (xs : List Value) (first : Bool), flagsOffArray xs = true →
      (renderArray false first xs).count c = occurrencesArray c xs
  | [], first, _ => by simp only [renderArray, occurrencesArray, List.count_nil]
  | v :: xs, first, h => by
    simp only [flagsOffArray, Bool.and_eq_true] at h
    have h1 : c ≠ ',' := by rintro rfl; revert hc; decide
    simp only [renderArray, occurrencesArray, List.count_append, count_render c hc v h.1,
      count_renderArray c hc xs false h.2]
    cases first <;> simp [count_single c _ h1]
theorem count_renderEntries (c : Char) (hc : htmlChar c = true) :
    ∀ (es : List (Key × Value)) (first : Bool), flagsOffEntries es = true →
      (renderEntries false first es).count c = occurrencesEntries c es
  | [], first, _ => by simp only [renderEntries, occurrencesEntries, List.count_nil]
  | (key, value) :: es, first, h => by
    simp only [flagsOffEntries, Bool.and_eq_true] at h
    have h1 : c ≠ ',' := by rintro rfl; revert hc; decide
    have h2 : c ≠ ':' := by rintro rfl; revert hc; decide
    simp only [renderEntries, occurrencesEntries, List.count_append,
      count_appendString_false c hc key, count_render c hc value h.1,
      count_renderEntries c hc es false h.2]
    cases first <;> simp [count_single c _ h1, count_single c _ h2]
end

theorem renderEntries_mem (e : Bool) : ∀ (es : List (Key × Value)) (first : Bool)
    (key : Key) (value : Value), (key, value) ∈ es →
    ∃ before after, renderEntries e first es
      = before ++ appendString [] key e ++ [':'] ++ render e value ++ after
  | [], _, _, _, h => absurd h (List.not_mem_nil _)
  | (k, v) :: es, first, key, value, h => by
    rcases List.mem_cons.1 h with heq | hmem
    · cases heq
      exact ⟨if first then [] else [','], renderEntries e false es, by
        simp only [renderEntries]⟩
    · obtain ⟨before, after, hrest⟩ := renderEntries_mem e es false key value hmem
      refine ⟨(if first then [] else [',']) ++ appendString [] k e ++ [':'] ++ render e v
        ++ before, after, ?_⟩
      simp only [renderEntries, hrest, List.append_assoc]

theorem render_object_not_html (m : Map Value) (e : Bool)
    (h : e = true ∨ m.escapeHTML = true) :
    ∀ x ∈ render e (.object m), htmlChar x = false := by
  obtain ⟨idx, entries, flag⟩ := m
  have hflag : (e || flag) = true := by
    rcases h with h | h
    · simp [h]
    · simp only at h; simp [h]
  simp only [render, hflag]
  intro x hx
  refine mem_cons_not_html lbrace x _ (by decide) ?_ hx
  intro y hy
  exact mem_append_not_html y _ _ (renderEntries_not_html entries true) (by decide) hy

/-! ## Numbers: parsing what `formatFloat` writes -/

theorem formatNatAux_eq : ∀ (fuel n : Nat) (acc : Bytes), n < fuel →
    formatNatAux fuel n acc = formatNat n ++ acc := by
  intro fuel
  induction fuel using Nat.strong_induction_on with
  | _ fuel ih =>
    intro n acc hn
    cases fuel with
    | zero => omega
    | succ fuel =>
      by_cases h10 : n < 10
      · simp only [formatNatAux, formatNat, h10, if_true, List.singleton_append]
      · have hdiv : n / 10 < n := Nat.div_lt_self (by omega) (by decide)
        have h1 : formatNatAux (fuel + 1) n acc
            = formatNatAux fuel (n / 10) (Char.ofNat (48 + n % 10) :: acc) := by
          simp only [formatNatAux, h10, if_false]
        have h2 : formatNat n = formatNatAux n (n / 10) [Char.ofNat (48 + n % 10)] := by
          simp only [formatNat, formatNatAux, h10, if_false]
        rw [h1, h2, ih fuel (Nat.lt_succ_self _) (n / 10) _ (by omega),
          ih n (by omega) (n / 10) _ hdiv, List.append_assoc]
        rfl

theorem formatNat_small (n : Nat) (h : n < 10) : formatNat n = [Char.ofNat (48 + n)] := by
  simp only [formatNat, formatNatAux, h, if_true]

theorem formatNat_step (n : Nat) (h : 10 ≤ n) :
    formatNat n = formatNat (n / 10) ++ [Char.ofNat (48 + n % 10)] := by
  have h10 : ¬ n < 10 := by omega
  have hdiv : n / 10 < n := Nat.div_lt_self (by omega) (by decide)
  have h2 : formatNat n = formatNatAux n (n / 10) [Char.ofNat (48 + n % 10)] := by
    simp only [formatNat, formatNatAux, h10, if_false]
  rw [h2, formatNatAux_eq n (n / 10) _ hdiv]

theorem digit_toNat (d : Nat) (h : d < 10) : (Char.ofNat (48 + d)).toNat = 48 + d := by
  interval_cases d <;> decide

theorem takeDigits_digit (d : Nat) (h : d < 10) (rest : Bytes) (acc : Nat) :
    takeDigits (Char.ofNat (48 + d) :: rest) acc = takeDigits rest (acc * 10 + d) := by
  have ht := digit_toNat d h
  simp only [takeDigits, ht]
  have hc : 48 ≤ 48 + d ∧ 48 + d ≤ 57 := ⟨by omega, by omega⟩
  simp only [hc, and_self, if_true, Nat.add_sub_cancel_left]

/-- The input does not go on with a decimal digit. -/
theorem takeDigits_stop (rest : Bytes) (acc : Nat) (h : delimited rest = true) :
    takeDigits rest acc = (acc, rest) := by
  cases rest with
  | nil => rfl
  | cons c rest =>
    have hc : c = ',' ∨ c = ']' ∨ c = rbrace := by
      simpa [delimited, or_assoc] using h
    have hnd : ¬ (48 ≤ c.toNat ∧ c.toNat ≤ 57) := by
      rcases hc with rfl | rfl | rfl <;> decide
    simp only [takeDigits, hnd, if_false]

theorem takeDigits_formatNat : ∀ (n : Nat) (rest : Bytes) (acc : Nat),
    ∃ k, takeDigits (formatNat n ++ rest) acc = takeDigits rest (acc * 10 ^ k + n) := by
  intro n
  induction n using Nat.strong_induction_on with
  | _ n ih =>
    intro rest acc
    by_cases h10 : n < 10
    · refine ⟨1, ?_⟩
      rw [formatNat_small n h10, List.singleton_append, takeDigits_digit n h10, pow_one]
    · have hdiv : n / 10 < n := Nat.div_lt_self (by omega) (by decide)
      obtain ⟨k, hk⟩ := ih (n / 10) hdiv (Char.ofNat (48 + n % 10) :: rest) acc
      refine ⟨k + 1, ?_⟩
      rw [formatNat_step n (by omega), List.append_assoc, List.singleton_append, hk,
        takeDigits_digit _ (Nat.mod_lt _ (by decide))]
      congr 1
      have hn : n / 10 * 10 + n % 10 = n := by omega
      rw [pow_succ]
      calc (acc * 10 ^ k + n / 10) * 10 + n % 10
          = acc * (10 ^ k * 10) + (n / 10 * 10 + n % 10) := by ring
        _ = acc * (10 ^ k * 10) + n := by rw [hn]

theorem formatNat_head (n : Nat) (h : 0 < n) :
    ∃ d tl, formatNat n = Char.ofNat (48 + d) :: tl ∧ 1 ≤ d ∧ d ≤ 9 := by
  induction n using Nat.strong_induction_on with
  | _ n ih =>
    by_cases h10 : n < 10
    · exact ⟨n, [], formatNat_small n h10, h, by omega⟩
    · have hdiv : n / 10 < n := Nat.div_lt_self (by omega) (by decide)
      have hpos : 0 < n / 10 := Nat.div_pos (by omega) (by decide)
      obtain ⟨d, tl, htl, hd⟩ := ih (n / 10) hdiv hpos
      refine ⟨d, tl ++ [Char.ofNat (48 + n % 10)], ?_, hd⟩
      rw [formatNat_step n (by omega), htl, List.cons_append]

/-! ## Strings: parsing what `appendString` writes -/

theorem parseStringBody_raw (c : Char) (tail : Bytes) (h1 : c ≠ '"') (h2 : c ≠ '\\')
    (h3 : ¬ c.toNat < 0x20) :
    parseStringBody 0 (c :: tail) = consChar c (parseStringBody 0 tail) := by
  rw [parseStringBody.eq_def]
  simp only [h1, h2, h3, if_false]

theorem parseStringBody_escape (x ch : Char) (tail : Bytes) (hx : x ≠ 'u')
    (hu : unescape x = some ch) :
    parseStringBody 0 ('\\' :: x :: tail) = consChar ch (parseStringBody 0 tail) := by
  have hq : ('\\' : Char) ≠ '"' := by decide
  rw [parseStringBody.eq_def]
  simp only [hq, if_false, if_true, hx, hu]

theorem parseStringBody_unicode (a b c d : Char) (tail : Bytes) (r : Nat)
    (h : hex4 a b c d = some r) (hlow : r < 0xD800) :
    parseStringBody 0 ('\\' :: 'u' :: a :: b :: c :: d :: tail)
      = consChar (Char.ofNat r) (parseStringBody 0 tail) := by
  have hq : ('\\' : Char) ≠ '"' := by decide
  have h1 : ¬ (0xD800 ≤ r ∧ r < 0xDC00) := by omega
  have h2 : ¬ (0xDC00 ≤ r ∧ r < 0xE000) := by omega
  rw [parseStringBody.eq_def]
  simp only [hq, if_false, if_true, h, h1, h2]

theorem hexVal_hex (k : Nat) (h : k < 16) : hexVal (hex k) = some k := by
  interval_cases k <;> decide

theorem safeSet_raw (c : Char) (h : safeSet c = true) :
    c ≠ '"' ∧ c ≠ '\\' ∧ ¬ c.toNat < 0x20 := by
  simp only [safeSet, Bool.and_eq_true, decide_eq_true_eq, bne_iff_ne, ne_eq] at h
  obtain ⟨⟨⟨h0, _⟩, h2⟩, h3⟩ := h
  exact ⟨h2, h3, by omega⟩

theorem parseStringBody_escapeChar (f : Bool) (c : Char) (tail : Bytes) :
    parseStringBody 0 (escapeChar f c ++ tail) = consChar c (parseStringBody 0 tail) := by
  by_cases hS : safeSet c = true
  · obtain ⟨h1, h2, h3⟩ := safeSet_raw c hS
    by_cases hraw : escapeChar f c = [c]
    · rw [hraw]
      exact parseStringBody_raw c tail h1 h2 h3
    · -- a safe character that is escaped: `<`, `>` or `&` under HTML escaping
      have hlt : c.toNat < 0x80 := by
        simp only [safeSet, Bool.and_eq_true, decide_eq_true_eq] at hS
        exact hS.1.1.2
      have hhtml : htmlChar c = true := by
        cases hh : htmlChar c with
        | true => rfl
        | false =>
          exfalso
          apply hraw
          simp only [htmlChar, Bool.or_eq_false_iff, decide_eq_false_iff_not] at hh
          have hA : htmlSafeSet c = true := by
            simp [htmlSafeSet, hS, hh.1.1, hh.1.2, hh.2]
          simp [escapeChar, hA, hlt]
      have hc : c = '<' ∨ c = '>' ∨ c = '&' := by
        simpa [htmlChar, or_assoc] using hhtml
      cases f with
      | false => exact absurd (escapeChar_false_html c hhtml) hraw
      | true =>
        rcases hc with rfl | rfl | rfl
        · exact parseStringBody_unicode '0' '0' '3' 'c' tail 0x3c (by decide) (by decide)
        · exact parseStringBody_unicode '0' '0' '3' 'e' tail 0x3e (by decide) (by decide)
        · exact parseStringBody_unicode '0' '0' '2' '6' tail 0x26 (by decide) (by decide)
  · have hS' : safeSet c = false := by simpa using hS
    have hA' : htmlSafeSet c = false := by simp [htmlSafeSet, hS']
    simp only [escapeChar, hS', hA', Bool.and_false, Bool.or_false, Bool.false_eq_true,
      if_false]
    split_ifs with h1 h2 h3 h4 h5 h6 h7 h8
    · have h2' : c = '\\' ∨ c = '"' := by simpa using h2
      rcases h2' with rfl | rfl
      · exact parseStringBody_escape '\\' '\\' tail (by decide) (by decide)
      · exact parseStringBody_escape '"' '"' tail (by decide) (by decide)
    · subst h3
      exact parseStringBody_escape 'b' _ tail (by decide) (by decide)
    · subst h4
      exact parseStringBody_escape 'f' _ tail (by decide) (by decide)
    · subst h5
      exact parseStringBody_escape 'n' _ tail (by decide) (by decide)
    · subst h6
      exact parseStringBody_escape 'r' _ tail (by decide) (by decide)
    · subst h7
      exact parseStringBody_escape 't' _ tail (by decide) (by decide)
    · have hdiv : c.toNat / 16 < 16 := by omega
      have hmod : c.toNat % 16 < 16 := Nat.mod_lt _ (by decide)
      have hhex : hex4 '0' '0' (hex (c.toNat / 16)) (hex (c.toNat % 16)) = some c.toNat := by
        have h0 : hexVal '0' = some 0 := by decide
        simp only [hex4, h0, hexVal_hex _ hdiv, hexVal_hex _ hmod]
        congr 1
        omega
      have := parseStringBody_unicode '0' '0' (hex (c.toNat / 16)) (hex (c.toNat % 16)) tail
        c.toNat hhex (by omega)
      rw [Char.ofNat_toNat] at this
      exact this
    · have h8' : c = Char.ofNat 0x2028 ∨ c = Char.ofNat 0x2029 := by simpa using h8
      rcases h8' with rfl | rfl
      · exact parseStringBody_unicode '2' '0' '2' '8' tail 0x2028 (by decide) (by decide)
      · exact parseStringBody_unicode '2' '0' '2' '9' tail 0x2029 (by decide) (by decide)
    · have hq : c ≠ '"' := by rintro rfl; revert h1; decide
      have hbs : c ≠ '\\' := by rintro rfl; revert h1; decide
      exact parseStringBody_raw c tail hq hbs (by omega)

theorem parseStringBody_flatMap (f : Bool) (s : List Char) (rest : Bytes) :
    parseStringBody 0 (s.flatMap (escapeChar f) ++ '"' :: rest) = .ok (s, rest) := by
  induction s with
  | nil =>
    rw [List.flatMap_nil, List.nil_append, parseStringBody.eq_def]
    simp only [if_true]
  | cons c s ih =>
    rw [List.flatMap_cons, List.append_assoc, parseStringBody_escapeChar, ih]
    rfl

theorem parseStringBody_appendString (f : Bool) (s : List Char) (rest : Bytes) :
    ∃ tail, appendString [] s f ++ rest = '"' :: tail ∧
      parseStringBody 0 tail = .ok (s, rest) := by
  refine ⟨s.flatMap (escapeChar f) ++ '"' :: rest, ?_, parseStringBody_flatMap f s rest⟩
  simp only [appendString, List.nil_append, List.singleton_append, List.cons_append,
    List.append_assoc]

/-! ## Values: parsing what the encoder writes -/

theorem skipSpace_cons (c : Char) (l : Bytes) (h : isSpace c = false) :
    skipSpace (c :: l) = c :: l := by
  simp only [skipSpace, h, Bool.false_eq_true, if_false]

theorem parseValue_null (flag : Bool) (k : Nat) (rest : Bytes) :
    parseValue flag (k + 1) ("null".toList ++ rest) = .ok (.null, rest) := by
  have h : "null".toList ++ rest = 'n' :: 'u' :: 'l' :: 'l' :: rest := rfl
  rw [h, parseValue, skipSpace_cons _ _ (by decide)]
  simp [expect, List.isPrefixOf, lbrace]

theorem parseValue_true (flag : Bool) (k : Nat) (rest : Bytes) :
    parseValue flag (k + 1) ("true".toList ++ rest) = .ok (.bool true, rest) := by
  have h : "true".toList ++ rest = 't' :: 'r' :: 'u' :: 'e' :: rest := rfl
  rw [h, parseValue, skipSpace_cons _ _ (by decide)]
  simp [expect, List.isPrefixOf, lbrace]

theorem parseValue_false (flag : Bool) (k : Nat) (rest : Bytes) :
    parseValue flag (k + 1) ("false".toList ++ rest) = .ok (.bool false, rest) := by
  have h : "false".toList ++ rest = 'f' :: 'a' :: 'l' :: 's' :: 'e' :: rest := rfl
  rw [h, parseValue, skipSpace_cons _ _ (by decide)]
  simp [expect, List.isPrefixOf, lbrace]

theorem parseValue_string (flag : Bool) (k : Nat) (s : List Char) (rest : Bytes) :
    parseValue flag (k + 1) (appendString [] s true ++ rest) = .ok (.string s, rest) := by
  obtain ⟨tail, htail, hparse⟩ := parseStringBody_appendString true s rest
  rw [htail, parseValue, skipSpace_cons _ _ (by decide)]
  have h1 : ('"' : Char) ≠ lbrace := by decide
  have h2 : ('"' : Char) ≠ '[' := by decide
  simp only [h1, h2, if_false, if_true, hparse]

theorem digit_isSpace (d : Nat) (h : d < 10) : isSpace (Char.ofNat (48 + d)) = false := by
  interval_cases d <;> decide

theorem digit_ne (d : Nat) (h : d < 10) (x : Char) (hx : x.toNat < 48 ∨ 57 < x.toNat) :
    Char.ofNat (48 + d) ≠ x := by
  intro heq
  have := congrArg Char.toNat heq
  rw [digit_toNat d h] at this
  omega

theorem formatNat_head_digit (n : Nat) :
    ∃ d tl, formatNat n = Char.ofNat (48 + d) :: tl ∧ d ≤ 9 := by
  rcases Nat.eq_zero_or_pos n with h0 | hpos
  · exact ⟨0, [], by rw [h0]; decide, by decide⟩
  · obtain ⟨d, tl, htl, _, hd⟩ := formatNat_head n hpos
    exact ⟨d, tl, htl, hd⟩

theorem takeWhile_append_stop (p : Char → Bool) (l rest : Bytes)
    (hl : ∀ c ∈ l, p c = true) (hrest : ∀ c ∈ rest.head?, p c = false) :
    (l ++ rest).takeWhile p = l ∧ (l ++ rest).dropWhile p = rest := by
  induction l with
  | nil =>
    cases rest with
    | nil => exact ⟨rfl, rfl⟩
    | cons c rest =>
      have hc : p c = false := hrest c rfl
      simp only [List.nil_append, List.takeWhile, List.dropWhile, hc, and_self]
  | cons a l ih =>
    have ha : p a = true := hl a (List.mem_cons_self a l)
    have ih1 := ih (fun c hc => hl c (List.mem_cons_of_mem a hc))
    rw [List.cons_append, List.takeWhile_cons, List.dropWhile_cons]
    simp only [ha, if_true, ih1.1, ih1.2, and_self]

theorem delimited_not_numberChar (rest : Bytes) (h : delimited rest = true) :
    ∀ c ∈ rest.head?, isNumberChar c = false := by
  cases rest with
  | nil => intro c hc; cases hc
  | cons a rest =>
    have ha : a = ',' ∨ a = ']' ∨ a = rbrace := by
      simpa [delimited, or_assoc] using h
    intro c hc
    have hca : a = c := by simpa using hc
    subst hca
    rcases ha with rfl | rfl | rfl <;> decide

theorem convertNumber_of_isFloat64 (x : Float64) (h : isFloat64 x = true) :
    convertNumber (formatFloat x) = .ok (.number x) := by
  unfold isFloat64 at h
  split at h
  · rename_i y hy
    rw [hy, of_decide_eq_true h]
  · cases h

theorem formatFloat_head (x : Float64) :
    ∃ c t, formatFloat x = c :: t ∧ (c = '-' ∨ ∃ d, d < 10 ∧ c = Char.ofNat (48 + d)) := by
  obtain ⟨d, tl, htl, hd⟩ := formatNat_head_digit x.digits
  have hd10 : d < 10 := by omega
  have hlen : (formatNat x.digits).length = tl.length + 1 := by rw [htl]; rfl
  cases hneg : x.neg with
  | true =>
    have ht : ∃ t, formatFloat x = '-' :: t := by
      simp only [formatFloat, hneg, if_true]
      split_ifs <;> exact ⟨_, rfl⟩
    obtain ⟨t, ht⟩ := ht
    exact ⟨'-', t, ht, Or.inl rfl⟩
  | false =>
    simp only [formatFloat, hneg, Bool.false_eq_true, if_false, List.nil_append]
    by_cases h0 : x.digits = 0
    · exact ⟨'0', [], by simp only [h0, if_true], Or.inr ⟨0, by decide, by decide⟩⟩
    · simp only [h0, if_false]
      by_cases he : ((formatNat x.digits).length : Int) + x.exp10 < -5
          ∨ 21 < ((formatNat x.digits).length : Int) + x.exp10
      · simp only [he, if_true]
        exact ⟨_, _, by rw [htl]; rfl, Or.inr ⟨d, hd10, rfl⟩⟩
      · simp only [he, if_false]
        by_cases hle : ((formatNat x.digits).length : Int) + x.exp10 ≤ 0
        · simp only [hle, if_true]
          exact ⟨'0', _, rfl, Or.inr ⟨0, by decide, by decide⟩⟩
        · simp only [hle, if_false]
          by_cases hge : ((formatNat x.digits).length : Int)
              ≤ ((formatNat x.digits).length : Int) + x.exp10
          · simp only [hge, if_true]
            exact ⟨_, _, by rw [htl]; rfl, Or.inr ⟨d, hd10, rfl⟩⟩
          · simp only [hge, if_false]
            obtain ⟨j, hj⟩ : ∃ j, (((formatNat x.digits).length : Int) + x.exp10).toNat = j + 1 :=
              ⟨(((formatNat x.digits).length : Int) + x.exp10).toNat - 1, by omega⟩
            rw [hj, htl]
            exact ⟨_, _, rfl, Or.inr ⟨d, hd10, rfl⟩⟩

theorem parseValue_number (flag : Bool) (k : Nat) (x : Float64) (rest : Bytes)
    (hx : isFloat64 x = true) (hrest : delimited rest = true) :
    parseValue flag (k + 1) (formatFloat x ++ rest) = .ok (.number x, rest) := by
  obtain ⟨htake, hdrop⟩ := takeWhile_append_stop isNumberChar (formatFloat x) rest
    (formatFloat_numberChars x) (delimited_not_numberChar rest hrest)
  have hconv := convertNumber_of_isFloat64 x hx
  obtain ⟨c, t, hct, hc⟩ := formatFloat_head x
  rw [hct, List.cons_append] at htake hdrop ⊢
  rw [hct] at hconv
  have hsp : isSpace c = false := by
    rcases hc with rfl | ⟨d, hd, rfl⟩
    · decide
    · exact digit_isSpace d hd
  have h1 : c ≠ lbrace := by
    rcases hc with rfl | ⟨d, hd, rfl⟩
    · decide
    · exact digit_ne d hd lbrace (by decide)
  have h2 : c ≠ '[' := by
    rcases hc with rfl | ⟨d, hd, rfl⟩
    · decide
    · exact digit_ne d hd '[' (by decide)
  have h3 : c ≠ '"' := by
    rcases hc with rfl | ⟨d, hd, rfl⟩
    · decide
    · exact digit_ne d hd '"' (by decide)
  have h4 : c = '-' ∨ (48 ≤ c.toNat ∧ c.toNat ≤ 57) := by
    rcases hc with rfl | ⟨d, hd, rfl⟩
    · exact Or.inl rfl
    · right; rw [digit_toNat d hd]; omega
  rw [parseValue, skipSpace_cons _ _ hsp]
  simp only [h1, h2, h3, h4, if_false, if_true, htake, hdrop, hconv]

theorem render_head (v : Value) (h : valueError v = none) :
    ∃ c t, render true v = c :: t ∧ isSpace c = false ∧ c ≠ ']' := by
  cases v with
  | null => exact ⟨'n', "ull".toList, rfl, by decide, by decide⟩
  | bool b =>
    cases b
    · exact ⟨'f', "alse".toList, rfl, by decide, by decide⟩
    · exact ⟨'t', "rue".toList, rfl, by decide, by decide⟩
  | number x =>
    obtain ⟨c, t, hct, hc⟩ := formatFloat_head x
    refine ⟨c, t, by simp only [render, hct], ?_, ?_⟩
    · rcases hc with rfl | ⟨d, hd, rfl⟩
      · decide
      · exact digit_isSpace d hd
    · rcases hc with rfl | ⟨d, hd, rfl⟩
      · decide
      · exact digit_ne d hd ']' (by decide)
  | string s =>
    exact ⟨'"', s.flatMap (escapeChar true) ++ ['"'], by
      simp only [render, appendString, List.nil_append, List.singleton_append,
        List.cons_append], by decide, by decide⟩
  | array xs =>
    exact ⟨'[', renderArray true true xs ++ [']'], by simp only [render, List.cons_append],
      by decide, by decide⟩
  | object m =>
    obtain ⟨idx, entries, flag⟩ := m
    exact ⟨lbrace, renderEntries (true || flag) true entries ++ [rbrace], by
      simp only [render, List.cons_append], by decide, by decide⟩
  | unsupported err => simp only [valueError] at h; cases h

theorem delimited_renderArray (xs : List Value) (rest : Bytes) :
    delimited (renderArray true false xs ++ ']' :: rest) = true := by
  cases xs with
  | nil => rfl
  | cons y ys => simp [renderArray, delimited]

theorem delimited_renderEntries (es : List (Key × Value)) (rest : Bytes) :
    delimited (renderEntries true false es ++ rbrace :: rest) = true := by
  cases es with
  | nil => simp [renderEntries, delimited]
  | cons p es =>
    obtain ⟨key, value⟩ := p
    simp [renderEntries, delimited]

theorem size_pos (v : Value) : 1 ≤ size v := by
  cases v with
  | null => simp only [size, le_refl]
  | bool b => simp only [size, le_refl]
  | number n => simp only [size, le_refl]
  | string s => simp only [size, le_refl]
  | array xs => simp only [size]; omega
  | object m =>
    obtain ⟨idx, entries, flag⟩ := m
    simp only [size]; omega
  | unsupported err => simp only [size, le_refl]

theorem sizeArray_pos (xs : List Value) : 1 ≤ sizeArray xs := by
  cases xs with
  | nil => simp only [sizeArray, le_refl]
  | cons x xs => simp only [sizeArray]; have := size_pos x; omega

theorem sizeEntries_pos (es : List (Key × Value)) : 1 ≤ sizeEntries es := by
  cases es with
  | nil => simp only [sizeEntries, le_refl]
  | cons p es =>
    obtain ⟨key, value⟩ := p
    simp only [sizeEntries]; have := size_pos value; omega

mutual
theorem parseValue_render (flag : Bool) : ∀ (v : Value) (fuel : Nat) (rest : Bytes),
    valueError v = none → float64Numbers v = true → size v ≤ fuel → delimited rest = true →
    parseValue flag fuel (render true v ++ rest) = .ok (canon flag v, rest)
  | .null, fuel, rest, _, _, hf, _ => by
    obtain ⟨k, rfl⟩ : ∃ k, fuel = k + 1 := ⟨fuel - 1, by simp only [size] at hf; omega⟩
    simp only [render, canon]
    exact parseValue_null flag k rest
  | .bool b, fuel, rest, _, _, hf, _ => by
    obtain ⟨k, rfl⟩ : ∃ k, fuel = k + 1 := ⟨fuel - 1, by simp only [size] at hf; omega⟩
    simp only [render, canon]
    cases b
    · exact parseValue_false flag k rest
    · exact parseValue_true flag k rest
  | .number n, fuel, rest, _, hn, hf, hrest => by
    obtain ⟨k, rfl⟩ : ∃ k, fuel = k + 1 := ⟨fuel - 1, by simp only [size] at hf; omega⟩
    simp only [float64Numbers, decide_eq_true_eq] at hn
    simp only [render, canon]
    exact parseValue_number flag k n rest hn hrest
  | .string s, fuel, rest, _, _, hf, _ => by
    obtain ⟨k, rfl⟩ : ∃ k, fuel = k + 1 := ⟨fuel - 1, by simp only [size] at hf; omega⟩
    simp only [render, canon]
    exact parseValue_string flag k s rest
  | .array xs, fuel, rest, herr, hn, hf, _ => by
    have ih := parseElements_render flag xs
    simp only [size] at hf
    obtain ⟨k, rfl⟩ : ∃ k, fuel = k + 1 := ⟨fuel - 1, by omega⟩
    simp only [valueError] at herr
    simp only [float64Numbers] at hn
    simp only [render, canon, List.cons_append, List.append_assoc, List.singleton_append,
      List.nil_append]
    rw [parseValue, skipSpace_cons _ _ (by decide)]
    have h1 : ('[' : Char) ≠ lbrace := by decide
    simp only [h1, if_false, if_true]
    cases xs with
    | nil =>
      obtain ⟨j, rfl⟩ : ∃ j, k = j + 1 := ⟨k - 1, by simp only [sizeArray] at hf; omega⟩
      simp only [renderArray, List.nil_append, canonArray]
      rw [parseElements, skipSpace_cons _ _ (by decide)]
      simp only [Bool.true_and, decide_True, if_true]
    | cons y ys =>
      rw [ih k true rest (by simp) herr hn (by omega)]
  | .object ⟨_, entries, fl⟩, fuel, rest, herr, hn, hf, _ => by
    have ih := parseMembers_render flag entries
    simp only [size] at hf
    obtain ⟨k, rfl⟩ : ∃ k, fuel = k + 1 := ⟨fuel - 1, by omega⟩
    have herr1 : entriesError entries = none := by
      simp only [valueError] at herr
      cases he : entriesError entries with
      | none => rfl
      | some err => rw [he] at herr; cases herr
    simp only [float64Numbers] at hn
    simp only [render, canon, Bool.true_or, List.cons_append, List.append_assoc,
      List.singleton_append, List.nil_append]
    rw [parseValue, skipSpace_cons _ _ (by decide)]
    simp only [if_true]
    cases entries with
    | nil =>
      obtain ⟨j, rfl⟩ : ∃ j, k = j + 1 := ⟨k - 1, by simp only [sizeEntries] at hf; omega⟩
      simp only [renderEntries, List.nil_append, canonEntries]
      rw [parseMembers, skipSpace_cons _ _ (by decide)]
      simp only [Bool.true_and, decide_True, if_true]
    | cons p es =>
      rw [ih k true rest (by simp) herr1 hn (by omega)]
  | .unsupported err, _, _, herr, _, _, _ => by
    simp only [valueError] at herr; cases herr
theorem parseElements_render (flag : Bool) :
    ∀ (xs : List Value) (fuel : Nat) (first : Bool) (rest : Bytes), xs ≠ [] →
    arrayError xs = none → float64NumbersArray xs = true → sizeArray xs ≤ fuel →
    parseElements flag fuel first (renderArray true true xs ++ ']' :: rest)
      = .ok (canonArray flag xs, rest)
  | [], _, _, _, hne, _, _, _ => absurd rfl hne
  | x :: xs, fuel, first, rest, _, herr, hn, hf => by
    have ihx := parseValue_render flag x
    have ihxs := parseElements_render flag xs
    simp only [sizeArray] at hf
    have hsx := size_pos x
    have hsxs := sizeArray_pos xs
    obtain ⟨k, rfl⟩ : ∃ k, fuel = k + 1 := ⟨fuel - 1, by omega⟩
    simp only [arrayError] at herr
    have herrx : valueError x = none := by
      cases he : valueError x with
      | none => rfl
      | some err => rw [he] at herr; cases herr
    rw [herrx] at herr
    simp only at herr
    simp only [float64NumbersArray, Bool.and_eq_true] at hn
    obtain ⟨c, t, hct, hsp, hc⟩ := render_head x herrx
    have hval := ihx k (renderArray true false xs ++ ']' :: rest) herrx hn.1 (by omega)
      (delimited_renderArray xs rest)
    simp only [renderArray, if_true, List.nil_append, canonArray, List.append_assoc]
    rw [hct, List.cons_append] at hval ⊢
    rw [parseElements, skipSpace_cons _ _ hsp]
    simp only [hc, decide_False, Bool.and_false, Bool.false_eq_true, if_false, hval]
    cases xs with
    | nil =>
      simp only [renderArray, List.nil_append, canonArray]
      rw [skipSpace_cons _ _ (by decide)]
      have h1 : (']' : Char) ≠ ',' := by decide
      simp only [h1, if_false, if_true]
    | cons y ys =>
      have hrec := ihxs k false rest (by simp) herr hn.2 (by omega)
      simp only [renderArray, Bool.false_eq_true, if_false, if_true, List.nil_append,
        List.singleton_append, List.cons_append, List.append_assoc] at hrec ⊢
      rw [skipSpace_cons _ _ (by decide)]
      simp only [if_true, hrec]
theorem parseMembers_render (flag : Bool) :
    ∀ (es : List (Key × Value)) (fuel : Nat) (first : Bool) (rest : Bytes), es ≠ [] →
    entriesError es = none → float64NumbersEntries es = true → sizeEntries es ≤ fuel →
    parseMembers flag fuel first (renderEntries true true es ++ rbrace :: rest)
      = .ok (canonEntries flag es, rest)
  | [], _, _, _, hne, _, _, _ => absurd rfl hne
  | (key, value) :: es, fuel, first, rest, _, herr, hn, hf => by
    have ihv := parseValue_render flag value
    have ihes := parseMembers_render flag es
    simp only [sizeEntries] at hf
    have hsv := size_pos value
    have hses := sizeEntries_pos es
    obtain ⟨k, rfl⟩ : ∃ k, fuel = k + 1 := ⟨fuel - 1, by omega⟩
    simp only [entriesError] at herr
    have herrv : valueError value = none := by
      cases he : valueError value with
      | none => rfl
      | some err => rw [he] at herr; cases herr
    rw [herrv] at herr
    simp only at herr
    simp only [float64NumbersEntries, Bool.and_eq_true] at hn
    have hval := ihv k (renderEntries true false es ++ rbrace :: rest) herrv hn.1 (by omega)
      (delimited_renderEntries es rest)
    obtain ⟨tail, htail, hkey⟩ := parseStringBody_appendString true key
      ([':'] ++ (render true value ++ (renderEntries true false es ++ rbrace :: rest)))
    simp only [renderEntries, if_true, List.nil_append, canonEntries, List.append_assoc]
    rw [htail, parseMembers, skipSpace_cons _ _ (by decide)]
    have h1 : ('"' : Char) ≠ rbrace := by decide
    simp only [h1, decide_False, Bool.and_false, Bool.false_eq_true, if_false, if_true, hkey,
      List.singleton_append]
    rw [skipSpace_cons _ _ (by decide)]
    simp only [if_true, hval]
    cases es with
    | nil =>
      simp only [renderEntries, List.nil_append, canonEntries]
      rw [skipSpace_cons _ _ (by decide)]
      have h2 : rbrace ≠ ',' := by decide
      simp only [h2, if_false, if_true]
    | cons p es1 =>
      obtain ⟨key1, value1⟩ := p
      have hrec := ihes k false rest (by simp) herr hn.2 (by omega)
      simp only [renderEntries, Bool.false_eq_true, if_false, if_true, List.nil_append,
        List.singleton_append, List.cons_append, List.append_assoc] at hrec ⊢
      rw [skipSpace_cons _ _ (by decide)]
      simp only [if_true, hrec]
end

/-! ## `Set` on fresh keys -/

theorem Set_absent {α : Type} (m : Map α) (key : Key) (value : α)
    (h : key ∉ m.elements.map Prod.fst) :
    m.Set key value =
      ⟨m.elements ++ [(key, m.entries.length)], m.entries ++ [(key, value)], m.escapeHTML⟩ := by
  have hl : m.elements.lookup key = none := by
    rw [List.lookup_eq_none_iff]
    intro p hp
    have hne : key ≠ p.1 := by
      rintro rfl
      exact h (List.mem_map_of_mem Prod.fst hp)
    simpa using hne
  simp only [Map.Set, hl]

theorem setAll_fresh {α : Type} : ∀ (members : List (Key × α)) (m : Map α),
    m.elements.map Prod.fst = m.entries.map Prod.fst →
    (members.map Prod.fst).Nodup →
    (∀ k ∈ members.map Prod.fst, k ∉ m.entries.map Prod.fst) →
    (setAll m members).entries = m.entries ++ members ∧
      (setAll m members).escapeHTML = m.escapeHTML
  | [], m, _, _, _ => by simp only [setAll, List.append_nil, and_self]
  | (key, value) :: rest, m, hinv, hnodup, hfresh => by
    have hkey : key ∉ m.elements.map Prod.fst := by
      rw [hinv]
      exact hfresh key (List.mem_cons_self _ _)
    rw [List.map_cons, List.nodup_cons] at hnodup
    have ih := setAll_fresh rest
      ⟨m.elements ++ [(key, m.entries.length)], m.entries ++ [(key, value)], m.escapeHTML⟩
      (by rw [List.map_append, List.map_append, hinv]; rfl) hnodup.2 (by
        intro k hk
        rw [List.map_append, List.mem_append, not_or]
        refine ⟨hfresh k (List.mem_cons_of_mem _ hk), ?_⟩
        intro hmem
        have hkk : k = key := List.mem_singleton.1 hmem
        rw [hkk] at hk
        exact hnodup.1 hk)
    simp only [setAll, Set_absent m key value hkey]
    exact ⟨by rw [ih.1, List.append_assoc]; rfl, ih.2⟩

theorem setAll_New_entries (flag : Bool) (members : List (Key × Value))
    (h : (members.map Prod.fst).Nodup) :
    (setAll ((New : Map Value).SetEscapeHTML flag) members).entries = members ∧
      (setAll ((New : Map Value).SetEscapeHTML flag) members).escapeHTML = flag := by
  have := setAll_fresh members ((New : Map Value).SetEscapeHTML flag) rfl h
    (fun k _ hk => by simp [New, Map.SetEscapeHTML] at hk)
  simpa [New, Map.SetEscapeHTML] using this

theorem render_object (e : Bool) (m : Map Value) :
    render e (.object m)
      = lbrace :: renderEntries (e || m.escapeHTML) true m.entries ++ [rbrace] := by
  obtain ⟨idx, entries, flag⟩ := m
  simp only [render]

theorem valueError_object (m : Map Value) :
    valueError (.object m) =
      match entriesError m.entries with
      | some err => some (.marshalerError err)
      | none => none := by
  obtain ⟨idx, entries, flag⟩ := m
  simp only [valueError]

theorem canonEntries_keys (flag : Bool) : ∀ es : List (Key × Value),
    (canonEntries flag es).map Prod.fst = es.map Prod.fst
  | [] => by simp only [canonEntries, List.map_nil]
  | (key, value) :: es => by
    simp only [canonEntries, List.map_cons, canonEntries_keys flag es]

mutual
theorem render_canon (flag : Bool) : ∀ (v : Value), uniqueKeys v = true →
    render true (canon flag v) = render true v ∧ valueError (canon flag v) = valueError v
  | .null, _ => by simp only [canon, and_self]
  | .bool b, _ => by simp only [canon, and_self]
  | .number n, _ => by simp only [canon, and_self]
  | .string s, _ => by simp only [canon, and_self]
  | .array xs, h => by
    simp only [uniqueKeys] at h
    have ih := renderArray_canon flag xs h
    simp only [canon, render, valueError, ih.1 true, ih.2, and_self]
  | .object ⟨_, entries, fl⟩, h => by
    simp only [uniqueKeys, Bool.and_eq_true, decide_eq_true_eq] at h
    have ih := renderEntries_canon flag entries h.2
    have hset := setAll_New_entries flag (canonEntries flag entries)
      (by rw [canonEntries_keys]; exact h.1)
    simp only [canon]
    rw [render_object, valueError_object, hset.1, hset.2]
    simp only [Bool.true_or, ih.1 true, ih.2, render, valueError, and_self]
  | .unsupported err, _ => by simp only [canon, and_self]
theorem renderArray_canon (flag : Bool) : ∀ (xs : List Value), uniqueKeysArray xs = true →
    (∀ first, renderArray true first (canonArray flag xs) = renderArray true first xs) ∧
      arrayError (canonArray flag xs) = arrayError xs
  | [], _ => by simp only [canonArray, implies_true, and_self]
  | x :: xs, h => by
    simp only [uniqueKeysArray, Bool.and_eq_true] at h
    have ihx := render_canon flag x h.1
    have ihxs := renderArray_canon flag xs h.2
    simp only [canonArray, renderArray, arrayError, ihx.1, ihx.2, ihxs.1, ihxs.2,
      implies_true, and_self]
theorem renderEntries_canon (flag : Bool) : ∀ (es : List (Key × Value)),
    uniqueKeysEntries es = true →
    (∀ first, renderEntries true first (canonEntries flag es) = renderEntries true first es) ∧
      entriesError (canonEntries flag es) = entriesError es
  | [], _ => by simp only [canonEntries, implies_true, and_self]
  | (key, value) :: es, h => by
    simp only [uniqueKeysEntries, Bool.and_eq_true] at h
    have ihv := render_canon flag value h.1
    have ihes := renderEntries_canon flag es h.2
    simp only [canonEntries, renderEntries, entriesError, ihv.1, ihv.2, ihes.1, ihes.2,
      implies_true, and_self]
end

/-! ## Decoding the output of `json.Marshal` -/

theorem appendString_length_pos (s : List Char) (f : Bool) :
    1 ≤ (appendString [] s f).length := by
  simp only [appendString, List.nil_append, List.singleton_append, List.length_append,
    List.length_cons, List.length_nil]
  omega

mutual
theorem size_le_length : ∀ (v : Value), valueError v = none →
    size v ≤ (render true v).length
  | .null, _ => by simp only [size, render]; decide
  | .bool b, _ => by cases b <;> (simp only [size, render]; decide)
  | .number n, _ => by
    obtain ⟨c, t, hct, _, _⟩ := render_head (.number n) rfl
    rw [hct]
    simp only [size, List.length_cons]
    omega
  | .string s, _ => by
    simp only [size, render]
    exact appendString_length_pos s true
  | .array xs, h => by
    simp only [valueError] at h
    have ih := sizeArray_le_length xs true h
    simp only [size, render, List.length_cons, List.length_append, List.length_nil]
    omega
  | .object ⟨_, entries, flag⟩, h => by
    have h1 : entriesError entries = none := by
      simp only [valueError] at h
      cases he : entriesError entries with
      | none => rfl
      | some err => rw [he] at h; cases h
    have ih := sizeEntries_le_length entries true h1
    simp only [size, render, Bool.true_or, List.length_cons, List.length_append,
      List.length_nil]
    omega
  | .unsupported err, h => by simp only [valueError] at h; cases h
theorem sizeArray_le_length : ∀ (xs : List Value) (first : Bool), arrayError xs = none →
    sizeArray xs ≤ (renderArray true first xs).length + 1
  | [], _, _ => by simp only [sizeArray, renderArray, List.length_nil]; omega
  | x :: xs, first, h => by
    simp only [arrayError] at h
    have hx : valueError x = none := by
      cases he : valueError x with
      | none => rfl
      | some err => rw [he] at h; cases h
    rw [hx] at h
    simp only at h
    have ihx := size_le_length x hx
    have ihxs := sizeArray_le_length xs false h
    simp only [sizeArray, renderArray, List.length_append]
    omega
theorem sizeEntries_le_length : ∀ (es : List (Key × Value)) (first : Bool),
    entriesError es = none → sizeEntries es ≤ (renderEntries true first es).length + 1
  | [], _, _ => by simp only [sizeEntries, renderEntries, List.length_nil]; omega
  | (key, value) :: es, first, h => by
    simp only [entriesError] at h
    have hv : valueError value = none := by
      cases he : valueError value with
      | none => rfl
      | some err => rw [he] at h; cases h
    rw [hv] at h
    simp only at h
    have ihv := size_le_length value hv
    have ihes := sizeEntries_le_length es false h
    simp only [sizeEntries, renderEntries, List.length_append]
    omega
end

theorem UnmarshalJSON_render (source target : Map Value)
    (herr : valueError (.object source) = none)
    (hn : float64Numbers (.object source) = true) :
    target.UnmarshalJSON (render true (.object source))
      = .ok (setAll target (canonEntries target.escapeHTML source.entries)) := by
  obtain ⟨idx, entries, flag⟩ := source
  have herr1 : entriesError entries = none := by
    simp only [valueError] at herr
    cases he : entriesError entries with
    | none => rfl
    | some err => rw [he] at herr; cases herr
  simp only [float64Numbers] at hn
  have hsize := sizeEntries_le_length entries true herr1
  have hdata : render true (.object ⟨idx, entries, flag⟩)
      = lbrace :: (renderEntries true true entries ++ [rbrace]) := by
    simp only [render, Bool.true_or, List.cons_append]
  rw [hdata]
  simp only [Map.UnmarshalJSON]
  rw [skipSpace_cons _ _ (by decide)]
  simp only [if_true, List.length_cons, List.length_append, List.length_nil]
  cases entries with
  | nil =>
    simp only [renderEntries, List.nil_append, canonEntries, List.length_nil]
    rw [parseMembers, skipSpace_cons _ _ (by decide)]
    simp only [Bool.true_and, decide_True, if_true, skipSpace]
  | cons p es =>
    rw [parseMembers_render target.escapeHTML (p :: es) _ true [] (by simp) herr1 hn
      (by omega)]
    simp only [skipSpace]

/-! ## The fuel of the decoder is never used up -/

theorem skipSpace_length_le : ∀ l : Bytes, (skipSpace l).length ≤ l.length
  | [] => by simp only [skipSpace, le_refl]
  | c :: rest => by
    have ih := skipSpace_length_le rest
    simp only [skipSpace]
    split_ifs
    · simp only [List.length_cons]; omega
    · exact le_refl _

theorem consChar_good (c : Char) (r : Except DecodeError (List Char × Bytes)) (bound : Nat)
    (h : r ≠ .error .outOfFuel ∧ ∀ s rest, r = .ok (s, rest) → rest.length < bound) :
    consChar c r ≠ .error .outOfFuel ∧
      ∀ s rest, consChar c r = .ok (s, rest) → rest.length < bound := by
  cases r with
  | error err =>
    refine ⟨?_, ?_⟩
    · simpa only [consChar] using h.1
    · intro s rest heq
      simp only [consChar] at heq
      cases heq
  | ok p =>
    obtain ⟨s0, rest0⟩ := p
    refine ⟨?_, ?_⟩
    · simp only [consChar, ne_eq, not_false_eq_true, reduceCtorEq]
    · intro s rest heq
      simp only [consChar, Except.ok.injEq, Prod.mk.injEq] at heq
      rw [← heq.2]
      exact h.2 s0 rest0 rfl

theorem good_mono {α : Type} (r : Except DecodeError (α × Bytes)) (a b : Nat) (hab : a ≤ b)
    (h : r ≠ .error .outOfFuel ∧ ∀ s rest, r = .ok (s, rest) → rest.length < a) :
    r ≠ .error .outOfFuel ∧ ∀ s rest, r = .ok (s, rest) → rest.length < b :=
  ⟨h.1, fun s rest heq => Nat.lt_of_lt_of_le (h.2 s rest heq) hab⟩

theorem parseStringBody_good : ∀ (n skip : Nat) (input : Bytes), input.length ≤ n →
    parseStringBody skip input ≠ .error .outOfFuel ∧
      ∀ s rest, parseStringBody skip input = .ok (s, rest) →
        rest.length < input.length + 1 := by
  intro n
  induction n with
  | zero =>
    intro skip input hlen
    have : input = [] := List.length_eq_zero.1 (Nat.le_zero.1 hlen)
    subst this
    rw [parseStringBody.eq_def]
    simp
  | succ n ih =>
    intro skip input hlen
    cases input with
    | nil =>
      rw [parseStringBody.eq_def]
      simp
    | cons c rest =>
      simp only [List.length_cons] at hlen ⊢
      have hrest : rest.length ≤ n := by omega
      cases skip with
      | succ k =>
        rw [parseStringBody.eq_def]
        simp only
        exact good_mono _ _ _ (by omega) (ih k rest hrest)
      | zero =>
        rw [parseStringBody.eq_def]
        simp only
        repeat' split
        all_goals first
          | (constructor
             · simp
             · intro s r h
               cases h
               done)
          | (constructor
             · simp
             · intro s r h
               simp only [Except.ok.injEq, Prod.mk.injEq] at h
               obtain ⟨_, rfl⟩ := h
               omega)
          | (simp only [List.length_cons] at hlen hrest ⊢
             exact good_mono _ _ _ (by omega) (consChar_good _ _ _ (ih _ _ (by omega))))
theorem takeDigits_length_le : ∀ (l : Bytes) (acc : Nat),
    (takeDigits l acc).2.length ≤ l.length
  | [], _ => by simp only [takeDigits, le_refl]
  | c :: rest, acc => by
    have ih := takeDigits_length_le rest (acc * 10 + (c.toNat - 48))
    simp only [takeDigits]
    split_ifs
    · simp only [List.length_cons]; omega
    · exact le_refl _

theorem convertNumber_good (tok : Bytes) : convertNumber tok ≠ .error .outOfFuel := by
  unfold convertNumber
  repeat' split
  all_goals simp

theorem dropWhile_length_le (p : Char → Bool) : ∀ l : Bytes, (l.dropWhile p).length ≤ l.length
  | [] => le_refl _
  | c :: rest => by
    have ih := dropWhile_length_le p rest
    rw [List.dropWhile_cons]
    split_ifs
    · simp only [List.length_cons]; omega
    · exact le_refl _

theorem dropWhile_numberChar_length (c : Char) (rest : Bytes)
    (hc : c = '-' ∨ (48 ≤ c.toNat ∧ c.toNat ≤ 57)) :
    ((c :: rest).dropWhile isNumberChar).length ≤ rest.length := by
  have hp : isNumberChar c = true := by
    rcases hc with rfl | hc
    · decide
    · simp only [isNumberChar, hc, and_self, decide_True, Bool.true_or]
  rw [List.dropWhile_cons, hp, if_pos rfl]
  exact dropWhile_length_le _ rest

theorem expect_length (lit input rest : Bytes) (hlit : lit ≠ [])
    (h : expect lit input = some rest) : rest.length < input.length := by
  simp only [expect] at h
  split_ifs at h with hp
  have hpre := List.isPrefixOf_iff_prefix.1 hp
  obtain ⟨t, rfl⟩ := hpre
  simp only [Option.some.injEq] at h
  rw [← h]
  have hpos : 0 < lit.length := List.length_pos.2 hlit
  simp only [List.drop_left, List.length_append]
  omega
theorem parse_good (flag : Bool) : ∀ fuel : Nat,
    (∀ input : Bytes,
      (2 * input.length + 1 ≤ fuel → parseValue flag fuel input ≠ .error .outOfFuel) ∧
      ∀ v rest, parseValue flag fuel input = .ok (v, rest) → rest.length < input.length) ∧
    (∀ (first : Bool) (input : Bytes),
      (2 * input.length + 2 ≤ fuel →
        parseMembers flag fuel first input ≠ .error .outOfFuel) ∧
      ∀ ms rest, parseMembers flag fuel first input = .ok (ms, rest) →
        rest.length < input.length) ∧
    (∀ (first : Bool) (input : Bytes),
      (2 * input.length + 2 ≤ fuel →
        parseElements flag fuel first input ≠ .error .outOfFuel) ∧
      ∀ xs rest, parseElements flag fuel first input = .ok (xs, rest) →
        rest.length < input.length) := by
  intro fuel
  induction fuel with
  | zero =>
    refine ⟨fun input => ⟨fun h => by omega, ?_⟩, fun first input => ⟨fun h => by omega, ?_⟩,
      fun first input => ⟨fun h => by omega, ?_⟩⟩
    · intro v rest h; simp only [parseValue] at h; cases h
    · intro v rest h; simp only [parseMembers] at h; cases h
    · intro v rest h; simp only [parseElements] at h; cases h
  | succ fuel ih =>
    obtain ⟨ihV, ihM, ihE⟩ := ih
    refine ⟨?_, ?_, ?_⟩
    · intro input
      have hsk := skipSpace_length_le input
      simp only [parseValue]
      split
      · exact ⟨fun _ => by simp, by intro v rest h; cases h⟩
      · rename_i c rest0 heq
        rw [heq, List.length_cons] at hsk
        split_ifs with h1 h2 h3 h4
        · have hm := ihM true rest0
          split
          · rename_i err herr
            refine ⟨fun hf => ?_, by intro v rest h; cases h⟩
            intro hc
            simp only [Except.error.injEq] at hc
            rw [hc] at herr
            exact hm.1 (by omega) herr
          · rename_i ms rest1 hok
            refine ⟨fun _ => by simp, ?_⟩
            intro v rest h
            simp only [Except.ok.injEq, Prod.mk.injEq] at h
            have := hm.2 ms rest1 hok
            rw [← h.2]
            omega
        · have he := ihE true rest0
          split
          · rename_i err herr
            refine ⟨fun hf => ?_, by intro v rest h; cases h⟩
            intro hc
            simp only [Except.error.injEq] at hc
            rw [hc] at herr
            exact he.1 (by omega) herr
          · rename_i xs rest1 hok
            refine ⟨fun _ => by simp, ?_⟩
            intro v rest h
            simp only [Except.ok.injEq, Prod.mk.injEq] at h
            have := he.2 xs rest1 hok
            rw [← h.2]
            omega
        · have hs := parseStringBody_good rest0.length 0 rest0 (le_refl _)
          split
          · rename_i err herr
            refine ⟨fun hf => ?_, by intro v rest h; cases h⟩
            intro hc
            simp only [Except.error.injEq] at hc
            rw [hc] at herr
            exact hs.1 herr
          · rename_i s rest1 hok
            refine ⟨fun _ => by simp, ?_⟩
            intro v rest h
            simp only [Except.ok.injEq, Prod.mk.injEq] at h
            have := hs.2 s rest1 hok
            rw [← h.2]
            omega
        · have hd := dropWhile_numberChar_length c rest0 h4
          split
          · rename_i err herr
            refine ⟨fun hf => ?_, by intro v rest h; cases h⟩
            intro hc
            simp only [Except.error.injEq] at hc
            rw [hc] at herr
            exact convertNumber_good _ herr
          · rename_i x hok
            refine ⟨fun _ => by simp, ?_⟩
            intro v rest h
            simp only [Except.ok.injEq, Prod.mk.injEq] at h
            rw [← h.2]
            omega
        · split
          · rename_i rest1 hex
            have := expect_length _ _ _ (by decide) hex
            refine ⟨fun _ => by simp, ?_⟩
            intro v rest h
            simp only [Except.ok.injEq, Prod.mk.injEq] at h
            rw [← h.2]
            simp only [List.length_cons] at this
            omega
          · split
            · rename_i rest1 hex
              have := expect_length _ _ _ (by decide) hex
              refine ⟨fun _ => by simp, ?_⟩
              intro v rest h
              simp only [Except.ok.injEq, Prod.mk.injEq] at h
              rw [← h.2]
              simp only [List.length_cons] at this
              omega
            · split
              · rename_i rest1 hex
                have := expect_length _ _ _ (by decide) hex
                refine ⟨fun _ => by simp, ?_⟩
                intro v rest h
                simp only [Except.ok.injEq, Prod.mk.injEq] at h
                rw [← h.2]
                simp only [List.length_cons] at this
                omega
              · exact ⟨fun _ => by simp, by intro v rest h; cases h⟩
    · intro first input
      have hsk := skipSpace_length_le input
      simp only [parseMembers]
      split
      · exact ⟨fun _ => by simp, by intro v rest h; cases h⟩
      · rename_i c rest0 heq
        rw [heq, List.length_cons] at hsk
        split_ifs with h1 h2
        · refine ⟨fun _ => by simp, ?_⟩
          intro ms rest h
          simp only [Except.ok.injEq, Prod.mk.injEq] at h
          rw [← h.2]
          omega
        · have hs := parseStringBody_good rest0.length 0 rest0 (le_refl _)
          split
          · rename_i err herr
            refine ⟨fun hf => ?_, by intro v rest h; cases h⟩
            intro hc
            simp only [Except.error.injEq] at hc
            rw [hc] at herr
            exact hs.1 herr
          · rename_i key rest1 hkey
            have hk := hs.2 key rest1 hkey
            have hsk1 := skipSpace_length_le rest1
            split
            · exact ⟨fun _ => by simp, by intro v rest h; cases h⟩
            · rename_i c1 rest2 heq1
              rw [heq1, List.length_cons] at hsk1
              split_ifs with h3
              · have hv := ihV rest2
                split
                · rename_i err herr
                  refine ⟨fun hf => ?_, by intro v rest h; cases h⟩
                  intro hc
                  simp only [Except.error.injEq] at hc
                  rw [hc] at herr
                  exact hv.1 (by omega) herr
                · rename_i value rest3 hval
                  have hv3 := hv.2 value rest3 hval
                  have hsk3 := skipSpace_length_le rest3
                  split
                  · exact ⟨fun _ => by simp, by intro v rest h; cases h⟩
                  · rename_i c2 rest4 heq3
                    rw [heq3, List.length_cons] at hsk3
                    split_ifs with h4 h5
                    · have hm := ihM false rest4
                      split
                      · rename_i err herr
                        refine ⟨fun hf => ?_, by intro v rest h; cases h⟩
                        intro hc
                        simp only [Except.error.injEq] at hc
                        rw [hc] at herr
                        exact hm.1 (by omega) herr
                      · rename_i ms rest5 hok
                        refine ⟨fun _ => by simp, ?_⟩
                        intro v rest h
                        simp only [Except.ok.injEq, Prod.mk.injEq] at h
                        have := hm.2 ms rest5 hok
                        rw [← h.2]
                        omega
                    · refine ⟨fun _ => by simp, ?_⟩
                      intro ms rest h
                      simp only [Except.ok.injEq, Prod.mk.injEq] at h
                      rw [← h.2]
                      omega
                    · exact ⟨fun _ => by simp, by intro v rest h; cases h⟩
              · exact ⟨fun _ => by simp, by intro v rest h; cases h⟩
        · exact ⟨fun _ => by simp, by intro v rest h; cases h⟩
    · intro first input
      have hsk := skipSpace_length_le input
      simp only [parseElements]
      split
      · exact ⟨fun _ => by simp, by intro v rest h; cases h⟩
      · rename_i c rest0 heq
        rw [heq, List.length_cons] at hsk
        split_ifs with h1
        · refine ⟨fun _ => by simp, ?_⟩
          intro ms rest h
          simp only [Except.ok.injEq, Prod.mk.injEq] at h
          rw [← h.2]
          omega
        · have hv := ihV (c :: rest0)
          split
          · rename_i err herr
            refine ⟨fun hf => ?_, by intro v rest h; cases h⟩
            intro hc
            simp only [Except.error.injEq] at hc
            rw [hc] at herr
            exact hv.1 (by simp only [List.length_cons]; omega) herr
          · rename_i x rest1 hval
            have hv1 := hv.2 x rest1 hval
            simp only [List.length_cons] at hv1
            have hsk1 := skipSpace_length_le rest1
            split
            · exact ⟨fun _ => by simp, by intro v rest h; cases h⟩
            · rename_i c1 rest2 heq1
              rw [heq1, List.length_cons] at hsk1
              split_ifs with h4 h5
              · have he := ihE false rest2
                split
                · rename_i err herr
                  refine ⟨fun hf => ?_, by intro v rest h; cases h⟩
                  intro hc
                  simp only [Except.error.injEq] at hc
                  rw [hc] at herr
                  exact he.1 (by omega) herr
                · rename_i xs rest3 hok
                  refine ⟨fun _ => by simp, ?_⟩
                  intro v rest h
                  simp only [Except.ok.injEq, Prod.mk.injEq] at h
                  have := he.2 xs rest3 hok
                  rw [← h.2]
                  omega
              · refine ⟨fun _ => by simp, ?_⟩
                intro ms rest h
                simp only [Except.ok.injEq, Prod.mk.injEq] at h
                rw [← h.2]
                omega
              · exact ⟨fun _ => by simp, by intro v rest h; cases h⟩

theorem UnmarshalJSON_fuel (m : Map Value) (data : Bytes) :
    m.UnmarshalJSON data ≠ .error .outOfFuel := by
  have hsk := skipSpace_length_le data
  simp only [Map.UnmarshalJSON]
  split
  · simp
  · rename_i c rest heq
    rw [heq, List.length_cons] at hsk
    split_ifs with h1
    · have hm := (parse_good m.escapeHTML (2 * data.length + 2)).2.1 true rest
      split
      · rename_i err herr
        intro hc
        simp only [Except.error.injEq] at hc
        rw [hc] at herr
        exact hm.1 (by omega) herr
      · split <;> simp
    · simp

/-! ## Line feeds in the bytes of `MarshalJSON` -/

theorem hex_plain (n : Nat) : plain (hex n) = true := by
  by_cases h : n < 16
  · interval_cases n <;> decide
  · have : hex n = '0' := by
      simp only [hex]
      rw [List.getD_eq_default]
      simp; omega
    rw [this]; decide

theorem plain_ne_lf (c : Char) (h : plain c = true) : c ≠ lf := by
  rintro rfl
  revert h
  decide

theorem safeSet_ne_lf (c : Char) (h : safeSet c = true) : c ≠ lf := by
  rintro rfl
  revert h
  decide

theorem escapeChar_not_lf (f : Bool) (c : Char) : ∀ x ∈ escapeChar f c, x ≠ lf := by
  by_cases hS : safeSet c = true
  · by_cases hraw : escapeChar f c = [c]
    · rw [hraw]
      intro x hx
      rw [List.mem_singleton.1 hx]
      exact safeSet_ne_lf c hS
    · have hhtml : htmlChar c = true := by
        cases hh : htmlChar c with
        | true => rfl
        | false =>
          exfalso
          apply hraw
          have hlt : c.toNat < 0x80 := by
            simp only [safeSet, Bool.and_eq_true, decide_eq_true_eq] at hS
            exact hS.1.1.2
          simp only [htmlChar, Bool.or_eq_false_iff, decide_eq_false_iff_not] at hh
          have hA : htmlSafeSet c = true := by
            simp [htmlSafeSet, hS, hh.1.1, hh.1.2, hh.2]
          simp [escapeChar, hA, hlt]
      have hc : c = '<' ∨ c = '>' ∨ c = '&' := by
        simpa [htmlChar, or_assoc] using hhtml
      cases f with
      | false => exact absurd (escapeChar_false_html c hhtml) hraw
      | true => rcases hc with rfl | rfl | rfl <;> decide
  · have hS1 : safeSet c = false := by simpa using hS
    have hA1 : htmlSafeSet c = false := by simp [htmlSafeSet, hS1]
    simp only [escapeChar, hS1, hA1, Bool.and_false, Bool.or_false, Bool.false_eq_true,
      if_false]
    split_ifs with h1 h2 h3 h4 h5 h6 h7 h8
    · have h2a : c = '\\' ∨ c = '"' := by simpa using h2
      rcases h2a with rfl | rfl <;> decide
    · decide
    · decide
    · decide
    · decide
    · decide
    · intro x hx
      simp only [List.mem_cons, List.mem_singleton, List.not_mem_nil, or_false] at hx
      rcases hx with rfl | rfl | rfl | rfl | rfl | rfl
      · decide
      · decide
      · decide
      · decide
      · exact plain_ne_lf _ (hex_plain _)
      · exact plain_ne_lf _ (hex_plain _)
    · intro x hx
      simp only [List.mem_cons, List.mem_singleton, List.not_mem_nil, or_false] at hx
      rcases hx with rfl | rfl | rfl | rfl | rfl | rfl
      · decide
      · decide
      · decide
      · decide
      · decide
      · exact plain_ne_lf _ (hex_plain _)
    · intro x hx
      rw [List.mem_singleton.1 hx]
      rintro rfl
      exact h1 (by decide)

theorem appendString_not_lf (f : Bool) (s : List Char) :
    ∀ x ∈ appendString [] s f, x ≠ lf := by
  intro x hx
  simp only [appendString, List.nil_append, List.append_assoc, List.singleton_append,
    List.mem_cons, List.mem_append, List.mem_flatMap, List.mem_singleton, List.not_mem_nil,
    or_false] at hx
  rcases hx with (rfl | ⟨c, _, hx⟩) | rfl
  · decide
  · exact escapeChar_not_lf f c x hx
  · decide

theorem mem_cons_not_lf (c x : Char) (l : Bytes) (hc : c ≠ lf)
    (hl : ∀ y ∈ l, y ≠ lf) (hx : x ∈ c :: l) : x ≠ lf := by
  rcases List.mem_cons.1 hx with rfl | hx
  · exact hc
  · exact hl x hx

theorem mem_append_not_lf (x : Char) (l₁ l₂ : Bytes) (h₁ : ∀ y ∈ l₁, y ≠ lf)
    (h₂ : ∀ y ∈ l₂, y ≠ lf) (hx : x ∈ l₁ ++ l₂) : x ≠ lf := by
  rcases List.mem_append.1 hx with hx | hx
  · exact h₁ x hx
  · exact h₂ x hx

mutual
theorem render_not_lf (e : Bool) : ∀ (v : Value), ∀ x ∈ render e v, x ≠ lf
  | .null => by simp only [render]; decide
  | .bool b => by cases b <;> (simp only [render]; decide)
  | .number n => by
    simp only [render]
    exact fun x hx => plain_ne_lf x (formatFloat_plain n x hx)
  | .string s => by
    simp only [render]
    exact appendString_not_lf e s
  | .array xs => by
    simp only [render]
    intro x hx
    refine mem_cons_not_lf '[' x _ (by decide) ?_ hx
    intro y hy
    exact mem_append_not_lf y _ _ (renderArray_not_lf e xs true) (by decide) hy
  | .object ⟨_, entries, flag⟩ => by
    simp only [render]
    intro x hx
    refine mem_cons_not_lf lbrace x _ (by decide) ?_ hx
    intro y hy
    exact mem_append_not_lf y _ _ (renderEntries_not_lf (e || flag) entries true)
      (by decide) hy
  | .unsupported _ => by simp only [render]; exact fun x hx => absurd hx (List.not_mem_nil x)
theorem renderArray_not_lf (e : Bool) : ∀ (xs : List Value) (first : Bool),
    ∀ x ∈ renderArray e first xs, x ≠ lf
  | [], first => by
    simp only [renderArray]; exact fun x hx => absurd hx (List.not_mem_nil x)
  | v :: xs, first => by
    simp only [renderArray]
    intro x hx
    refine mem_append_not_lf x _ _ ?_ (renderArray_not_lf e xs false) hx
    intro y hy
    refine mem_append_not_lf y _ _ ?_ (render_not_lf e v) hy
    cases first <;> decide
theorem renderEntries_not_lf (e : Bool) : ∀ (es : List (Key × Value)) (first : Bool),
    ∀ x ∈ renderEntries e first es, x ≠ lf
  | [], first => by
    simp only [renderEntries]; exact fun x hx => absurd hx (List.not_mem_nil x)
  | (key, value) :: es, first => by
    simp only [renderEntries]
    intro x hx
    refine mem_append_not_lf x _ _ ?_ (renderEntries_not_lf e es false) hx
    intro y hy
    refine mem_append_not_lf y _ _ ?_ (render_not_lf e value) hy
    intro z hz
    refine mem_append_not_lf z _ _ ?_ (by decide) hz
    intro w hw
    refine mem_append_not_lf w _ _ ?_ (appendString_not_lf e key) hw
    cases first <;> decide
end
theorem count_lf_zero (l : Bytes) (h : ∀ x ∈ l, x ≠ lf) : l.count lf = 0 :=
  List.count_eq_zero_of_not_mem (fun hm => h lf hm rfl)

theorem count_lf_rawEntries (flag : Bool) : ∀ (es : List (Key × Value)) (first : Bool),
    (rawEntries flag first es).count lf = 2 * es.length
  | [], _ => by simp only [rawEntries, List.count_nil, List.length_nil]
  | (key, value) :: es, first => by
    have ih := count_lf_rawEntries flag es false
    have hk := count_lf_zero _ (appendString_not_lf flag key)
    have hv := count_lf_zero _ (render_not_lf flag value)
    have hsep : (if first then [] else [',']).count lf = 0 := by cases first <;> decide
    have hcolon : [':'].count lf = 0 := by decide
    have hlf : [lf].count lf = 1 := by decide
    simp only [rawEntries, List.count_append, ih, hk, hv, hsep, hcolon, hlf, List.length_cons]
    omega

theorem encoded_goJSON_key (flag : Bool) (key : Key) :
    encoded goJSON flag (goJSON.ofKey key) = appendString [] key flag := by
  simp only [encoded, goJSON, marshalValue]

theorem encoded_goJSON_value (flag : Bool) (v : Value) (h : valueError v = none) :
    encoded goJSON flag v = render flag v := by
  have := marshalValue_eq flag v
  rw [h] at this
  simp only [encoded, goJSON, this]

theorem entriesError_none_mem : ∀ (es : List (Key × Value)), entriesError es = none →
    ∀ p ∈ es, valueError p.2 = none
  | [], _, p, hp => absurd hp (List.not_mem_nil p)
  | (key, value) :: es, h, p, hp => by
    simp only [entriesError] at h
    have hv : valueError value = none := by
      cases he : valueError value with
      | none => rfl
      | some err => rw [he] at h; cases h
    rw [hv] at h
    simp only at h
    rcases List.mem_cons.1 hp with rfl | hp
    · exact hv
    · exact entriesError_none_mem es h p hp

theorem renderEntries_false (e : Bool) : ∀ (es : List (Key × Value)),
    renderEntries e false es
      = (es.map fun p => [','] ++ (appendString [] p.1 e ++ [':'] ++ render e p.2)).flatten
  | [] => by simp only [renderEntries, List.map_nil, List.flatten_nil]
  | (key, value) :: es => by
    simp only [renderEntries, Bool.false_eq_true, if_false, List.map_cons, List.flatten_cons,
      renderEntries_false e es, List.append_assoc]

theorem renderEntries_intercalate (e : Bool) (es : List (Key × Value)) :
    renderEntries e true es
      = List.intercalate [','] (es.map fun p => appendString [] p.1 e ++ [':'] ++ render e p.2) := by
  cases es with
  | nil => simp [renderEntries, List.intercalate]
  | cons p es =>
    obtain ⟨key, value⟩ := p
    rw [List.map_cons, intercalate_cons_flatten]
    simp only [renderEntries, if_true, List.nil_append, renderEntries_false, List.map_map,
      Function.comp_def, List.append_assoc]

theorem objectLiteral_goJSON (flag : Bool) (es : List (Key × Value))
    (h : entriesError es = none) :
    objectLiteral goJSON flag es = lbrace :: renderEntries flag true es ++ [rbrace] := by
  have hmap : (es.map fun p => encoded goJSON flag (goJSON.ofKey p.1) ++ [':']
        ++ encoded goJSON flag p.2)
      = es.map fun p => appendString [] p.1 flag ++ [':'] ++ render flag p.2 := by
    apply List.map_congr_left
    intro p hp
    rw [encoded_goJSON_key, encoded_goJSON_value flag p.2 (entriesError_none_mem es h p hp)]
  simp only [objectLiteral, hmap, renderEntries_intercalate]

/-! ## The index after `Set` on fresh keys -/

theorem UnmarshalJSON_documentMembers (m : Map Value) (data : Bytes) :
    m.UnmarshalJSON data =
      match documentMembers m.escapeHTML data with
      | .error err => .error err
      | .ok members => .ok (setAll m members) := by
  simp only [Map.UnmarshalJSON, documentMembers]
  split
  · rfl
  · split_ifs
    · split
      · rfl
      · split <;> rfl
    · rfl

theorem lookup_some_mem {β : Type} : ∀ (l : List (Key × β)) (key : Key) (b : β),
    l.lookup key = some b → (key, b) ∈ l
  | [], _, _, h => by simp only [List.lookup] at h; cases h
  | (k, b0) :: l, key, b, h => by
    by_cases hk : key = k
    · subst hk
      simp only [List.lookup, beq_self_eq_true, Option.some.injEq] at h
      rw [← h]
      exact List.mem_cons_self _ _
    · have hb : (key == k) = false := by simpa using hk
      simp only [List.lookup, hb] at h
      exact List.mem_cons_of_mem _ (lookup_some_mem l key b h)

theorem lookup_isSome_of_mem {β : Type} (l : List (Key × β)) (key : Key)
    (h : key ∈ l.map Prod.fst) : ∃ b, l.lookup key = some b := by
  cases hl : l.lookup key with
  | some b => exact ⟨b, rfl⟩
  | none =>
    exfalso
    rw [List.lookup_eq_none_iff] at hl
    obtain ⟨p, hp, hpk⟩ := List.mem_map.1 h
    have := hl p hp
    rw [hpk] at this
    simp at this

theorem nodup_keys_unique {α : Type} : ∀ (l : List (Key × α)) (key : Key) (v w : α),
    (l.map Prod.fst).Nodup → (key, v) ∈ l → (key, w) ∈ l → v = w
  | [], _, _, _, _, hv, _ => absurd hv (List.not_mem_nil _)
  | (k, x) :: l, key, v, w, hnd, hv, hw => by
    rw [List.map_cons, List.nodup_cons] at hnd
    rcases List.mem_cons.1 hv with hv | hv
    · rcases List.mem_cons.1 hw with hw | hw
      · cases hv; cases hw; rfl
      · cases hv
        exact absurd (List.mem_map_of_mem Prod.fst hw) hnd.1
    · rcases List.mem_cons.1 hw with hw | hw
      · cases hw
        exact absurd (List.mem_map_of_mem Prod.fst hv) hnd.1
      · exact nodup_keys_unique l key v w hnd.2 hv hw

theorem setAll_index {α : Type} : ∀ (members : List (Key × α)) (m : Map α),
    m.elements.map Prod.fst = m.entries.map Prod.fst →
    (∀ k i, (k, i) ∈ m.elements → ∃ v, m.entries[i]? = some (k, v)) →
    (members.map Prod.fst).Nodup →
    (∀ k ∈ members.map Prod.fst, k ∉ m.entries.map Prod.fst) →
    (setAll m members).elements.map Prod.fst = (setAll m members).entries.map Prod.fst ∧
      ∀ k i, (k, i) ∈ (setAll m members).elements →
        ∃ v, (setAll m members).entries[i]? = some (k, v)
  | [], m, hinv, hidx, _, _ => by
    simp only [setAll]
    exact ⟨hinv, hidx⟩
  | (key, value) :: rest, m, hinv, hidx, hnodup, hfresh => by
    have hkey : key ∉ m.elements.map Prod.fst := by
      rw [hinv]
      exact hfresh key (List.mem_cons_self _ _)
    rw [List.map_cons, List.nodup_cons] at hnodup
    simp only [setAll, Set_absent m key value hkey]
    apply setAll_index rest
      ⟨m.elements ++ [(key, m.entries.length)], m.entries ++ [(key, value)], m.escapeHTML⟩
    · rw [List.map_append, List.map_append, hinv]; rfl
    · intro k i hki
      rcases List.mem_append.1 hki with hold | hnew
      · obtain ⟨v, hv⟩ := hidx k i hold
        refine ⟨v, ?_⟩
        have hlt : i < m.entries.length := by
          by_contra hge
          rw [List.getElem?_eq_none (by omega)] at hv
          cases hv
        show (m.entries ++ [(key, value)])[i]? = some (k, v)
        rw [List.getElem?_append_left hlt]
        exact hv
      · have heq : (k, i) = (key, m.entries.length) := List.mem_singleton.1 hnew
        cases heq
        refine ⟨value, ?_⟩
        show (m.entries ++ [(key, value)])[m.entries.length]? = some (key, value)
        rw [List.getElem?_append_right (le_refl _)]
        simp
    · exact hnodup.2
    · intro k hk
      rw [List.map_append, List.mem_append, not_or]
      refine ⟨hfresh k (List.mem_cons_of_mem _ hk), ?_⟩
      intro hmem
      have hkk : k = key := List.mem_singleton.1 hmem
      rw [hkk] at hk
      exact hnodup.1 hk

theorem Get_of_index {α : Type} (m : Map α)
    (hinv : m.elements.map Prod.fst = m.entries.map Prod.fst)
    (hidx : ∀ k i, (k, i) ∈ m.elements → ∃ v, m.entries[i]? = some (k, v))
    (hnodup : (m.entries.map Prod.fst).Nodup) :
    (∀ p ∈ m.entries, m.Get p.1 = (some p.2, true)) ∧
      ∀ key, key ∉ m.entries.map Prod.fst → m.Get key = (none, false) := by
  constructor
  · intro p hp
    obtain ⟨i, hi⟩ := lookup_isSome_of_mem m.elements p.1
      (by rw [hinv]; exact List.mem_map_of_mem Prod.fst hp)
    obtain ⟨v, hv⟩ := hidx p.1 i (lookup_some_mem _ _ _ hi)
    have hmem : (p.1, v) ∈ m.entries := List.getElem?_mem hv
    have hvp : v = p.2 := nodup_keys_unique m.entries p.1 v p.2 hnodup hmem hp
    simp only [Map.Get, hi, hv, hvp]
  · intro key hkey
    have hl : m.elements.lookup key = none := by
      rw [List.lookup_eq_none_iff]
      intro p hp
      have hne : key ≠ p.1 := by
        rintro rfl
        exact hkey (by rw [← hinv]; exact List.mem_map_of_mem Prod.fst hp)
      simpa using hne
    simp only [Map.Get, hl]

theorem documentMembers_render (source : Map Value) (flag : Bool)
    (herr : valueError (.object source) = none)
    (hn : float64Numbers (.object source) = true) :
    documentMembers flag (render true (.object source))
      = .ok (canonEntries flag source.entries) := by
  obtain ⟨idx, entries, fl⟩ := source
  have herr1 : entriesError entries = none := by
    simp only [valueError] at herr
    cases he : entriesError entries with
    | none => rfl
    | some err => rw [he] at herr; cases herr
  simp only [float64Numbers] at hn
  have hsize := sizeEntries_le_length entries true herr1
  have hdata : render true (.object ⟨idx, entries, fl⟩)
      = lbrace :: (renderEntries true true entries ++ [rbrace]) := by
    simp only [render, Bool.true_or, List.cons_append]
  rw [hdata]
  simp only [documentMembers]
  rw [skipSpace_cons _ _ (by decide)]
  simp only [if_true, List.length_cons, List.length_append, List.length_nil]
  cases entries with
  | nil =>
    simp only [renderEntries, List.nil_append, canonEntries, List.length_nil]
    rw [parseMembers, skipSpace_cons _ _ (by decide)]
    simp only [Bool.true_and, decide_True, if_true, skipSpace]
  | cons p es =>
    rw [parseMembers_render flag (p :: es) _ true [] (by simp) herr1 hn (by omega)]
    simp only [skipSpace]

/-! ## Runs over a relational encoder -/

theorem Encodes_deterministic {α ε : Type} (lib : JSONRel α ε)
    (hlib : ∀ b v r1 r2, lib.marshals b v r1 → lib.marshals b v r2 → r1 = r2)
    (enc : Encoder) (v : α) (buf : Bytes) (r1 r2 : Except ε Bytes)
    (h1 : enc.Encodes lib v buf r1) (h2 : enc.Encodes lib v buf r2) : r1 = r2 := by
  rcases h1 with ⟨e1, hm1, rfl⟩ | ⟨b1, hm1, rfl⟩ <;>
    rcases h2 with ⟨e2, hm2, rfl⟩ | ⟨b2, hm2, rfl⟩
  · exact hlib _ _ _ _ hm1 hm2
  · cases hlib _ _ _ _ hm1 hm2
  · cases hlib _ _ _ _ hm1 hm2
  · cases hlib _ _ _ _ hm1 hm2; rfl

theorem marshalLoopRuns_deterministic {α ε : Type} (lib : JSONRel α ε)
    (hlib : ∀ b v r1 r2, lib.marshals b v r1 → lib.marshals b v r2 → r1 = r2)
    (enc : Encoder) (el : Element α) (first : Bool) (buf : Bytes) (r1 r2 : Except ε Bytes)
    (h1 : marshalLoopRuns lib enc el first buf r1)
    (h2 : marshalLoopRuns lib enc el first buf r2) : r1 = r2 := by
  induction h1 generalizing r2 with
  | done first buf => cases h2; rfl
  | keyError key value next first buf err hk =>
    cases h2 with
    | keyError _ _ _ _ _ err2 hk2 => exact Encodes_deterministic lib hlib _ _ _ _ _ hk hk2
    | valueError _ _ _ _ _ buf1 err2 hk2 hv2 =>
      cases Encodes_deterministic lib hlib _ _ _ _ _ hk hk2
    | step _ _ _ _ _ buf1 buf2 _ hk2 hv2 hn2 =>
      cases Encodes_deterministic lib hlib _ _ _ _ _ hk hk2
  | valueError key value next first buf buf1 err hk hv =>
    cases h2 with
    | keyError _ _ _ _ _ err2 hk2 => cases Encodes_deterministic lib hlib _ _ _ _ _ hk hk2
    | valueError _ _ _ _ _ buf3 err2 hk2 hv2 =>
      cases Encodes_deterministic lib hlib _ _ _ _ _ hk hk2
      exact Encodes_deterministic lib hlib _ _ _ _ _ hv hv2
    | step _ _ _ _ _ buf3 buf4 _ hk2 hv2 hn2 =>
      cases Encodes_deterministic lib hlib _ _ _ _ _ hk hk2
      cases Encodes_deterministic lib hlib _ _ _ _ _ hv hv2
  | step key value next first buf buf1 buf2 r hk hv hn ih =>
    cases h2 with
    | keyError _ _ _ _ _ err2 hk2 => cases Encodes_deterministic lib hlib _ _ _ _ _ hk hk2
    | valueError _ _ _ _ _ buf3 err2 hk2 hv2 =>
      cases Encodes_deterministic lib hlib _ _ _ _ _ hk hk2
      cases Encodes_deterministic lib hlib _ _ _ _ _ hv hv2
    | step _ _ _ _ _ buf3 buf4 _ hk2 hv2 hn2 =>
      cases Encodes_deterministic lib hlib _ _ _ _ _ hk hk2
      cases Encodes_deterministic lib hlib _ _ _ _ _ hv hv2
      exact ih r2 hn2

theorem MarshalJSONRuns_deterministic {α ε : Type} (lib : JSONRel α ε)
    (hlib : ∀ b v r1 r2, lib.marshals b v r1 → lib.marshals b v r2 → r1 = r2)
    (m1 m2 : Map α) (hseq : m1.iterate = m2.iterate) (hflag : m1.escapeHTML = m2.escapeHTML)
    (r1 r2 : Option Bytes × Option ε)
    (h1 : m1.MarshalJSONRuns lib r1) (h2 : m2.MarshalJSONRuns lib r2) : r1 = r2 := by
  have hfirst : m1.First = m2.First := hseq
  unfold Map.MarshalJSONRuns at h1 h2
  rw [hfirst, hflag] at h1
  rcases h1 with ⟨e1, hr1, rfl⟩ | ⟨b1, hr1, rfl⟩ <;>
    rcases h2 with ⟨e2, hr2, rfl⟩ | ⟨b2, hr2, rfl⟩
  · cases marshalLoopRuns_deterministic lib hlib _ _ _ _ _ _ hr1 hr2; rfl
  · cases marshalLoopRuns_deterministic lib hlib _ _ _ _ _ _ hr1 hr2
  · cases marshalLoopRuns_deterministic lib hlib _ _ _ _ _ _ hr1 hr2
  · cases marshalLoopRuns_deterministic lib hlib _ _ _ _ _ _ hr1 hr2; rfl

theorem toRel_deterministic {α ε : Type} (f : JSONLib α ε) :
    ∀ b v r1 r2, f.toRel.marshals b v r1 → f.toRel.marshals b v r2 → r1 = r2 :=
  fun _ _ _ _ h1 h2 => h1.symm.trans h2

theorem Encodes_toRel {α ε : Type} (f : JSONLib α ε) (enc : Encoder) (v : α) (buf : Bytes) :
    enc.Encodes f.toRel v buf (enc.Encode f v buf) := by
  unfold Encoder.Encodes Encoder.Encode
  cases h : f.marshal enc.escapeHTML v with
  | error err => exact Or.inl ⟨err, h, rfl⟩
  | ok b => exact Or.inr ⟨b, h, rfl⟩

theorem marshalLoopRuns_toRel {α ε : Type} (f : JSONLib α ε) (enc : Encoder) :
    ∀ (el : Element α) (first : Bool) (buf : Bytes),
      marshalLoopRuns f.toRel enc el first buf (marshalLoop f enc el first buf)
  | [], first, buf => marshalLoopRuns.done first buf
  | (key, value) :: next, first, buf => by
    have hk := Encodes_toRel f enc (f.ofKey key) (if !first then buf ++ [','] else buf)
    simp only [marshalLoop]
    cases hke : enc.Encode f (f.ofKey key) (if !first then buf ++ [','] else buf) with
    | error err =>
      rw [hke] at hk
      exact marshalLoopRuns.keyError key value next first buf err hk
    | ok buf1 =>
      rw [hke] at hk
      have hv := Encodes_toRel f enc value (buf1 ++ [':'])
      dsimp only
      cases hve : enc.Encode f value (buf1 ++ [':']) with
      | error err =>
        rw [hve] at hv
        exact marshalLoopRuns.valueError key value next first buf buf1 err hk hv
      | ok buf2 =>
        rw [hve] at hv
        dsimp only
        exact marshalLoopRuns.step key value next first buf buf1 buf2 _ hk hv
          (marshalLoopRuns_toRel f enc next false buf2)

theorem MarshalJSONRuns_toRel {α ε : Type} (f : JSONLib α ε) (m : Map α) :
    m.MarshalJSONRuns f.toRel (m.MarshalJSON f) := by
  have h := marshalLoopRuns_toRel f (NewEncoder.SetEscapeHTML m.escapeHTML) m.First true
    ([] ++ [lbrace])
  unfold Map.MarshalJSONRuns
  cases hl : marshalLoop f (NewEncoder.SetEscapeHTML m.escapeHTML) m.First true
      ([] ++ [lbrace]) with
  | error err =>
    rw [hl] at h
    exact Or.inl ⟨err, h, by simp only [Map.MarshalJSON, hl]⟩
  | ok buf =>
    rw [hl] at h
    exact Or.inr ⟨buf, h, by simp only [Map.MarshalJSON, hl]⟩

theorem MarshalJSONRuns_toRel_iff {α ε : Type} (f : JSONLib α ε) (m : Map α)
    (r : Option Bytes × Option ε) :
    m.MarshalJSONRuns f.toRel r ↔ r = m.MarshalJSON f :=
  ⟨fun h => MarshalJSONRuns_deterministic f.toRel (toRel_deterministic f) m m rfl rfl _ _ h
      (MarshalJSONRuns_toRel f m),
    fun h => h ▸ MarshalJSONRuns_toRel f m⟩

/-! ## Numbers: a decoded number is read back from its own text -/

theorem stripZeros_fixed (fuel d : Nat) (e : Int) (h : d = 0 ∨ d % 10 ≠ 0) :
    stripZeros fuel d e = (d, e) := by
  cases fuel with
  | zero => rfl
  | succ fuel =>
    have hc : ¬ (d ≠ 0 ∧ d % 10 = 0) := by
      rcases h with h | h
      · exact fun hh => hh.1 h
      · exact fun hh => h hh.2
    simp only [stripZeros, hc, if_false]

theorem stripZeros_normal : ∀ (fuel d : Nat) (e : Int), d ≤ fuel →
    (stripZeros fuel d e).1 = 0 ∨ (stripZeros fuel d e).1 % 10 ≠ 0
  | 0, d, e, h => by
    left
    simp only [stripZeros]
    omega
  | fuel + 1, d, e, h => by
    by_cases hc : d ≠ 0 ∧ d % 10 = 0
    · have hs : stripZeros (fuel + 1) d e = stripZeros fuel (d / 10) (e + 1) := by
        rw [stripZeros, if_pos hc]
      rw [hs]
      exact stripZeros_normal fuel (d / 10) (e + 1) (by omega)
    · have hs : stripZeros (fuel + 1) d e = (d, e) := by
        rw [stripZeros, if_neg hc]
      rw [hs]
      by_cases h0 : d = 0
      · exact Or.inl h0
      · right
        intro h10
        exact hc ⟨h0, h10⟩

theorem stripZeros_idem (m : Nat) (e : Int) :
    stripZeros (stripZeros m m e).1 (stripZeros m m e).1 (stripZeros m m e).2
      = stripZeros m m e :=
  stripZeros_fixed _ _ _ (stripZeros_normal m m e (le_refl m))

theorem stripZeros_ne_zero : ∀ (fuel d : Nat) (e : Int), d ≠ 0 →
    (stripZeros fuel d e).1 ≠ 0
  | 0, d, e, h => by simpa only [stripZeros] using h
  | fuel + 1, d, e, h => by
    by_cases hc : d ≠ 0 ∧ d % 10 = 0
    · have hs : stripZeros (fuel + 1) d e = stripZeros fuel (d / 10) (e + 1) := by
        rw [stripZeros, if_pos hc]
      rw [hs]
      have hpos : d / 10 ≠ 0 := by omega
      exact stripZeros_ne_zero fuel (d / 10) (e + 1) hpos
    · have hs : stripZeros (fuel + 1) d e = (d, e) := by
        rw [stripZeros, if_neg hc]
      rw [hs]
      exact h

theorem stripZeros_pow (d : Nat) (hd : d ≠ 0) (h10 : d % 10 ≠ 0) :
    ∀ (j fuel : Nat) (e : Int), j ≤ fuel → stripZeros fuel (d * 10 ^ j) e = (d, e + j)
  | 0, fuel, e, _ => by
    simp only [pow_zero, Nat.mul_one, Nat.cast_zero, add_zero]
    exact stripZeros_fixed fuel d e (Or.inr h10)
  | j + 1, 0, e, h => by omega
  | j + 1, fuel + 1, e, h => by
    have hne : d * 10 ^ (j + 1) ≠ 0 := Nat.mul_ne_zero hd (by positivity)
    have hmod : d * 10 ^ (j + 1) % 10 = 0 := by
      rw [pow_succ, ← Nat.mul_assoc]; exact Nat.mul_mod_left _ _
    have hdiv : d * 10 ^ (j + 1) / 10 = d * 10 ^ j := by
      rw [pow_succ, ← Nat.mul_assoc]; exact Nat.mul_div_cancel _ (by decide)
    simp only [stripZeros, hne, hmod, ne_eq, not_false_eq_true, and_self, if_true, hdiv]
    rw [stripZeros_pow d hd h10 j fuel (e + 1) (by omega)]
    simp only [Nat.cast_add, Nat.cast_one, Prod.mk.injEq, true_and]
    omega

theorem nearestFloat64_strip (m : Nat) (e : Int) :
    nearestFloat64 (stripZeros m m e).1 (stripZeros m m e).2 = nearestFloat64 m e := by
  simp only [nearestFloat64, stripZeros_idem]

theorem nearestFloat64_zero (e : Int) : nearestFloat64 0 e = .zero := by
  simp only [nearestFloat64, stripZeros, nearestBinary, if_true]

theorem shortestFrom_readBack (i : Nat) (x : Int) (nd : Nat) (b : Binary64) (lit : Nat × Int)
    (hlit : nearestFloat64 lit.1 lit.2 = b) : ∀ (fuel n : Nat),
    nearestFloat64 (shortestFrom i x nd b lit fuel n).1 (shortestFrom i x nd b lit fuel n).2 = b
  | 0, n => by simpa only [shortestFrom] using hlit
  | fuel + 1, n => by
    have ih := shortestFrom_readBack i x nd b lit hlit fuel (n + 1)
    simp only [shortestFrom]
    split_ifs with h1 h2 h3 h4 h5
    · exact hlit
    · simp only [Bool.and_eq_true, decide_eq_true_eq] at h2
      exact h2.2
    · simp only [Bool.and_eq_true, decide_eq_true_eq] at h2
      exact h2.1
    · simpa only [decide_eq_true_eq] using h4
    · simpa only [decide_eq_true_eq] using h5
    · exact ih

theorem shortestFrom_lit (i : Nat) (x : Int) (nd : Nat) (b : Binary64) (lit lit1 : Nat × Int) :
    ∀ (fuel n : Nat),
      shortestFrom i x nd b lit fuel n = shortestFrom i x nd b lit1 fuel n ∨
      (shortestFrom i x nd b lit fuel n = lit ∧ shortestFrom i x nd b lit1 fuel n = lit1)
  | 0, n => Or.inr ⟨rfl, rfl⟩
  | fuel + 1, n => by
    have ih := shortestFrom_lit i x nd b lit lit1 fuel (n + 1)
    simp only [shortestFrom]
    split_ifs
    · exact Or.inr ⟨rfl, rfl⟩
    · exact Or.inl rfl
    · exact Or.inl rfl
    · exact Or.inl rfl
    · exact Or.inl rfl
    · exact ih
theorem takeDigits_nil (acc : Nat) : takeDigits [] acc = (acc, []) := rfl

theorem takeDigits_nondigit (c : Char) (rest : Bytes) (acc : Nat)
    (h : ¬ (48 ≤ c.toNat ∧ c.toNat ≤ 57)) : takeDigits (c :: rest) acc = (acc, c :: rest) := by
  simp only [takeDigits, h, if_false]

theorem takeDigits_append : ∀ (l rest : Bytes) (acc : Nat),
    (∀ c ∈ l, 48 ≤ c.toNat ∧ c.toNat ≤ 57) →
    (∀ c ∈ rest.head?, ¬ (48 ≤ c.toNat ∧ c.toNat ≤ 57)) →
    takeDigits (l ++ rest) acc = ((takeDigits l acc).1, rest)
  | [], rest, acc, _, hr => by
    cases rest with
    | nil => rfl
    | cons c rest => exact takeDigits_nondigit c rest acc (hr c rfl)
  | a :: l, rest, acc, hl, hr => by
    have ha := hl a (List.mem_cons_self a l)
    have ih := takeDigits_append l rest (acc * 10 + (a.toNat - 48))
      (fun c hc => hl c (List.mem_cons_of_mem a hc)) hr
    have e1 : takeDigits (a :: (l ++ rest)) acc
        = takeDigits (l ++ rest) (acc * 10 + (a.toNat - 48)) := by rw [takeDigits, if_pos ha]
    have e2 : takeDigits (a :: l) acc = takeDigits l (acc * 10 + (a.toNat - 48)) := by
      rw [takeDigits, if_pos ha]
    rw [List.cons_append, e1, e2]
    exact ih

theorem takeDigits_value_append : ∀ (l1 l2 : Bytes) (acc : Nat),
    (∀ c ∈ l1, 48 ≤ c.toNat ∧ c.toNat ≤ 57) →
    (takeDigits (l1 ++ l2) acc).1 = (takeDigits l2 (takeDigits l1 acc).1).1
  | [], l2, acc, _ => rfl
  | a :: l, l2, acc, hl => by
    have ha := hl a (List.mem_cons_self a l)
    have ih := takeDigits_value_append l l2 (acc * 10 + (a.toNat - 48))
      (fun c hc => hl c (List.mem_cons_of_mem a hc))
    have e1 : takeDigits (a :: (l ++ l2)) acc
        = takeDigits (l ++ l2) (acc * 10 + (a.toNat - 48)) := by rw [takeDigits, if_pos ha]
    have e2 : takeDigits (a :: l) acc = takeDigits l (acc * 10 + (a.toNat - 48)) := by
      rw [takeDigits, if_pos ha]
    rw [List.cons_append, e1, e2]
    exact ih

theorem digit_range (d : Nat) (h : d < 10) :
    48 ≤ (Char.ofNat (48 + d)).toNat ∧ (Char.ofNat (48 + d)).toNat ≤ 57 := by
  rw [digit_toNat d h]; omega

theorem formatNat_digits (n : Nat) : ∀ c ∈ formatNat n, 48 ≤ c.toNat ∧ c.toNat ≤ 57 := by
  induction n using Nat.strong_induction_on with
  | _ n ih =>
    by_cases h10 : n < 10
    · rw [formatNat_small n h10]
      intro c hc
      rw [List.mem_singleton.1 hc]
      exact digit_range n h10
    · rw [formatNat_step n (by omega)]
      intro c hc
      rcases List.mem_append.1 hc with hc | hc
      · exact ih (n / 10) (Nat.div_lt_self (by omega) (by decide)) c hc
      · rw [List.mem_singleton.1 hc]
        exact digit_range _ (Nat.mod_lt _ (by decide))

theorem takeDigits_formatNat_value (n acc : Nat) :
    (takeDigits (formatNat n) acc).1 = acc * 10 ^ (formatNat n).length + n := by
  induction n using Nat.strong_induction_on generalizing acc with
  | _ n ih =>
    by_cases h10 : n < 10
    · rw [formatNat_small n h10, takeDigits_digit n h10, takeDigits_nil]
      simp only [List.length_singleton, pow_one]
    · have hdiv : n / 10 < n := Nat.div_lt_self (by omega) (by decide)
      rw [formatNat_step n (by omega), takeDigits_value_append _ _ _ (formatNat_digits _),
        ih (n / 10) hdiv, takeDigits_digit _ (Nat.mod_lt _ (by decide)), takeDigits_nil]
      simp only [List.length_append, List.length_singleton, pow_succ]
      have hn : n / 10 * 10 + n % 10 = n := by omega
      calc (acc * 10 ^ (formatNat (n / 10)).length + n / 10) * 10 + n % 10
          = acc * (10 ^ (formatNat (n / 10)).length * 10) + (n / 10 * 10 + n % 10) := by ring
        _ = acc * (10 ^ (formatNat (n / 10)).length * 10) + n := by rw [hn]

theorem takeDigits_zeros : ∀ (j acc : Nat),
    (takeDigits (List.replicate j '0') acc).1 = acc * 10 ^ j
  | 0, acc => by simp only [List.replicate, takeDigits_nil, pow_zero, Nat.mul_one]
  | j + 1, acc => by
    have h0 : ('0' : Char) = Char.ofNat (48 + 0) := by decide
    rw [List.replicate_succ, h0, takeDigits_digit 0 (by decide), ← h0, takeDigits_zeros j]
    rw [pow_succ]; ring

theorem zeros_digits (j : Nat) : ∀ c ∈ List.replicate j '0', 48 ≤ c.toNat ∧ c.toNat ≤ 57 := by
  intro c hc
  rw [(List.mem_replicate.1 hc).2]
  decide

theorem readExpDigits_formatNat (a : Nat) : readExpDigits (formatNat a) = some a := by
  have h := takeDigits_append (formatNat a) [] 0 (formatNat_digits a)
    (fun c hc => by cases hc)
  rw [List.append_nil] at h
  have hv := takeDigits_formatNat_value a 0
  obtain ⟨d, tl, htl, _⟩ := formatNat_head_digit a
  have hne : formatNat a ≠ [] := by rw [htl]; exact List.cons_ne_nil _ _
  rw [readExpDigits, h]
  dsimp only
  rw [if_pos ⟨hne, rfl⟩, hv, Nat.zero_mul, Nat.zero_add]

theorem readExp_formatNat (neg : Bool) (a : Nat) :
    readExp ('e' :: (if neg then '-' else '+') :: formatNat a)
      = some (if neg then -(a : Int) else (a : Int)) := by
  have h1 : ('e' : Char) = 'e' ∨ ('e' : Char) = 'E' := Or.inl rfl
  cases neg with
  | true =>
    rw [readExp, if_pos h1]
    simp only [if_true, readExpDigits_formatNat, signedExp]
  | false =>
    have h2 : ('+' : Char) ≠ '-' := by decide
    rw [readExp, if_pos h1]
    simp only [Bool.false_eq_true, if_false, h2, if_true, readExpDigits_formatNat, signedExp]

theorem readInt_digits (d1 : Nat) (h1 : 1 ≤ d1) (h9 : d1 ≤ 9) (tl rest : Bytes)
    (htl : ∀ c ∈ tl, 48 ≤ c.toNat ∧ c.toNat ≤ 57)
    (hr : ∀ c ∈ rest.head?, ¬ (48 ≤ c.toNat ∧ c.toNat ≤ 57)) :
    readInt (Char.ofNat (48 + d1) :: tl ++ rest)
      = some ((takeDigits (Char.ofNat (48 + d1) :: tl) 0).1, rest) := by
  have hd := digit_toNat d1 (by omega)
  have hne : Char.ofNat (48 + d1) ≠ '0' := by
    intro heq
    have h48 : ('0' : Char).toNat = 48 := by decide
    have := congrArg Char.toNat heq
    rw [hd, h48] at this
    omega
  have hl : ∀ c ∈ Char.ofNat (48 + d1) :: tl, 48 ≤ c.toNat ∧ c.toNat ≤ 57 := by
    intro c hc
    rcases List.mem_cons.1 hc with rfl | hc
    · exact digit_range d1 (by omega)
    · exact htl c hc
  have ht := takeDigits_append _ rest 0 hl hr
  have hrange : 49 ≤ (Char.ofNat (48 + d1)).toNat ∧ (Char.ofNat (48 + d1)).toNat ≤ 57 := by
    rw [hd]; omega
  rw [List.cons_append] at ht ⊢
  rw [readInt, if_neg hne, if_pos hrange, ht]

theorem readFrac_point (int : Nat) (l rest : Bytes)
    (hl : ∀ c ∈ l, 48 ≤ c.toNat ∧ c.toNat ≤ 57)
    (hr : ∀ c ∈ rest.head?, ¬ (48 ≤ c.toNat ∧ c.toNat ≤ 57)) (hne : l ≠ []) :
    readFrac int ('.' :: (l ++ rest)) = some ((takeDigits l int).1, -(l.length : Int), rest) := by
  have hpos : 0 < l.length := List.length_pos.2 hne
  have hlt : rest.length < (l ++ rest).length := by
    rw [List.length_append]; omega
  have hsub : (l ++ rest).length - rest.length = l.length := by
    rw [List.length_append]; omega
  rw [readFrac, if_pos rfl, takeDigits_append l rest int hl hr]
  dsimp only
  rw [if_pos hlt, hsub]

theorem readFrac_none (int : Nat) (rest : Bytes) (hr : ∀ c ∈ rest.head?, c ≠ '.') :
    readFrac int rest = some (int, 0, rest) := by
  cases rest with
  | nil => rfl
  | cons c rest => rw [readFrac, if_neg (hr c rfl)]

theorem formatFloat_sign (neg : Bool) (d : Nat) (k : Int) :
    formatFloat ⟨neg, d, k⟩ = (if neg then ['-'] else []) ++ formatFloat ⟨false, d, k⟩ := by
  simp only [formatFloat, Bool.false_eq_true, if_false, List.nil_append]
  split_ifs <;> rfl
theorem readUnsigned_formatFloat (d : Nat) (k : Int) (hd : d ≠ 0) (h10 : d % 10 ≠ 0) :
    ∃ m e, readUnsigned (formatFloat ⟨false, d, k⟩) = some (m, e) ∧
      stripZeros m m e = (d, k) := by
  obtain ⟨d1, tl, htl, h1, h9⟩ := formatNat_head d (Nat.pos_of_ne_zero hd)
  have hdig := formatNat_digits d
  have hval : (takeDigits (formatNat d) 0).1 = d := by
    rw [takeDigits_formatNat_value d 0, Nat.zero_mul, Nat.zero_add]
  have hlen : (formatNat d).length = tl.length + 1 := by rw [htl]; rfl
  have htld : ∀ c ∈ tl, 48 ≤ c.toNat ∧ c.toNat ≤ 57 := fun c hc =>
    hdig c (by rw [htl]; exact List.mem_cons_of_mem _ hc)
  have hfix : stripZeros d d k = (d, k) := stripZeros_fixed d d k (Or.inr h10)
  have hstopE : ∀ (r : Bytes), ∀ c ∈ ('e' :: r).head?, ¬ (48 ≤ c.toNat ∧ c.toNat ≤ 57) := by
    intro r c hc
    have : c = 'e' := by simpa using hc.symm
    subst this; decide
  have hstopP : ∀ (r : Bytes), ∀ c ∈ ('.' :: r).head?, ¬ (48 ≤ c.toNat ∧ c.toNat ≤ 57) := by
    intro r c hc
    have : c = '.' := by simpa using hc.symm
    subst this; decide
  have hstopN : ∀ c ∈ ([] : Bytes).head?, ¬ (48 ≤ c.toNat ∧ c.toNat ≤ 57) := by
    intro c hc; cases hc
  simp only [formatFloat, Bool.false_eq_true, if_false, List.nil_append, hd]
  by_cases he : ((formatNat d).length : Int) + k < -5 ∨ 21 < ((formatNat d).length : Int) + k
  · -- the format 'e'
    simp only [he, if_true]
    refine ⟨d, k, ?_, hfix⟩
    have hexp := readExp_formatNat (decide (((formatNat d).length : Int) + k < 1))
      (((formatNat d).length : Int) + k - 1).natAbs
    have hsign : (if decide (((formatNat d).length : Int) + k < 1) = true then '-' else '+')
        = (if ((formatNat d).length : Int) + k < 1 then '-' else '+') := by
      by_cases hlt : ((formatNat d).length : Int) + k < 1
      · simp only [hlt, decide_True, if_true]
      · simp only [hlt, decide_False, Bool.false_eq_true, if_false]
    rw [hsign] at hexp
    have hexpv : (if decide (((formatNat d).length : Int) + k < 1) = true
          then -((((formatNat d).length : Int) + k - 1).natAbs : Int)
          else ((((formatNat d).length : Int) + k - 1).natAbs : Int))
        = ((formatNat d).length : Int) + k - 1 := by
      by_cases hlt : ((formatNat d).length : Int) + k < 1
      · simp only [hlt, decide_True, if_true]; omega
      · simp only [hlt, decide_False, Bool.false_eq_true, if_false]; omega
    rw [hexpv] at hexp
    rw [htl] at hexp ⊢
    simp only [List.take_succ_cons, List.take_zero, List.drop_succ_cons, List.drop_zero,
      List.length_cons, List.cons_append, List.nil_append] at hexp ⊢
    by_cases hnd : 1 < tl.length + 1
    · have htlne : tl ≠ [] := by
        intro h; rw [h] at hnd; simp at hnd
      simp only [hnd, if_true, List.cons_append]
      have hint := readInt_digits d1 h1 h9 [] _ (fun c hc => absurd hc (List.not_mem_nil c))
        (hstopP (tl ++ ('e' :: (if (↑(tl.length + 1) : Int) + k < 1 then '-' else '+')
          :: formatNat ((↑(tl.length + 1) : Int) + k - 1).natAbs)))
      have hfrac := readFrac_point (takeDigits [Char.ofNat (48 + d1)] 0).1 tl
        ('e' :: (if (↑(tl.length + 1) : Int) + k < 1 then '-' else '+')
          :: formatNat ((↑(tl.length + 1) : Int) + k - 1).natAbs) htld (hstopE _) htlne
      have hv2 : (takeDigits tl (takeDigits [Char.ofNat (48 + d1)] 0).1).1 = d := by
        have := takeDigits_value_append [Char.ofNat (48 + d1)] tl 0 (fun c hc => by
          rw [List.mem_singleton.1 hc]; exact digit_range d1 (by omega))
        rw [← this, List.singleton_append, ← htl, hval]
      rw [hv2] at hfrac
      simp only [List.singleton_append, List.nil_append, List.cons_append, Nat.cast_add,
        Nat.cast_one] at hint hfrac hexp ⊢
      simp only [readUnsigned, hint, hfrac, hexp, Option.some.injEq, Prod.mk.injEq, true_and]
      omega
    · have htlnil : tl = [] := by
        cases tl with
        | nil => rfl
        | cons a t => simp at hnd
      subst htlnil
      have hd1 : d = d1 := by
        rw [← hval, htl, takeDigits_digit d1 (by omega), takeDigits_nil]; omega
      simp only [List.nil_append, List.length_nil, Nat.zero_add, Nat.cast_one,
        lt_self_iff_false, if_false] at hexp ⊢
      have hint := readInt_digits d1 h1 h9 [] _ (fun c hc => absurd hc (List.not_mem_nil c))
        (hstopE ((if (1 : Int) + k < 1 then '-' else '+') :: formatNat ((1 : Int) + k - 1).natAbs))
      have hfrac := readFrac_none (takeDigits [Char.ofNat (48 + d1)] 0).1
        ('e' :: (if (1 : Int) + k < 1 then '-' else '+') :: formatNat ((1 : Int) + k - 1).natAbs)
        (fun c hc => by
          have : c = 'e' := by simpa using hc.symm
          subst this; decide)
      have hv1 : (takeDigits [Char.ofNat (48 + d1)] 0).1 = d := by
        rw [takeDigits_digit d1 (by omega), takeDigits_nil]; omega
      rw [hv1] at hint hfrac
      simp only [List.singleton_append, List.nil_append, List.cons_append] at hint hfrac hexp ⊢
      simp only [readUnsigned, hint, hfrac, hexp, Option.some.injEq, Prod.mk.injEq, true_and]
      omega
  · simp only [he, if_false]
    have hexp0 : readExp [] = some 0 := rfl
    by_cases hle : ((formatNat d).length : Int) + k ≤ 0
    · -- the format 'f', digits after "0."
      simp only [hle, if_true]
      refine ⟨d, k, ?_, hfix⟩
      have hzd := zeros_digits (-(((formatNat d).length : Int) + k)).toNat
      have hall : ∀ c ∈ List.replicate (-(((formatNat d).length : Int) + k)).toNat '0'
          ++ formatNat d, 48 ≤ c.toNat ∧ c.toNat ≤ 57 := by
        intro c hc
        rcases List.mem_append.1 hc with hc | hc
        · exact hzd c hc
        · exact hdig c hc
      have hne : List.replicate (-(((formatNat d).length : Int) + k)).toNat '0'
          ++ formatNat d ≠ [] := by
        rw [htl]; simp
      have hint : readInt (['0', '.'] ++ (List.replicate
          (-(((formatNat d).length : Int) + k)).toNat '0' ++ formatNat d))
          = some (0, '.' :: (List.replicate
            (-(((formatNat d).length : Int) + k)).toNat '0' ++ formatNat d)) := by
        rw [List.cons_append, readInt, if_pos rfl]; rfl
      have hfrac := readFrac_point 0 _ [] hall hstopN hne
      have hv : (takeDigits (List.replicate (-(((formatNat d).length : Int) + k)).toNat '0'
          ++ formatNat d) 0).1 = d := by
        rw [takeDigits_value_append _ _ _ hzd, takeDigits_zeros, Nat.zero_mul, hval]
      rw [hv, List.append_nil] at hfrac
      simp only [readUnsigned, hint, hfrac, hexp0, Option.some.injEq, Prod.mk.injEq, true_and,
        List.length_append, List.length_replicate, Nat.cast_add]
      omega
    · simp only [hle, if_false]
      by_cases hge : ((formatNat d).length : Int) ≤ ((formatNat d).length : Int) + k
      · -- the format 'f', an integer
        simp only [hge, if_true]
        have hzd := zeros_digits ((((formatNat d).length : Int) + k).toNat - (formatNat d).length)
        refine ⟨d * 10 ^ ((((formatNat d).length : Int) + k).toNat - (formatNat d).length), 0,
          ?_, ?_⟩
        · have hall : ∀ c ∈ tl ++ List.replicate
              ((((formatNat d).length : Int) + k).toNat - (formatNat d).length) '0',
              48 ≤ c.toNat ∧ c.toNat ≤ 57 := by
            intro c hc
            rcases List.mem_append.1 hc with hc | hc
            · exact htld c hc
            · exact hzd c hc
          have hint := readInt_digits d1 h1 h9 _ [] hall hstopN
          have hv : (takeDigits (Char.ofNat (48 + d1) :: (tl ++ List.replicate
              ((((formatNat d).length : Int) + k).toNat - (formatNat d).length) '0')) 0).1
              = d * 10 ^ ((((formatNat d).length : Int) + k).toNat - (formatNat d).length) := by
            rw [← List.cons_append, ← htl, takeDigits_value_append _ _ _ hdig, hval,
              takeDigits_zeros]
          rw [hv, List.append_nil, ← List.cons_append, ← htl] at hint
          have hfrac : readFrac (d * 10 ^ ((((formatNat d).length : Int) + k).toNat
              - (formatNat d).length)) [] = some (_, 0, []) := rfl
          simp only [readUnsigned, hint, hfrac, hexp0, add_zero]
        · have hj : (((formatNat d).length : Int) + k).toNat - (formatNat d).length
              ≤ d * 10 ^ ((((formatNat d).length : Int) + k).toNat - (formatNat d).length) := by
            have h1 := Nat.lt_pow_self (by decide : 1 < 10)
              ((((formatNat d).length : Int) + k).toNat - (formatNat d).length)
            have h2 : 10 ^ ((((formatNat d).length : Int) + k).toNat - (formatNat d).length)
                ≤ d * 10 ^ ((((formatNat d).length : Int) + k).toNat - (formatNat d).length) :=
              Nat.le_mul_of_pos_left _ (Nat.pos_of_ne_zero hd)
            omega
          rw [stripZeros_pow d hd h10 _ _ 0 hj]
          simp only [Prod.mk.injEq, true_and]
          omega
      · -- the format 'f', a point between the digits
        simp only [hge, if_false]
        refine ⟨d, k, ?_, hfix⟩
        obtain ⟨q, hq⟩ : ∃ q, (((formatNat d).length : Int) + k).toNat = q + 1 :=
          ⟨(((formatNat d).length : Int) + k).toNat - 1, by omega⟩
        have hqlt : q + 1 < (formatNat d).length := by omega
        have hdropd : ∀ c ∈ (formatNat d).drop (q + 1), 48 ≤ c.toNat ∧ c.toNat ≤ 57 :=
          fun c hc => hdig c (List.mem_of_mem_drop hc)
        have htaked : ∀ c ∈ tl.take q, 48 ≤ c.toNat ∧ c.toNat ≤ 57 :=
          fun c hc => htld c (List.mem_of_mem_take hc)
        have htake : (formatNat d).take (q + 1) = Char.ofNat (48 + d1) :: tl.take q := by
          rw [htl, List.take_succ_cons]
        have hdropne : (formatNat d).drop (q + 1) ≠ [] := by
          intro h
          have := congrArg List.length h
          rw [List.length_drop, List.length_nil] at this
          omega
        have hint := readInt_digits d1 h1 h9 (tl.take q) ('.' :: (formatNat d).drop (q + 1))
          htaked (hstopP _)
        have hfrac := readFrac_point (takeDigits (Char.ofNat (48 + d1) :: tl.take q) 0).1
          ((formatNat d).drop (q + 1)) [] hdropd hstopN hdropne
        have hv : (takeDigits ((formatNat d).drop (q + 1))
            (takeDigits (Char.ofNat (48 + d1) :: tl.take q) 0).1).1 = d := by
          rw [← htake, ← takeDigits_value_append _ _ _
            (fun c hc => hdig c (List.mem_of_mem_take hc)), List.take_append_drop, hval]
        rw [hv, List.append_nil, ← htake] at hfrac
        rw [← htake] at hint
        rw [hq]
        simp only [readUnsigned, hint, hfrac, hexp0, Option.some.injEq, Prod.mk.injEq, true_and,
          List.length_drop]
        omega
theorem readInt_minus (t : Bytes) : readInt ('-' :: t) = none := by
  have h1 : ('-' : Char) ≠ '0' := by decide
  have h2 : ¬ (49 ≤ ('-' : Char).toNat ∧ ('-' : Char).toNat ≤ 57) := by decide
  rw [readInt, if_neg h1, if_neg h2]

theorem readNumber_formatFloat (neg : Bool) (d : Nat) (k : Int) (hd : d ≠ 0)
    (h10 : d % 10 ≠ 0) :
    ∃ m e, readNumber (formatFloat ⟨neg, d, k⟩) = some (neg, m, e) ∧
      stripZeros m m e = (d, k) := by
  obtain ⟨m, e, hread, hstrip⟩ := readUnsigned_formatFloat d k hd h10
  refine ⟨m, e, ?_, hstrip⟩
  rw [formatFloat_sign]
  cases neg with
  | true =>
    simp only [if_true, List.singleton_append, readNumber, hread, Option.map_some']
  | false =>
    simp only [Bool.false_eq_true, if_false, List.nil_append]
    cases hb : formatFloat ⟨false, d, k⟩ with
    | nil =>
      rw [hb] at hread
      simp only [readUnsigned, readInt] at hread
      cases hread
    | cons c t =>
      rw [hb] at hread
      have hc : c ≠ '-' := by
        intro hc
        rw [hc] at hread
        simp only [readUnsigned, readInt_minus] at hread
        cases hread
      simp only [readNumber, hc, if_false, hread, Option.map_some']

theorem readNumber_formatFloat_zero (neg : Bool) (k : Int) :
    readNumber (formatFloat ⟨neg, 0, k⟩) = some (neg, 0, 0) := by
  cases neg <;> rfl

theorem shortestDecimal_readBack (mant : Nat) (exp : Int) (lit : Nat × Int)
    (hlit : nearestFloat64 lit.1 lit.2 = .finite mant exp) :
    nearestFloat64 (shortestDecimal mant exp lit).1 (shortestDecimal mant exp lit).2
        = .finite mant exp ∧
      ((shortestDecimal mant exp lit).1 = 0 ∨ (shortestDecimal mant exp lit).1 % 10 ≠ 0) := by
  simp only [shortestDecimal]
  constructor
  · rw [nearestFloat64_strip]
    exact shortestFrom_readBack _ _ _ _ lit hlit 17 1
  · exact stripZeros_normal _ _ _ (le_refl _)

theorem shortestDecimal_lit (mant : Nat) (exp : Int) (lit lit1 : Nat × Int)
    (h : stripZeros lit1.1 lit1.1 lit1.2 = shortestDecimal mant exp lit) :
    shortestDecimal mant exp lit1 = shortestDecimal mant exp lit := by
  simp only [shortestDecimal] at h ⊢
  rcases shortestFrom_lit
    (if 0 ≤ exp then mant * 2 ^ exp.toNat else mant * 5 ^ (-exp).toNat)
    (if 0 ≤ exp then 0 else exp)
    (formatNat (if 0 ≤ exp then mant * 2 ^ exp.toNat else mant * 5 ^ (-exp).toNat)).length
    (.finite mant exp) lit lit1 17 1 with heq | ⟨h1, h2⟩
  · rw [heq]
  · rw [h2, h]

theorem convertNumber_isFloat64 (tok : Bytes) (x : Float64)
    (h : convertNumber tok = .ok (.number x)) : isFloat64 x = true := by
  unfold convertNumber at h
  cases hr : readNumber tok with
  | none => rw [hr] at h; cases h
  | some p =>
    obtain ⟨neg, m, e⟩ := p
    rw [hr] at h
    dsimp only at h
    cases hb : nearestFloat64 m e with
    | zero =>
      rw [hb] at h
      dsimp only at h
      have hx : x = ⟨neg, 0, 0⟩ := by
        simp only [Except.ok.injEq, Value.number.injEq] at h
        exact h.symm
      subst hx
      simp only [isFloat64, convertNumber, readNumber_formatFloat_zero, nearestFloat64_zero,
        decide_True]
    | inf =>
      rw [hb] at h
      dsimp only at h
      cases h
    | finite m2 e2 =>
      rw [hb] at h
      dsimp only at h
      have hx : x = ⟨neg, (shortestDecimal m2 e2 (m, e)).1, (shortestDecimal m2 e2 (m, e)).2⟩ := by
        simp only [Except.ok.injEq, Value.number.injEq] at h
        exact h.symm
      obtain ⟨hback, hnorm⟩ := shortestDecimal_readBack m2 e2 (m, e) hb
      have hd : (shortestDecimal m2 e2 (m, e)).1 ≠ 0 := by
        intro h0
        rw [h0, nearestFloat64_zero] at hback
        cases hback
      have h10 : (shortestDecimal m2 e2 (m, e)).1 % 10 ≠ 0 := by
        rcases hnorm with h0 | h10
        · exact absurd h0 hd
        · exact h10
      obtain ⟨m1, e1, hread, hstrip⟩ := readNumber_formatFloat neg _
        (shortestDecimal m2 e2 (m, e)).2 hd h10
      have hb1 : nearestFloat64 m1 e1 = .finite m2 e2 := by
        rw [← nearestFloat64_strip, hstrip]
        exact hback
      have hlit := shortestDecimal_lit m2 e2 (m, e) (m1, e1) hstrip
      subst hx
      simp only [isFloat64, convertNumber, hread, hb1, hlit, decide_True]
/-! ## What decoding builds: distinct keys and `float64` numbers -/

theorem modify_map_fst {α : Type} (value : α) : ∀ (l : List (Key × α)) (i : Nat),
    (l.modify (fun p => (p.1, value)) i).map Prod.fst = l.map Prod.fst
  | [], i => by rw [List.modify_nil]
  | p :: l, 0 => by rw [List.modify_zero_cons]; rfl
  | p :: l, i + 1 => by
    rw [List.modify_succ_cons, List.map_cons, List.map_cons, modify_map_fst value l i]

theorem mem_modify {α : Type} (value : α) : ∀ (l : List (Key × α)) (i : Nat) (q : Key × α),
    q ∈ l.modify (fun p => (p.1, value)) i → q ∈ l ∨ q.2 = value
  | [], i, q, h => by rw [List.modify_nil] at h; exact Or.inl h
  | p :: l, 0, q, h => by
    rw [List.modify_zero_cons] at h
    rcases List.mem_cons.1 h with h | h
    · right; rw [h]
    · exact Or.inl (List.mem_cons_of_mem _ h)
  | p :: l, i + 1, q, h => by
    rw [List.modify_succ_cons] at h
    rcases List.mem_cons.1 h with h | h
    · left; rw [h]; exact List.mem_cons_self _ _
    · rcases mem_modify value l i q h with h | h
      · exact Or.inl (List.mem_cons_of_mem _ h)
      · exact Or.inr h

theorem Set_invariant {α : Type} (P : α → Prop) (m : Map α) (key : Key) (value : α)
    (h1 : m.elements.map Prod.fst = m.entries.map Prod.fst)
    (h3 : (m.entries.map Prod.fst).Nodup) (hP : ∀ p ∈ m.entries, P p.2) (hv : P value) :
    (m.Set key value).elements.map Prod.fst = (m.Set key value).entries.map Prod.fst ∧
      ((m.Set key value).entries.map Prod.fst).Nodup ∧
      (∀ p ∈ (m.Set key value).entries, P p.2) ∧
      (m.Set key value).escapeHTML = m.escapeHTML := by
  cases hl : m.elements.lookup key with
  | some i =>
    simp only [Map.Set, hl]
    refine ⟨?_, ?_, ?_, trivial⟩
    · rw [modify_map_fst]; exact h1
    · rw [modify_map_fst]; exact h3
    · intro q hq
      rcases mem_modify value m.entries i q hq with hq | hq
      · exact hP q hq
      · rw [hq]; exact hv
  | none =>
    have hkey : key ∉ m.elements.map Prod.fst := by
      intro hmem
      obtain ⟨b, hb⟩ := lookup_isSome_of_mem m.elements key hmem
      rw [hl] at hb
      cases hb
    rw [Set_absent m key value hkey]
    refine ⟨?_, ?_, ?_, rfl⟩
    · simp only [List.map_append, h1, List.map_cons, List.map_nil]
    · simp only [List.map_append, List.map_cons, List.map_nil]
      rw [h1] at hkey
      exact List.Nodup.append h3 (List.nodup_singleton key) (by
        intro a ha hb
        rw [List.mem_singleton.1 hb] at ha
        exact hkey ha)
    · intro q hq
      rcases List.mem_append.1 hq with hq | hq
      · exact hP q hq
      · rw [List.mem_singleton.1 hq]; exact hv

theorem setAll_invariant {α : Type} (P : α → Prop) :
    ∀ (members : List (Key × α)) (m : Map α),
    m.elements.map Prod.fst = m.entries.map Prod.fst →
    (m.entries.map Prod.fst).Nodup → (∀ p ∈ m.entries, P p.2) →
    (∀ p ∈ members, P p.2) →
    ((setAll m members).entries.map Prod.fst).Nodup ∧
      (∀ p ∈ (setAll m members).entries, P p.2) ∧
      (setAll m members).escapeHTML = m.escapeHTML
  | [], m, _, h3, hP, _ => ⟨h3, hP, rfl⟩
  | (key, value) :: rest, m, h1, h3, hP, hm => by
    obtain ⟨s1, s3, sP, sf⟩ := Set_invariant P m key value h1 h3 hP
      (hm (key, value) (List.mem_cons_self _ _))
    have ih := setAll_invariant P rest (m.Set key value) s1 s3 sP
      (fun p hp => hm p (List.mem_cons_of_mem _ hp))
    simp only [setAll]
    exact ⟨ih.1, ih.2.1, by rw [ih.2.2, sf]⟩

theorem uniqueKeysEntries_of_mem : ∀ (es : List (Key × Value)),
    (∀ p ∈ es, uniqueKeys p.2 = true) → uniqueKeysEntries es = true
  | [], _ => rfl
  | (key, value) :: es, h => by
    simp only [uniqueKeysEntries, Bool.and_eq_true]
    exact ⟨h (key, value) (List.mem_cons_self _ _),
      uniqueKeysEntries_of_mem es (fun p hp => h p (List.mem_cons_of_mem _ hp))⟩

theorem float64NumbersEntries_of_mem : ∀ (es : List (Key × Value)),
    (∀ p ∈ es, float64Numbers p.2 = true) → float64NumbersEntries es = true
  | [], _ => rfl
  | (key, value) :: es, h => by
    simp only [float64NumbersEntries, Bool.and_eq_true]
    exact ⟨h (key, value) (List.mem_cons_self _ _),
      float64NumbersEntries_of_mem es (fun p hp => h p (List.mem_cons_of_mem _ hp))⟩

theorem uniqueKeysArray_of_mem : ∀ (xs : List Value),
    (∀ x ∈ xs, uniqueKeys x = true) → uniqueKeysArray xs = true
  | [], _ => rfl
  | x :: xs, h => by
    simp only [uniqueKeysArray, Bool.and_eq_true]
    exact ⟨h x (List.mem_cons_self _ _),
      uniqueKeysArray_of_mem xs (fun y hy => h y (List.mem_cons_of_mem _ hy))⟩

theorem float64NumbersArray_of_mem : ∀ (xs : List Value),
    (∀ x ∈ xs, float64Numbers x = true) → float64NumbersArray xs = true
  | [], _ => rfl
  | x :: xs, h => by
    simp only [float64NumbersArray, Bool.and_eq_true]
    exact ⟨h x (List.mem_cons_self _ _),
      float64NumbersArray_of_mem xs (fun y hy => h y (List.mem_cons_of_mem _ hy))⟩

theorem setAll_decoded (m : Map Value) (members : List (Key × Value))
    (h1 : m.elements.map Prod.fst = m.entries.map Prod.fst)
    (h3 : (m.entries.map Prod.fst).Nodup)
    (hP : ∀ p ∈ m.entries, uniqueKeys p.2 = true ∧ float64Numbers p.2 = true)
    (hm : ∀ p ∈ members, uniqueKeys p.2 = true ∧ float64Numbers p.2 = true) :
    uniqueKeys (.object (setAll m members)) = true ∧
      float64Numbers (.object (setAll m members)) = true := by
  obtain ⟨s3, sP, _⟩ := setAll_invariant
    (fun v => uniqueKeys v = true ∧ float64Numbers v = true) members m h1 h3 hP hm
  cases hs : setAll m members with
  | mk idx entries flag =>
    rw [hs] at s3 sP
    simp only [uniqueKeys, float64Numbers, Bool.and_eq_true, decide_eq_true_eq]
    exact ⟨⟨s3, uniqueKeysEntries_of_mem entries (fun p hp => (sP p hp).1)⟩,
      float64NumbersEntries_of_mem entries (fun p hp => (sP p hp).2)⟩

theorem convertNumber_decoded (tok : Bytes) (v : Value) (h : convertNumber tok = .ok v) :
    uniqueKeys v = true ∧ float64Numbers v = true := by
  cases v with
  | number x => exact ⟨rfl, by simp only [float64Numbers]; exact convertNumber_isFloat64 tok x h⟩
  | unsupported err => exact ⟨rfl, rfl⟩
  | null => exact ⟨rfl, rfl⟩
  | bool b => exact ⟨rfl, rfl⟩
  | string s => exact ⟨rfl, rfl⟩
  | array xs =>
    exfalso
    unfold convertNumber at h
    repeat' split at h
    all_goals cases h
  | object m =>
    exfalso
    unfold convertNumber at h
    repeat' split at h
    all_goals cases h
theorem parse_decoded (flag : Bool) : ∀ fuel : Nat,
    (∀ (input : Bytes) (v : Value) (rest : Bytes),
      parseValue flag fuel input = .ok (v, rest) →
      uniqueKeys v = true ∧ float64Numbers v = true) ∧
    (∀ (first : Bool) (input : Bytes) (ms : List (Key × Value)) (rest : Bytes),
      parseMembers flag fuel first input = .ok (ms, rest) →
      ∀ p ∈ ms, uniqueKeys p.2 = true ∧ float64Numbers p.2 = true) ∧
    (∀ (first : Bool) (input : Bytes) (xs : List Value) (rest : Bytes),
      parseElements flag fuel first input = .ok (xs, rest) →
      ∀ x ∈ xs, uniqueKeys x = true ∧ float64Numbers x = true) := by
  intro fuel
  induction fuel with
  | zero =>
    refine ⟨?_, ?_, ?_⟩
    · intro input v rest h; simp only [parseValue] at h; cases h
    · intro first input ms rest h; simp only [parseMembers] at h; cases h
    · intro first input xs rest h; simp only [parseElements] at h; cases h
  | succ fuel ih =>
    obtain ⟨ihV, ihM, ihE⟩ := ih
    refine ⟨?_, ?_, ?_⟩
    · intro input v rest h
      simp only [parseValue] at h
      split at h
      · cases h
      · rename_i c rest0 heq
        split_ifs at h with h1 h2 h3 h4
        · split at h
          · cases h
          · rename_i members rest1 hok
            simp only [Except.ok.injEq, Prod.mk.injEq] at h
            rw [← h.1]
            exact setAll_decoded _ members rfl List.nodup_nil
              (fun p hp => absurd hp (List.not_mem_nil p)) (ihM true rest0 members rest1 hok)
        · split at h
          · cases h
          · rename_i xs rest1 hok
            simp only [Except.ok.injEq, Prod.mk.injEq] at h
            rw [← h.1]
            have hx := ihE true rest0 xs rest1 hok
            simp only [uniqueKeys, float64Numbers]
            exact ⟨uniqueKeysArray_of_mem xs (fun x hx1 => (hx x hx1).1),
              float64NumbersArray_of_mem xs (fun x hx1 => (hx x hx1).2)⟩
        · split at h
          · cases h
          · simp only [Except.ok.injEq, Prod.mk.injEq] at h
            rw [← h.1]
            exact ⟨rfl, rfl⟩
        · split at h
          · cases h
          · rename_i x hok
            simp only [Except.ok.injEq, Prod.mk.injEq] at h
            rw [← h.1]
            exact convertNumber_decoded _ x hok
        · split at h
          · simp only [Except.ok.injEq, Prod.mk.injEq] at h
            rw [← h.1]
            exact ⟨rfl, rfl⟩
          · split at h
            · simp only [Except.ok.injEq, Prod.mk.injEq] at h
              rw [← h.1]
              exact ⟨rfl, rfl⟩
            · split at h
              · simp only [Except.ok.injEq, Prod.mk.injEq] at h
                rw [← h.1]
                exact ⟨rfl, rfl⟩
              · cases h
    · intro first input ms rest h
      simp only [parseMembers] at h
      split at h
      · cases h
      · rename_i c rest0 heq
        split_ifs at h with h1 h2
        · simp only [Except.ok.injEq, Prod.mk.injEq] at h
          rw [← h.1]
          exact fun p hp => absurd hp (List.not_mem_nil p)
        · split at h
          · cases h
          · rename_i key rest1 hkey
            split at h
            · cases h
            · rename_i c1 rest2 heq1
              split_ifs at h with h3
              · split at h
                · cases h
                · rename_i value rest3 hval
                  have hv := ihV rest2 value rest3 hval
                  split at h
                  · cases h
                  · rename_i c2 rest4 heq3
                    split_ifs at h with h4 h5
                    · split at h
                      · cases h
                      · rename_i members rest5 hok
                        simp only [Except.ok.injEq, Prod.mk.injEq] at h
                        rw [← h.1]
                        intro p hp
                        rcases List.mem_cons.1 hp with hp | hp
                        · rw [hp]; exact hv
                        · exact ihM false rest4 members rest5 hok p hp
                    · simp only [Except.ok.injEq, Prod.mk.injEq] at h
                      rw [← h.1]
                      intro p hp
                      rw [List.mem_singleton.1 hp]; exact hv
    · intro first input xs rest h
      simp only [parseElements] at h
      split at h
      · cases h
      · rename_i c rest0 heq
        split_ifs at h with h1
        · simp only [Except.ok.injEq, Prod.mk.injEq] at h
          rw [← h.1]
          exact fun x hx => absurd hx (List.not_mem_nil x)
        · split at h
          · cases h
          · rename_i x rest1 hval
            have hv := ihV (c :: rest0) x rest1 hval
            split at h
            · cases h
            · rename_i c1 rest2 heq1
              split_ifs at h with h4 h5
              · split at h
                · cases h
                · rename_i ys rest3 hok
                  simp only [Except.ok.injEq, Prod.mk.injEq] at h
                  rw [← h.1]
                  intro y hy
                  rcases List.mem_cons.1 hy with hy | hy
                  · rw [hy]; exact hv
                  · exact ihE false rest2 ys rest3 hok y hy
              · simp only [Except.ok.injEq, Prod.mk.injEq] at h
                rw [← h.1]
                intro y hy
                rw [List.mem_singleton.1 hy]; exact hv

theorem UnmarshalJSON_decoded (data : Bytes) (m : Map Value)
    (h : (New : Map Value).UnmarshalJSON data = .ok m) :
    uniqueKeys (.object m) = true ∧ float64Numbers (.object m) = true := by
  simp only [Map.UnmarshalJSON] at h
  split at h
  · cases h
  · split_ifs at h
    · split at h
      · cases h
      · rename_i members rest1 hok
        split at h
        · simp only [Except.ok.injEq] at h
          rw [← h]
          exact setAll_decoded _ members rfl List.nodup_nil
            (fun p hp => absurd hp (List.not_mem_nil p))
            ((parse_decoded _ _).2.1 true _ members rest1 hok)
        · cases h

theorem roundTrip_of_marshal (m : Map Value) (bytes : Bytes)
    (hm : Marshal m = (some bytes, none))
    (hu : uniqueKeys (.object m) = true) (hn : float64Numbers (.object m) = true) :
    (∃ m1, (New : Map Value).UnmarshalJSON bytes = .ok m1 ∧
      Marshal m1 = (some bytes, none) ∧ m1.Keys = m.Keys) ∧
    testSerializationOnce bytes New = (some bytes, none) := by
  rw [Marshal_eq] at hm
  cases herr : valueError (.object m) with
  | some err => rw [herr] at hm; cases hm
  | none =>
    rw [herr] at hm
    have hb : bytes = render true (.object m) :=
      (Option.some.inj (congrArg Prod.fst hm)).symm
    have hdec := UnmarshalJSON_render m New herr hn
    have hcanon := render_canon true (.object m) hu
    obtain ⟨idx, entries, flag⟩ := m
    simp only [canon] at hcanon
    have hm1 : Marshal (setAll (New : Map Value) (canonEntries true entries))
        = (some bytes, none) := by
      have h1 : (New : Map Value).SetEscapeHTML true = New := rfl
      rw [h1] at hcanon
      rw [Marshal_eq, hcanon.2, herr, hcanon.1, hb]
    have hkeys : (setAll (New : Map Value) (canonEntries true entries)).Keys
        = (⟨idx, entries, flag⟩ : Map Value).Keys := by
      simp only [uniqueKeys, Bool.and_eq_true, decide_eq_true_eq] at hu
      have hset := setAll_New_entries true (canonEntries true entries)
        (by rw [canonEntries_keys]; exact hu.1)
      have h1 : (New : Map Value).SetEscapeHTML true = New := rfl
      rw [h1] at hset
      simp only [Map.Keys, hset.1, canonEntries_keys]
    have hdec1 : (New : Map Value).UnmarshalJSON bytes
        = .ok (setAll (New : Map Value) (canonEntries true entries)) := by
      rw [hb]; exact hdec
    refine ⟨⟨_, hdec1, hm1, hkeys⟩, ?_⟩
    simp only [testSerializationOnce, hdec1, hm1]

/-! ## The encode contract of `MarshalJSON` -/

/-- C1 (amended): when every key and every value of the map encodes, `MarshalJSON`
returns, with a nil error, an opening brace, then for each entry in iteration
order the encoded key, a line feed, a colon, the encoded value and a line feed,
with one comma between successive entries and none after the last, then a
closing brace. -/
theorem MarshalJSON_bytes {α ε : Type} (lib : JSONLib α ε) (m : Map α)
    (h : ∀ p ∈ m.iterate, encodes lib m.escapeHTML (lib.ofKey p.1) = true
      ∧ encodes lib m.escapeHTML p.2 = true) :
    m.MarshalJSON lib =
      (some (lbrace :: List.intercalate [',']
        (m.iterate.map fun p =>
          encoded lib m.escapeHTML (lib.ofKey p.1) ++ [lf] ++ [':']
            ++ encoded lib m.escapeHTML p.2 ++ [lf])
        ++ [rbrace]), none) := by
  rw [MarshalJSON_eq, (firstError_none_iff lib m.escapeHTML m.iterate).2 h]
  rfl

/-- Witness of C1 (amended) on the map `a: 1, b: "x"`. -/
theorem MarshalJSON_bytes_witness :
    Map.MarshalJSON goJSON
        ⟨[], [("a".toList, Value.number 1), ("b".toList, Value.string "x".toList)], true⟩
      = (some "\x7b\"a\"\n:1\n,\"b\"\n:\"x\"\n\x7d".toList, none) :=
  MarshalJSON_bytes goJSON
    ⟨[], [("a".toList, Value.number 1), ("b".toList, Value.string "x".toList)], true⟩
    (by decide)

/-- C1 (as stated) fails: on the one-entry map `a: 1` the key and the value
encode, yet the bytes `MarshalJSON` returns are not the object literal made of
the encoded key, a colon and the encoded value between braces: a line feed
follows the key and the value. -/
theorem MarshalJSON_not_objectLiteral :
    (∀ p ∈ (⟨[], [("a".toList, Value.number 1)], true⟩ : Map Value).iterate,
        encodes goJSON true (goJSON.ofKey p.1) = true ∧ encodes goJSON true p.2 = true)
      ∧ objectLiteral goJSON true [("a".toList, Value.number 1)]
          = "\x7b\"a\":1\x7d".toList
      ∧ Map.MarshalJSON goJSON ⟨[], [("a".toList, Value.number 1)], true⟩
          = (some "\x7b\"a\"\n:1\n\x7d".toList, none)
      ∧ Map.MarshalJSON goJSON ⟨[], [("a".toList, Value.number 1)], true⟩
          ≠ (some (objectLiteral goJSON true [("a".toList, Value.number 1)]), none) := by
  decide

/-- C3: when `MarshalJSON` succeeds, the members written between the braces
correspond one to one, in order, to the entries visited by `First()`/`Next()`:
the i-th member is the encoding of the i-th key, a line feed, a colon, the
encoding of the i-th value and a line feed; no entry is skipped, repeated or
moved. -/
theorem MarshalJSON_keys_in_order {α ε : Type} (lib : JSONLib α ε) (m : Map α)
    (bytes : Bytes) (h : m.MarshalJSON lib = (some bytes, none)) :
    ∃ members : List Bytes,
      bytes = lbrace :: List.intercalate [','] members ++ [rbrace] ∧
      members.length = m.Len ∧
      List.Forall₂
        (fun (p : Key × α) (mem : Bytes) => ∃ kb vb,
          lib.marshal m.escapeHTML (lib.ofKey p.1) = .ok kb ∧
          lib.marshal m.escapeHTML p.2 = .ok vb ∧
          mem = kb ++ [lf] ++ [':'] ++ vb ++ [lf])
        m.iterate members := by
  rw [MarshalJSON_eq] at h
  cases hfe : firstError lib m.escapeHTML m.iterate with
  | some err => rw [hfe] at h; cases h
  | none =>
    rw [hfe] at h
    have hb : bytes = lbrace :: List.intercalate [',']
        (m.iterate.map (member lib m.escapeHTML)) ++ [rbrace] := by
      have h1 := congrArg Prod.fst h
      exact (Option.some.inj h1).symm
    refine ⟨m.iterate.map (member lib m.escapeHTML), hb, ?_, ?_⟩
    · simp only [List.length_map, Map.iterate, Map.First, Map.Len]
    · have hall := (firstError_none_iff lib m.escapeHTML m.iterate).1 hfe
      rw [List.forall₂_map_right_iff, List.forall₂_same]
      intro p hp
      obtain ⟨hk, hv⟩ := hall p hp
      cases hk' : lib.marshal m.escapeHTML (lib.ofKey p.1) with
      | error e => simp only [encodes, hk', Bool.false_eq_true] at hk
      | ok kb =>
        cases hv' : lib.marshal m.escapeHTML p.2 with
        | error e => simp only [encodes, hv', Bool.false_eq_true] at hv
        | ok vb => exact ⟨kb, vb, rfl, rfl, by simp only [member, encoded, hk', hv']⟩

/-- Witness of C3 on the map `b: true, a: null`. -/
theorem MarshalJSON_keys_in_order_witness :
    ∃ members : List Bytes,
      "\x7b\"b\"\n:true\n,\"a\"\n:null\n\x7d".toList
        = lbrace :: List.intercalate [','] members ++ [rbrace] ∧
      members.length
        = (⟨[], [("b".toList, Value.bool true), ("a".toList, Value.null)], false⟩
            : Map Value).Len ∧
      List.Forall₂
        (fun (p : Key × Value) (mem : Bytes) => ∃ kb vb,
          goJSON.marshal false (goJSON.ofKey p.1) = .ok kb ∧
          goJSON.marshal false p.2 = .ok vb ∧
          mem = kb ++ [lf] ++ [':'] ++ vb ++ [lf])
        (⟨[], [("b".toList, Value.bool true), ("a".toList, Value.null)], false⟩
            : Map Value).iterate members :=
  MarshalJSON_keys_in_order goJSON
    ⟨[], [("b".toList, Value.bool true), ("a".toList, Value.null)], false⟩
    "\x7b\"b\"\n:true\n,\"a\"\n:null\n\x7d".toList (by decide)

/-- C4: on an empty map (`First()` is nil), whatever its `escapeHTML` flag and
whatever the value encoder would do, `MarshalJSON` returns the two bytes of an
empty object and a nil error. -/
theorem MarshalJSON_empty {α ε : Type} (lib : JSONLib α ε) (m : Map α)
    (h : m.First = []) :
    m.MarshalJSON lib = (some [lbrace, rbrace], none) := by
  simp only [Map.MarshalJSON, h, marshalLoop, List.nil_append, List.singleton_append]

/-- Witness of C4: the empty map of `New()` against an encoder that rejects
every value. -/
theorem MarshalJSON_empty_witness :
    (New : Map Value).First = [] ∧
      Map.MarshalJSON failingJSON (New : Map Value) = (some "\x7b\x7d".toList, none) :=
  ⟨rfl, MarshalJSON_empty failingJSON New rfl⟩

/-- C5: when some key or value of the map fails to encode, the entries split
at the first failing entry: everything before it encodes, its key fails with
`err`, or its key encodes and its value fails with `err`; `MarshalJSON` returns
nil bytes and exactly `err`, and does so whatever entries follow the failing one. -/
theorem MarshalJSON_first_error {α ε : Type} (lib : JSONLib α ε) (m : Map α)
    (h : ∃ p ∈ m.iterate, encodes lib m.escapeHTML (lib.ofKey p.1) = false
      ∨ encodes lib m.escapeHTML p.2 = false) :
    ∃ pre key value post err,
      m.iterate = pre ++ (key, value) :: post ∧
      (∀ p ∈ pre, encodes lib m.escapeHTML (lib.ofKey p.1) = true
        ∧ encodes lib m.escapeHTML p.2 = true) ∧
      (lib.marshal m.escapeHTML (lib.ofKey key) = .error err ∨
        (encodes lib m.escapeHTML (lib.ofKey key) = true
          ∧ lib.marshal m.escapeHTML value = .error err)) ∧
      m.MarshalJSON lib = (none, some err) ∧
      ∀ later : List (Key × α),
        Map.MarshalJSON lib ⟨m.elements, pre ++ (key, value) :: later, m.escapeHTML⟩
          = (none, some err) := by
  cases hfe : firstError lib m.escapeHTML m.iterate with
  | none =>
    obtain ⟨p, hp, hbad⟩ := h
    obtain ⟨hk, hv⟩ := (firstError_none_iff lib m.escapeHTML m.iterate).1 hfe p hp
    rcases hbad with hbad | hbad
    · rw [hk] at hbad; cases hbad
    · rw [hv] at hbad; cases hbad
  | some err =>
    obtain ⟨pre, key, value, post, hes, hpre, hfail⟩ :=
      firstError_split lib m.escapeHTML m.iterate err hfe
    refine ⟨pre, key, value, post, err, hes, hpre, hfail, ?_, ?_⟩
    · rw [MarshalJSON_eq, hfe]
    · intro later
      rw [MarshalJSON_eq]
      simp only [Map.iterate, Map.First]
      rw [firstError_of_split lib m.escapeHTML pre later key value err hpre hfail]

/-- Witness of C5 on the map `a: 1, b: <channel>, c: null`, whose second value
the encoder rejects. -/
theorem MarshalJSON_first_error_witness :
    (∃ p ∈ (⟨[], [("a".toList, Value.number 1),
          ("b".toList, Value.unsupported (.unsupportedType "chan")),
          ("c".toList, Value.null)], true⟩ : Map Value).iterate,
        encodes goJSON true (goJSON.ofKey p.1) = false ∨ encodes goJSON true p.2 = false) ∧
    ∃ pre key value post err,
      (⟨[], [("a".toList, Value.number 1),
          ("b".toList, Value.unsupported (.unsupportedType "chan")),
          ("c".toList, Value.null)], true⟩ : Map Value).iterate
        = pre ++ (key, value) :: post ∧
      (∀ p ∈ pre, encodes goJSON true (goJSON.ofKey p.1) = true
        ∧ encodes goJSON true p.2 = true) ∧
      (goJSON.marshal true (goJSON.ofKey key) = .error err ∨
        (encodes goJSON true (goJSON.ofKey key) = true
          ∧ goJSON.marshal true value = .error err)) ∧
      Map.MarshalJSON goJSON ⟨[], [("a".toList, Value.number 1),
          ("b".toList, Value.unsupported (.unsupportedType "chan")),
          ("c".toList, Value.null)], true⟩ = (none, some err) ∧
      ∀ later : List (Key × Value),
        Map.MarshalJSON goJSON ⟨[], pre ++ (key, value) :: later, true⟩
          = (none, some err) :=
  ⟨⟨("b".toList, Value.unsupported (.unsupportedType "chan")),
      List.mem_cons_of_mem _ (List.mem_cons_self _ _), Or.inr rfl⟩,
    MarshalJSON_first_error goJSON
      ⟨[], [("a".toList, Value.number 1),
          ("b".toList, Value.unsupported (.unsupportedType "chan")),
          ("c".toList, Value.null)], true⟩
      ⟨("b".toList, Value.unsupported (.unsupportedType "chan")),
        List.mem_cons_of_mem _ (List.mem_cons_self _ _), Or.inr rfl⟩⟩

/-- C6: `MarshalJSON` returns a non-nil error if and only if the value encoder
rejects some key or value of the map; an error it returns is one the encoder
returned for a key or a value of the map; and when the encoder accepts every key
and value, `MarshalJSON` returns bytes and a nil error. -/
theorem MarshalJSON_error_iff {α ε : Type} (lib : JSONLib α ε) (m : Map α) :
    ((m.MarshalJSON lib).2 ≠ none ↔
      ∃ p ∈ m.iterate, encodes lib m.escapeHTML (lib.ofKey p.1) = false
        ∨ encodes lib m.escapeHTML p.2 = false) ∧
    (∀ err, (m.MarshalJSON lib).2 = some err →
      ∃ p ∈ m.iterate, lib.marshal m.escapeHTML (lib.ofKey p.1) = .error err
        ∨ lib.marshal m.escapeHTML p.2 = .error err) ∧
    ((∀ p ∈ m.iterate, encodes lib m.escapeHTML (lib.ofKey p.1) = true
        ∧ encodes lib m.escapeHTML p.2 = true) →
      ∃ bytes, m.MarshalJSON lib = (some bytes, none)) := by
  have key := MarshalJSON_eq lib m
  cases hfe : firstError lib m.escapeHTML m.iterate with
  | none =>
    rw [hfe] at key
    have hall := (firstError_none_iff lib m.escapeHTML m.iterate).1 hfe
    refine ⟨⟨fun h => absurd (by rw [key]) h, ?_⟩, ?_, fun _ => ⟨_, key⟩⟩
    · rintro ⟨p, hp, hbad⟩
      obtain ⟨hk, hv⟩ := hall p hp
      rcases hbad with hbad | hbad
      · rw [hk] at hbad; cases hbad
      · rw [hv] at hbad; cases hbad
    · intro err herr
      rw [key] at herr
      cases herr
  | some err =>
    rw [hfe] at key
    obtain ⟨p, hp, hbad⟩ := firstError_mem lib m.escapeHTML m.iterate err hfe
    have hex : ∃ p ∈ m.iterate, encodes lib m.escapeHTML (lib.ofKey p.1) = false
        ∨ encodes lib m.escapeHTML p.2 = false := by
      refine ⟨p, hp, ?_⟩
      rcases hbad with hk | hv
      · exact Or.inl (by simp only [encodes, hk])
      · exact Or.inr (by simp only [encodes, hv])
    refine ⟨⟨fun _ => hex, fun _ => by rw [key]; exact Option.some_ne_none err⟩, ?_, ?_⟩
    · intro err' herr
      rw [key] at herr
      cases herr
      exact ⟨p, hp, hbad⟩
    · intro hall
      obtain ⟨q, hq, hqbad⟩ := hex
      obtain ⟨hk, hv⟩ := hall q hq
      rcases hqbad with hbad | hbad
      · rw [hk] at hbad; cases hbad
      · rw [hv] at hbad; cases hbad

/-! ## HTML escaping -/

/-- C7: for a map whose `escapeHTML` flag is on (the default of `New()`), the
bytes `MarshalJSON` returns contain no literal `<`, `>` or `&`; a string key or
value is written as a quote, the encoding of each of its characters in turn and
a quote, where `<`, `>`, `&` are encoded as `\u003c`, `\u003e`, `\u0026`; and
the map decoded from `rawJSON` is marshalled to `escapedJSON`. -/
theorem MarshalJSON_escapes_html (m : Map Value) (bytes : Bytes)
    (hflag : m.escapeHTML = true) (h : m.MarshalJSON goJSON = (some bytes, none)) :
    (∀ x ∈ bytes, x ≠ '<' ∧ x ≠ '>' ∧ x ≠ '&') ∧
    (∀ s : List Char, goJSON.marshal m.escapeHTML (goJSON.ofKey s)
        = .ok ('"' :: s.flatMap (escapeChar true) ++ ['"'])) ∧
    escapeChar true '<' = "\\u003c".toList ∧
    escapeChar true '>' = "\\u003e".toList ∧
    escapeChar true '&' = "\\u0026".toList ∧
    (New : Map Value).escapeHTML = true ∧
    testSerializationOnce rawJSON New = (some escapedJSON, none) := by
  refine ⟨?_, ?_, by decide, by decide, by decide, rfl, by decide⟩
  · rw [MarshalJSON_goJSON] at h
    cases herr : entriesError m.entries with
    | some err => rw [herr] at h; cases h
    | none =>
      rw [herr, hflag] at h
      have hb : bytes = lbrace :: rawEntries true true m.entries ++ [rbrace] :=
        (Option.some.inj (congrArg Prod.fst h)).symm
      intro x hx
      have hx' : htmlChar x = false := by
        rw [hb] at hx
        refine mem_cons_not_html lbrace x _ (by decide) ?_ hx
        intro y hy
        exact mem_append_not_html y _ _ (rawEntries_not_html m.entries true) (by decide) hy
      simp only [htmlChar, Bool.or_eq_false_iff, decide_eq_false_iff_not] at hx'
      exact ⟨hx'.1.1, hx'.1.2, hx'.2⟩
  · intro s
    rw [hflag]
    simp only [goJSON, marshalValue, appendString, List.nil_append, List.singleton_append,
      List.cons_append]

/-- Witness of C7 on the map decoded from `rawJSON`. -/
theorem MarshalJSON_escapes_html_witness :
    rangeMap.escapeHTML = true ∧
    rangeMap.MarshalJSON goJSON
      = (some "\x7b\"range\"\n:\"\\u003e1.0.0 \\u0026\\u0026 \\u003c2.0.0\"\n\x7d".toList,
          none) ∧
    ∀ x ∈ "\x7b\"range\"\n:\"\\u003e1.0.0 \\u0026\\u0026 \\u003c2.0.0\"\n\x7d".toList,
      x ≠ '<' ∧ x ≠ '>' ∧ x ≠ '&' :=
  ⟨rfl, by decide,
    (MarshalJSON_escapes_html rangeMap
      "\x7b\"range\"\n:\"\\u003e1.0.0 \\u0026\\u0026 \\u003c2.0.0\"\n\x7d".toList rfl
      (by decide)).1⟩

/-- C8: after `SetEscapeHTML(false)`, when the map is encoded by an encoder
whose HTML escaping is off, every entry is in the output as its key between
quotes, a colon and its value, where a key or a string value is written as the
encoding of each of its characters in turn and `<`, `>` and `&` are encoded as
themselves; and the map decoded from `rawJSON` encodes back to `rawJSON`. -/
theorem encodeJSON_noEscape_literal (m : Map Value) (bytes : Bytes)
    (h : encodeJSON (m.SetEscapeHTML false) false = (some bytes, none)) :
    (∀ (key : Key) (value : Value), (key, value) ∈ m.iterate →
      ∃ before after, bytes = before
        ++ ('"' :: key.flatMap (escapeChar false) ++ ['"']) ++ [':']
        ++ render false value ++ after) ∧
    (∀ s : List Char,
      render false (.string s) = '"' :: s.flatMap (escapeChar false) ++ ['"']) ∧
    escapeChar false '<' = ['<'] ∧
    escapeChar false '>' = ['>'] ∧
    escapeChar false '&' = ['&'] ∧
    decodeThenEncodeJSON rawJSON ((New : Map Value).SetEscapeHTML false) false
      = (some rawJSON, none) := by
  refine ⟨?_, ?_, by decide, by decide, by decide, by decide⟩
  · intro key value hmem
    rw [encodeJSON_eq] at h
    cases herr : valueError (.object (m.SetEscapeHTML false)) with
    | some err => rw [herr] at h; cases h
    | none =>
      rw [herr] at h
      have hb : bytes = render false (.object (m.SetEscapeHTML false)) :=
        (Option.some.inj (congrArg Prod.fst h)).symm
      obtain ⟨before, after, hmid⟩ :=
        renderEntries_mem false m.entries true key value hmem
      refine ⟨lbrace :: before, after ++ [rbrace], ?_⟩
      rw [hb]
      simp only [Map.SetEscapeHTML, render, Bool.or_self, hmid, appendString, List.nil_append,
        List.singleton_append, List.cons_append, List.append_assoc]
  · intro s
    simp only [render, appendString, List.nil_append, List.singleton_append,
      List.cons_append]

/-- Witness of C8 on the map decoded from `rawJSON`. -/
theorem encodeJSON_noEscape_literal_witness :
    encodeJSON (rangeMap.SetEscapeHTML false) false = (some rawJSON, none) ∧
    ∃ before after, rawJSON = before
        ++ ('"' :: "range".toList.flatMap (escapeChar false) ++ ['"']) ++ [':']
        ++ render false (.string ">1.0.0 && <2.0.0".toList) ++ after :=
  ⟨by decide,
    (encodeJSON_noEscape_literal rangeMap rawJSON (by decide)).1 "range".toList
      (.string ">1.0.0 && <2.0.0".toList) (List.mem_cons_self _ _)⟩

/-- C9 (as stated) fails: the outer map `mixedFlags` has its flag off and holds
a map made by `New()`, whose flag is on, with the entry `op: "<"`. Encoded with
HTML escaping off, the `<` of the nested map is written `\u003c`: the output has
no literal `<`, though the strings of the value contain one. -/
theorem encodeJSON_nested_flag_on :
    mixedFlags.escapeHTML = false ∧
    encodeJSON mixedFlags false
      = (some "\x7b\"n\":\x7b\"op\":\"\\u003c\"\x7d\x7d".toList, none) ∧
    List.count '<' "\x7b\"n\":\x7b\"op\":\"\\u003c\"\x7d\x7d".toList = 0 ∧
    occurrences '<' (.object mixedFlags) = 1 := by
  decide

/-- C9 (amended): the bytes of an encoded map are the compact text in which a
string is HTML-escaped exactly when the flag of the encoder, of the outer map,
of the nested map that holds the string or of a map in between is on (`render`).
So with the flag of the encoder or of the outer map on, no `<`, `>`, `&` is
literal anywhere in the output; and with the flags of the encoder, the outer map
and every nested map off, each `<`, `>`, `&` of the keys and strings, nested
objects and objects within arrays included, is in the output as itself. -/
theorem encodeJSON_nested_flags (m : Map Value) (e : Bool) (bytes : Bytes)
    (h : encodeJSON m e = (some bytes, none)) :
    bytes = render e (.object m) ∧
    ((e = true ∨ m.escapeHTML = true) → ∀ x ∈ bytes, htmlChar x = false) ∧
    (e = false → flagsOff (.object m) = true →
      ∀ c, htmlChar c = true → bytes.count c = occurrences c (.object m)) := by
  rw [encodeJSON_eq] at h
  cases herr : valueError (.object m) with
  | some err => rw [herr] at h; cases h
  | none =>
    rw [herr] at h
    have hb : bytes = render e (.object m) :=
      (Option.some.inj (congrArg Prod.fst h)).symm
    refine ⟨hb, ?_, ?_⟩
    · intro hflag
      rw [hb]
      exact render_object_not_html m e hflag
    · intro he hoff c hc
      rw [hb, he]
      exact count_render c hc (.object m) hoff

/-- Witness of C9 (amended) on the map decoded from `nestedArrayJSON` with the
flag off, where every `<` and `>` is literal. -/
theorem encodeJSON_nested_flags_witness :
    Map.UnmarshalJSON ((New : Map Value).SetEscapeHTML false) nestedArrayJSON
      = .ok nestedArrayMap ∧
    encodeJSON nestedArrayMap false = (some nestedArrayJSON, none) ∧
    nestedArrayJSON = render false (.object nestedArrayMap) ∧
    (∀ c, htmlChar c = true →
      nestedArrayJSON.count c = occurrences c (.object nestedArrayMap)) :=
  ⟨rfl, by decide,
    (encodeJSON_nested_flags nestedArrayMap false nestedArrayJSON (by decide)).1,
    (encodeJSON_nested_flags nestedArrayMap false nestedArrayJSON (by decide)).2.2 rfl
      (by decide)⟩

/-- C10: when no key and no string of the map contains `<`, `>` or `&`,
`MarshalJSON` returns the same result with the flag on and with the flag off;
under both settings a string is written character by character with a quote
written `\"` and a backslash written `\\`; and the text `EscapedJSON` of the
test table decodes and encodes back to itself with the flag on and off. -/
theorem MarshalJSON_flag_irrelevant (m : Map Value) (h : htmlFree (.object m) = true) :
    Map.MarshalJSON goJSON (m.SetEscapeHTML true)
      = Map.MarshalJSON goJSON (m.SetEscapeHTML false) ∧
    (∀ (b : Bool) (s : List Char), goJSON.marshal b (goJSON.ofKey s)
        = .ok ('"' :: s.flatMap (escapeChar b) ++ ['"'])) ∧
    (∀ b : Bool, escapeChar b '"' = ['\\', '"'] ∧ escapeChar b '\\' = ['\\', '\\']) ∧
    testSerializationOnce tests_EscapedJSON New = (some tests_EscapedJSON, none) ∧
    decodeThenEncodeJSON tests_EscapedJSON ((New : Map Value).SetEscapeHTML false) false
      = (some tests_EscapedJSON, none) := by
  refine ⟨?_, ?_, ?_, by decide, by decide⟩
  · obtain ⟨idx, entries, flag⟩ := m
    simp only [htmlFree] at h
    simp only [MarshalJSON_goJSON, Map.SetEscapeHTML, rawEntries_congr true false entries true h]
  · intro b s
    simp only [goJSON, marshalValue, appendString, List.nil_append, List.singleton_append,
      List.cons_append]
  · intro b
    cases b <;> decide

/-- Witness of C10 on the map of `EscapedJSON`, a quote and a backslash as keys
and values. -/
theorem MarshalJSON_flag_irrelevant_witness :
    htmlFree (.object ⟨[], [("\"".toList, .string "\"".toList),
        ("\\".toList, .string "\\".toList)], true⟩) = true ∧
    Map.MarshalJSON goJSON ((⟨[], [("\"".toList, .string "\"".toList),
        ("\\".toList, .string "\\".toList)], true⟩ : Map Value).SetEscapeHTML true)
      = Map.MarshalJSON goJSON ((⟨[], [("\"".toList, .string "\"".toList),
        ("\\".toList, .string "\\".toList)], true⟩ : Map Value).SetEscapeHTML false) :=
  ⟨by decide,
    (MarshalJSON_flag_irrelevant ⟨[], [("\"".toList, .string "\"".toList),
        ("\\".toList, .string "\\".toList)], true⟩ (by decide)).1⟩

/-! ## Decode, then encode -/

set_option maxRecDepth 100000 in
/-- C2 (as stated) fails: `rawJSON` is an object literal with one key and no
insignificant whitespace; decoding it into a new map and marshalling that map
succeeds in both steps and returns `escapedJSON`, where `>`, `&`, `<` are
written `\u003e`, `\u0026`, `\u003c`, not the original bytes. Likewise the
numbers `1.0` and `1e2` come back as `1` and `100`, the text `strconv` writes
for their `float64`, and the string `"\/"` comes back as `"/"`. -/
theorem testSerializationOnce_rawJSON :
    testSerializationOnce rawJSON New = (some escapedJSON, none) ∧
    decide (testSerializationOnce rawJSON New = (some rawJSON, none)) = false ∧
    testSerializationOnce "\x7b\"a\":1.0,\"b\":1e2,\"c\":\"\\/\"\x7d".toList New
      = (some "\x7b\"a\":1,\"b\":100,\"c\":\"/\"\x7d".toList, none) :=
  ⟨by decide, by decide, by decide!⟩

set_option maxRecDepth 100000 in
/-- C2 (amended): let `bytes` be what `json.Marshal` writes for a decoded map,
the map `m` that decoding some input `data` into a new map gives. Decoding
`bytes` into a new map succeeds, marshalling the decoded map succeeds and returns
`bytes` again, and the decoded map has the keys of `m` in the same order. These
are all the literals that decoding and then encoding reproduces: a text comes
back unchanged exactly when `json.Marshal` writes it for some decoded map. The
same holds of the bytes `json.Marshal` writes for any map, decoded or not, whose
keys are distinct in every map of the tree and whose numbers are `float64`
values (`isFloat64`, which holds of every decoded number). The three literals of
the test table are reproduced, and so is `floatsJSON`, a literal with a
fraction, a negative zero and numbers with exponents. -/
theorem Marshal_roundTrip (data : Bytes) (m : Map Value) (bytes : Bytes)
    (hdec : (New : Map Value).UnmarshalJSON data = .ok m)
    (hm : Marshal m = (some bytes, none)) :
    (∃ m1, (New : Map Value).UnmarshalJSON bytes = .ok m1 ∧
      Marshal m1 = (some bytes, none) ∧ m1.Keys = m.Keys) ∧
    testSerializationOnce bytes New = (some bytes, none) ∧
    (∀ text : Bytes, testSerializationOnce text New = (some text, none) ↔
      ∃ (input : Bytes) (source : Map Value),
        (New : Map Value).UnmarshalJSON input = .ok source ∧
        Marshal source = (some text, none)) ∧
    (∀ (source : Map Value) (text : Bytes), Marshal source = (some text, none) →
      uniqueKeys (.object source) = true → float64Numbers (.object source) = true →
      testSerializationOnce text New = (some text, none)) ∧
    (testSerializationOnce tests_PlainJSON New = (some tests_PlainJSON, none) ∧
      testSerializationOnce tests_NestedJSON New = (some tests_NestedJSON, none) ∧
      testSerializationOnce tests_EscapedJSON New = (some tests_EscapedJSON, none) ∧
      testSerializationOnce floatsJSON New = (some floatsJSON, none)) := by
  obtain ⟨hu, hn⟩ := UnmarshalJSON_decoded data m hdec
  obtain ⟨h1, h2⟩ := roundTrip_of_marshal m bytes hm hu hn
  refine ⟨h1, h2, ?_, ?_, by decide!, by decide!, by decide!, by decide!⟩
  · intro text
    constructor
    · intro h
      simp only [testSerializationOnce] at h
      split at h
      · cases h
      · rename_i m1 hdec1
        exact ⟨text, m1, hdec1, h⟩
    · rintro ⟨input, source, hs, hms⟩
      obtain ⟨hu1, hn1⟩ := UnmarshalJSON_decoded input source hs
      exact (roundTrip_of_marshal source text hms hu1 hn1).2
  · intro source text hms hu1 hn1
    exact (roundTrip_of_marshal source text hms hu1 hn1).2

set_option maxRecDepth 100000 in
/-- Witness of C2 (amended): the literal with `1.0`, `1e2` and `"\/"` decodes to
a map of three entries, `json.Marshal` writes `1`, `100` and `"/"` for it, and
these bytes are reproduced. -/
theorem Marshal_roundTrip_witness :
    (New : Map Value).UnmarshalJSON "\x7b\"a\":1.0,\"b\":1e2,\"c\":\"\\/\"\x7d".toList
      = .ok ⟨[("a".toList, 0), ("b".toList, 1), ("c".toList, 2)],
          [("a".toList, .number 1), ("b".toList, .number 100),
           ("c".toList, .string "/".toList)], true⟩ ∧
    Marshal ⟨[("a".toList, 0), ("b".toList, 1), ("c".toList, 2)],
          [("a".toList, .number 1), ("b".toList, .number 100),
           ("c".toList, .string "/".toList)], true⟩
      = (some "\x7b\"a\":1,\"b\":100,\"c\":\"/\"\x7d".toList, none) ∧
    (∃ m1, (New : Map Value).UnmarshalJSON "\x7b\"a\":1,\"b\":100,\"c\":\"/\"\x7d".toList
        = .ok m1 ∧
      Marshal m1 = (some "\x7b\"a\":1,\"b\":100,\"c\":\"/\"\x7d".toList, none) ∧
      m1.Keys = ["a".toList, "b".toList, "c".toList]) ∧
    testSerializationOnce "\x7b\"a\":1,\"b\":100,\"c\":\"/\"\x7d".toList New
      = (some "\x7b\"a\":1,\"b\":100,\"c\":\"/\"\x7d".toList, none) :=
  ⟨rfl, by decide,
    (Marshal_roundTrip "\x7b\"a\":1.0,\"b\":1e2,\"c\":\"\\/\"\x7d".toList
      ⟨[("a".toList, 0), ("b".toList, 1), ("c".toList, 2)],
          [("a".toList, .number 1), ("b".toList, .number 100),
           ("c".toList, .string "/".toList)], true⟩
      "\x7b\"a\":1,\"b\":100,\"c\":\"/\"\x7d".toList rfl (by decide)).1,
    (Marshal_roundTrip "\x7b\"a\":1.0,\"b\":1e2,\"c\":\"\\/\"\x7d".toList
      ⟨[("a".toList, 0), ("b".toList, 1), ("c".toList, 2)],
          [("a".toList, .number 1), ("b".toList, .number 100),
           ("c".toList, .string "/".toList)], true⟩
      "\x7b\"a\":1,\"b\":100,\"c\":\"/\"\x7d".toList rfl (by decide)).2.1⟩

/-! ## Determinism and the shape of the raw bytes -/

/-- C12: `MarshalJSON` is deterministic and depends only on the entries visited
by `First()`/`Next()` and on the `escapeHTML` flag. Over an encoder given as a
relation whose calls have one result each (`hlib`), any two runs of `MarshalJSON`
on maps with the same sequence of key and value pairs and the same flag return
the same pair, bytes or error, whatever their hash indexes hold; any two runs on
the same map return the same pair, so that encoding a map repeatedly yields the
same bytes every time. Over an encoder that is a function a run exists, the runs
return the value of `Map.MarshalJSON` and nothing else, and that value is the
same for both maps. -/
theorem MarshalJSON_deterministic {α ε : Type} (lib : JSONRel α ε)
    (hlib : ∀ b v r1 r2, lib.marshals b v r1 → lib.marshals b v r2 → r1 = r2)
    (m1 m2 : Map α)
    (hseq : m1.iterate = m2.iterate) (hflag : m1.escapeHTML = m2.escapeHTML) :
    (∀ r1 r2, m1.MarshalJSONRuns lib r1 → m2.MarshalJSONRuns lib r2 → r1 = r2) ∧
    (∀ r1 r2, m1.MarshalJSONRuns lib r1 → m1.MarshalJSONRuns lib r2 → r1 = r2) ∧
    (∀ f : JSONLib α ε,
      (∀ r, m1.MarshalJSONRuns f.toRel r ↔ r = m1.MarshalJSON f) ∧
      (∀ r, m2.MarshalJSONRuns f.toRel r ↔ r = m1.MarshalJSON f)) := by
  refine ⟨fun r1 r2 => MarshalJSONRuns_deterministic lib hlib m1 m2 hseq hflag r1 r2,
    fun r1 r2 => MarshalJSONRuns_deterministic lib hlib m1 m1 rfl rfl r1 r2, fun f => ?_⟩
  have heq : m2.MarshalJSON f = m1.MarshalJSON f :=
    MarshalJSONRuns_deterministic f.toRel (toRel_deterministic f) m2 m1 hseq.symm hflag.symm
      _ _ (MarshalJSONRuns_toRel f m2) (MarshalJSONRuns_toRel f m1)
  refine ⟨MarshalJSONRuns_toRel_iff f m1, fun r => ?_⟩
  rw [← heq]
  exact MarshalJSONRuns_toRel_iff f m2 r

/-- Witness of C12 over Go's encoder: the map of `rawJSON` with its index and
the same entries under a stale index. -/
theorem MarshalJSON_deterministic_witness :
    (∀ b v r1 r2, goJSON.toRel.marshals b v r1 → goJSON.toRel.marshals b v r2 → r1 = r2) ∧
    rangeMap.iterate
        = (⟨[("stale".toList, 7)], rangeMap.entries, true⟩ : Map Value).iterate ∧
    decide (rangeMap.elements = [("stale".toList, 7)]) = false ∧
    (∀ r1 r2, rangeMap.MarshalJSONRuns goJSON.toRel r1 →
      Map.MarshalJSONRuns goJSON.toRel ⟨[("stale".toList, 7)], rangeMap.entries, true⟩ r2 →
      r1 = r2) ∧
    (∀ r1 r2, rangeMap.MarshalJSONRuns goJSON.toRel r1 →
      rangeMap.MarshalJSONRuns goJSON.toRel r2 → r1 = r2) ∧
    (∀ r, Map.MarshalJSONRuns goJSON.toRel ⟨[("stale".toList, 7)], rangeMap.entries, true⟩ r
      ↔ r = rangeMap.MarshalJSON goJSON) ∧
    rangeMap.MarshalJSON goJSON = (some
      "\x7b\"range\"\n:\"\\u003e1.0.0 \\u0026\\u0026 \\u003c2.0.0\"\n\x7d".toList, none) :=
  ⟨toRel_deterministic goJSON, rfl, by decide,
    (MarshalJSON_deterministic goJSON.toRel (toRel_deterministic goJSON) rangeMap
      ⟨[("stale".toList, 7)], rangeMap.entries, true⟩ rfl rfl).1,
    (MarshalJSON_deterministic goJSON.toRel (toRel_deterministic goJSON) rangeMap
      ⟨[("stale".toList, 7)], rangeMap.entries, true⟩ rfl rfl).2.1,
    ((MarshalJSON_deterministic goJSON.toRel (toRel_deterministic goJSON) rangeMap
      ⟨[("stale".toList, 7)], rangeMap.entries, true⟩ rfl rfl).2.2 goJSON).2,
    by decide⟩

/-- C13: when `MarshalJSON` succeeds on a map of `n` entries, the bytes it
returns are an opening brace, for each entry the encoded key, a line feed, a
colon, the encoded value and a line feed, commas in between, and a closing
brace; no encoded key or value contains a line feed, so the bytes hold exactly
`2n` line feeds, none of them inside a string literal. `json.Marshal` returns
these bytes compacted; with the whitespace removed they are the whitespace-free
object literal, and as returned they are that literal only when `n = 0`. -/
theorem MarshalJSON_line_feeds (m : Map Value) (bytes : Bytes)
    (h : m.MarshalJSON goJSON = (some bytes, none)) :
    bytes = lbrace :: List.intercalate [',']
      (m.iterate.map fun p =>
        encoded goJSON m.escapeHTML (goJSON.ofKey p.1) ++ [lf] ++ [':']
          ++ encoded goJSON m.escapeHTML p.2 ++ [lf])
      ++ [rbrace] ∧
    (∀ p ∈ m.iterate, lf ∉ encoded goJSON m.escapeHTML (goJSON.ofKey p.1)
      ∧ lf ∉ encoded goJSON m.escapeHTML p.2) ∧
    bytes.count lf = 2 * m.Len ∧
    Marshal m = (some (appendCompact [] bytes true), none) ∧
    appendCompact [] bytes false = objectLiteral goJSON m.escapeHTML m.iterate ∧
    (bytes = objectLiteral goJSON m.escapeHTML m.iterate ↔ m.Len = 0) := by
  have hpar := MarshalJSON_eq goJSON m
  have hgo := MarshalJSON_goJSON m
  rw [h] at hpar hgo
  cases hfe : firstError goJSON m.escapeHTML m.iterate with
  | some err => rw [hfe] at hpar; cases hpar
  | none =>
    cases herr : entriesError m.entries with
    | some err => rw [herr] at hgo; cases hgo
    | none =>
      rw [hfe] at hpar
      rw [herr] at hgo
      have hb1 := Option.some.inj (congrArg Prod.fst hpar)
      have hb2 : bytes = lbrace :: rawEntries m.escapeHTML true m.entries ++ [rbrace] :=
        Option.some.inj (congrArg Prod.fst hgo)
      have hlit := objectLiteral_goJSON m.escapeHTML m.entries herr
      have hcount : bytes.count lf = 2 * m.Len := by
        have h1 : [rbrace].count lf = 0 := by decide
        have h2 : ¬ (lbrace = lf) := by decide
        rw [hb2, List.cons_append, List.count_cons, List.count_append, count_lf_rawEntries, h1]
        simp [Map.Len, h2]
      have hcompact : appendCompact [] bytes false
          = objectLiteral goJSON m.escapeHTML m.iterate := by
        have hc := compactFrom_rawEntries false m.escapeHTML m.entries true [rbrace]
        simp only [Map.iterate, Map.First]
        rw [hlit, hb2]
        simp only [appendCompact, List.nil_append, List.cons_append]
        rw [compactFrom_plain false lbrace _ (by decide), hc,
          compactFrom_plain false rbrace _ (by decide), Bool.false_or]
        rfl
      have hlitcount : (objectLiteral goJSON m.escapeHTML m.iterate).count lf = 0 := by
        simp only [Map.iterate, Map.First]
        rw [hlit]
        apply count_lf_zero
        intro x hx
        refine mem_cons_not_lf lbrace x _ (by decide) ?_ hx
        intro y hy
        exact mem_append_not_lf y _ _ (renderEntries_not_lf m.escapeHTML m.entries true)
          (by decide) hy
      refine ⟨?_, ?_, hcount, ?_, hcompact, ?_⟩
      · exact hb1
      · intro p hp
        have hv := entriesError_none_mem m.entries herr p hp
        rw [encoded_goJSON_key, encoded_goJSON_value m.escapeHTML p.2 hv]
        exact ⟨fun hm => appendString_not_lf m.escapeHTML p.1 lf hm rfl,
          fun hm => render_not_lf m.escapeHTML p.2 lf hm rfl⟩
      · have hc := compactFrom_rawEntries true m.escapeHTML m.entries true [rbrace]
        have hve : valueError (.object m) = none := by
          rw [valueError_object, herr]
        rw [Marshal_eq, hve, render_object, hb2]
        simp only [appendCompact, List.nil_append, List.cons_append]
        rw [compactFrom_plain true lbrace _ (by decide), hc,
          compactFrom_plain true rbrace _ (by decide)]
        rfl
      · constructor
        · intro heq
          rw [heq, hlitcount] at hcount
          omega
        · intro hlen
          have hnil : m.entries = [] := List.length_eq_zero.1 hlen
          simp only [Map.iterate, Map.First]
          rw [hlit, hb2, hnil]
          simp only [rawEntries, renderEntries]

/-- Witness of C13 on the map of `rawJSON`: two line feeds, and the compacted
bytes are the literal. -/
theorem MarshalJSON_line_feeds_witness :
    rangeMap.MarshalJSON goJSON
      = (some "\x7b\"range\"\n:\"\\u003e1.0.0 \\u0026\\u0026 \\u003c2.0.0\"\n\x7d".toList,
          none) ∧
    List.count lf
        "\x7b\"range\"\n:\"\\u003e1.0.0 \\u0026\\u0026 \\u003c2.0.0\"\n\x7d".toList
      = 2 * rangeMap.Len ∧
    appendCompact []
        "\x7b\"range\"\n:\"\\u003e1.0.0 \\u0026\\u0026 \\u003c2.0.0\"\n\x7d".toList false
      = escapedJSON ∧
    objectLiteral goJSON rangeMap.escapeHTML rangeMap.iterate = escapedJSON :=
  ⟨by decide,
    (MarshalJSON_line_feeds rangeMap
      "\x7b\"range\"\n:\"\\u003e1.0.0 \\u0026\\u0026 \\u003c2.0.0\"\n\x7d".toList
      (by decide)).2.2.1,
    by decide, by decide⟩

/-! ## Decoding: keys, length and lookup -/

set_option maxRecDepth 100000 in
/-- C11: when the parser reads the members `members` from an object literal and
their keys are pairwise distinct, decoding the literal into a new map succeeds
and gives a map whose `Keys()` are the member keys in the order read, whose
`Len()` is the number of members, where `Get` of a member key returns its value
with `true` and `Get` of any other key returns `(nil, false)`. On the text that
the encoder writes for a map the members are read in the order written. For
`PlainJSON` the keys are a, c, d, b, e, the length is 5, each key has its
number and `Get("f")` is `(nil, false)`. Numbers of every form are read:
`numbersJSON`, with a fraction, exponents, a negative zero, an integer above
`2^53` and a literal beyond the range of `float64`, decodes to the six keys in
document order, each number the nearest `float64`. Decoding returns no error
but `ParseError`. -/
theorem UnmarshalJSON_keys (data : Bytes) (members : List (Key × Value))
    (hdoc : documentMembers (New : Map Value).escapeHTML data = .ok members)
    (huniq : (members.map Prod.fst).Nodup) :
    (∃ m, (New : Map Value).UnmarshalJSON data = .ok m ∧
      m.Keys = members.map Prod.fst ∧ m.Len = members.length ∧
      (∀ p ∈ members, m.Get p.1 = (some p.2, true)) ∧
      (∀ key, key ∉ members.map Prod.fst → m.Get key = (none, false))) ∧
    (∀ source : Map Value, valueError (.object source) = none →
      float64Numbers (.object source) = true →
      documentMembers true (render true (.object source))
          = .ok (canonEntries true source.entries) ∧
        (canonEntries true source.entries).map Prod.fst = source.Keys) ∧
    ((New : Map Value).UnmarshalJSON tests_PlainJSON = .ok plainMap ∧
      plainMap.Keys = ["a".toList, "c".toList, "d".toList, "b".toList, "e".toList] ∧
      plainMap.Len = 5 ∧
      plainMap.Get "a".toList = (some (.number 1), true) ∧
      plainMap.Get "c".toList = (some (.number 3), true) ∧
      plainMap.Get "d".toList = (some (.number 4), true) ∧
      plainMap.Get "b".toList = (some (.number 2), true) ∧
      plainMap.Get "e".toList = (some (.number 5), true) ∧
      plainMap.Get "f".toList = (none, false)) ∧
    ((New : Map Value).UnmarshalJSON numbersJSON = .ok numbersMap ∧
      numbersMap.Keys
        = ["a".toList, "b".toList, "c".toList, "d".toList, "e".toList, "f".toList] ∧
      numbersMap.Len = 6 ∧
      numbersMap.Get "a".toList = (some (.number ⟨false, 15, -1⟩), true) ∧
      numbersMap.Get "d".toList = (some (.number 9007199254740992), true)) ∧
    (∀ (target : Map Value) (text : Bytes) (err : DecodeError),
      target.UnmarshalJSON text = .error err → err = .parseError) := by
  refine ⟨?_, ?_, ⟨rfl, rfl, rfl, rfl, rfl, rfl, rfl, rfl, rfl⟩, ⟨rfl, rfl, rfl, rfl, rfl⟩, ?_⟩
  · have hdec := UnmarshalJSON_documentMembers (New : Map Value) data
    rw [hdoc] at hdec
    have hentries := setAll_fresh members (New : Map Value) rfl huniq
      (fun k _ hk => absurd hk (List.not_mem_nil k))
    have hindex := setAll_index members (New : Map Value) rfl
      (fun k i hki => absurd hki (List.not_mem_nil _)) huniq
      (fun k _ hk => absurd hk (List.not_mem_nil k))
    have hent : (setAll (New : Map Value) members).entries = members := by
      rw [hentries.1]; rfl
    have hget := Get_of_index (setAll (New : Map Value) members) hindex.1 hindex.2
      (by rw [hent]; exact huniq)
    rw [hent] at hget
    exact ⟨setAll New members, hdec, by simp only [Map.Keys, hent],
      by simp only [Map.Len, hent], hget.1, hget.2⟩
  · intro source herr hn
    exact ⟨documentMembers_render source true herr hn, by
      simp only [canonEntries_keys, Map.Keys]⟩
  · intro target text err herr
    cases err with
    | parseError => rfl
    | outOfFuel => exact absurd herr (UnmarshalJSON_fuel target text)

set_option maxRecDepth 100000 in
/-- Witness of C11 on the entry `PlainJSON` of the test table. -/
theorem UnmarshalJSON_keys_witness :
    documentMembers (New : Map Value).escapeHTML tests_PlainJSON = .ok plainMap.entries ∧
    (plainMap.entries.map Prod.fst).Nodup ∧
    ∃ m, (New : Map Value).UnmarshalJSON tests_PlainJSON = .ok m ∧
      m.Keys = plainMap.entries.map Prod.fst ∧ m.Len = plainMap.entries.length ∧
      (∀ p ∈ plainMap.entries, m.Get p.1 = (some p.2, true)) ∧
      (∀ key, key ∉ plainMap.entries.map Prod.fst → m.Get key = (none, false)) :=
  ⟨rfl, by decide, (UnmarshalJSON_keys tests_PlainJSON plainMap.entries rfl (by decide)).1⟩

end Jsonmap
